import Mathlib

/-!
Verification development for the vouch peer trust-graph index and merge
engine.  The relational index (peers, registries, packages, reviews,
comments) is embedded shallowly: each SQLite table becomes a list of row
structures inside a `Db` state, and each index operation from
`src/vouch/src/{peer,registry,package,review}/index.rs` becomes a pure
function over `Db` returning `Except DbError`.  Rust `assert!` panics are
modelled as `DbError.assertionFailure`, SQLite UNIQUE violations as
`DbError.constraintViolation`, and `format_err!` results as
`DbError.notFound`.  The 64-bit `hash_sans_id` digest is modelled as the
tuple of non-ID fields (digest collisions across distinct content are, as
in the source, not modelled).  `HashSet` iteration order is unspecified in
the source; lists here fix a deterministic representative, and theorems
about set-valued results are phrased so as not to depend on that order.
-/

set_option synthInstance.maxSize 512

/-- Lookup in an association list (models `HashMap::get`). -/
def lookup_kv {κ α : Type} [DecidableEq κ] (k : κ) : List (κ × α) → Option α
  | [] => none
  | (k', v) :: rest => if k' = k then some v else lookup_kv k rest

/-- Insert into an association list, replacing any existing binding for the
key (models `HashMap::insert`). -/
def insert_kv {κ α : Type} [DecidableEq κ] (k : κ) (v : α) (m : List (κ × α)) :
    List (κ × α) :=
  match lookup_kv k m with
  | some _ => m.map (fun p => if p.1 = k then (k, v) else p)
  | none => m ++ [(k, v)]

/-- Collapse a list into an association list keyed by `key` (models
`iter().map(|x| (key(x), x)).collect::<HashMap<_,_>>()`); a later element
with the same key replaces an earlier one. -/
def collect_by_key {κ α : Type} [DecidableEq κ] (key : α → κ) (l : List α) :
    List (κ × α) :=
  l.foldl (fun m x => insert_kv (key x) x m) []

/-- `common::index::get_difference_sans_id`: collapse both sets into maps
keyed by the sans-ID digest, take the key difference, and return the
corresponding elements of `primary`. -/
def get_difference_sans_id {α κ : Type} [DecidableEq κ] (hash_sans_id : α → κ)
    (primary secondary : List α) : List α :=
  let pm := collect_by_key hash_sans_id primary
  let sm := collect_by_key hash_sans_id secondary
  (pm.filter (fun kv => (lookup_kv kv.1 sm).isNone)).map Prod.snd

/-- Sorted insertion used to build canonically ordered lists. -/
def sort_insert {α : Type} (le : α → α → Bool) (x : α) : List α → List α
  | [] => [x]
  | y :: ys => if le x y then x :: y :: ys else y :: sort_insert le x ys

/-- Insertion sort over a boolean order. -/
def sort_by {α : Type} (le : α → α → Bool) (l : List α) : List α :=
  l.foldr (sort_insert le) []

/-- Insert an id into a `BTreeSet<ID>` represented as a strictly sorted
list. -/
def btree_insert (x : Nat) : List Nat → List Nat
  | [] => [x]
  | y :: ys =>
    if x < y then x :: y :: ys
    else if x = y then y :: ys
    else y :: btree_insert x ys

/-- Next SQLite rowid for a table: one more than the largest id in use. -/
def next_rowid (ids : List Nat) : Nat := ids.foldr max 0 + 1

/-- Match a row field against an optional query field: `None` renders as the
SQL LIKE pattern percent (match everything), `Some v` as the escaped literal
`v` (exact match). -/
def opt_match {α : Type} [DecidableEq α] (f : Option α) (v : α) : Bool :=
  match f with
  | none => true
  | some x => decide (x = v)

/-- `comment::common::Summary`. -/
inductive Summary where
  | fail : Summary
  | warn : Summary
  | pass : Summary
deriving DecidableEq, Repr

/-- `comment::common::Position`. -/
structure Position where
  line : Int
  character : Int
deriving DecidableEq, Repr

/-- `comment::common::Selection`. -/
structure Selection where
  start : Position
  stop : Position
deriving DecidableEq, Repr

/-- `comment::common::Comment` and its table row. -/
structure Comment where
  id : Nat
  path : String
  summary : Summary
  message : String
  selection : Option Selection
deriving DecidableEq, Repr

/-- `registry::common::Registry` and its table row. -/
structure Registry where
  id : Nat
  host_name : String
  registry_human_url : String
  archive_url : String
deriving DecidableEq, Repr

/-- `peer::common::Peer` and its table row; `child_peer_ids` is the
`Option<SubPeerIds>` BTreeSet represented as a strictly sorted list.  The
source's `alias` field is spelled `peer_alias` because `alias` is reserved
in Lean. -/
structure Peer where
  id : Nat
  peer_alias : String
  git_url : String
  parent_id : Option Nat
  child_peer_ids : Option (List Nat)
deriving DecidableEq, Repr

/-- `Peer::is_root`: reserved alias and no parent. -/
def Peer.is_root (p : Peer) : Bool := p.peer_alias == "root" && p.parent_id.isNone

/-- `package` table row (`registry_ids` is the serialized id vector). -/
structure PackageRow where
  id : Nat
  name : String
  version : String
  registry_ids : List Nat
  artifact_hash : String
deriving DecidableEq, Repr

/-- In-memory `package::common::Package` with its set of registries. -/
structure Package where
  id : Nat
  name : String
  version : String
  registries : List Registry
  artifact_hash : String
deriving DecidableEq, Repr

/-- `review` table row (`comment_ids` is the serialized id vector, `NULL`
when the review was inserted with no comments). -/
structure ReviewRow where
  id : Nat
  peer_id : Nat
  package_id : Nat
  comment_ids : Option (List Nat)
deriving DecidableEq, Repr

/-- In-memory `review::common::Review` as used by `review::index`. -/
structure Review where
  id : Nat
  peer : Peer
  package : Package
  comments : List Comment
deriving DecidableEq, Repr

/-- The relational index: one list per SQLite table. -/
structure Db where
  peer : List Peer
  registry : List Registry
  package : List PackageRow
  review : List ReviewRow
  comment : List Comment
deriving DecidableEq, Repr

/-- Error outcomes of index operations: `assertionFailure` models a Rust
`assert!` panic, `constraintViolation` a SQLite UNIQUE failure, and
`notFound` a `format_err!` error. -/
inductive DbError where
  | assertionFailure : String → DbError
  | constraintViolation : String → DbError
  | notFound : String → DbError
deriving DecidableEq, Repr

/-- `Comment::hash_sans_id`: every field except the id. -/
def comment_sans_id (c : Comment) : String × Summary × String × Option Selection :=
  (c.path, c.summary, c.message, c.selection)

/-- `Registry::hash_sans_id`: every field except the id. -/
def registry_sans_id (r : Registry) : String × String × String :=
  (r.host_name, r.registry_human_url, r.archive_url)

/-- `Peer::hash_sans_id`: every field except the id. -/
def peer_sans_id (p : Peer) : String × String × Option Nat × Option (List Nat) :=
  (p.peer_alias, p.git_url, p.parent_id, p.child_peer_ids)

/-- Boolean lexicographic order on registry content triples, used to build
the canonical encoding of a registry set. -/
def triple_le (a b : String × String × String) : Bool :=
  if a.1 ≠ b.1 then decide (a.1 < b.1)
  else if a.2.1 ≠ b.2.1 then decide (a.2.1 < b.2.1)
  else decide (a.2.2 ≤ b.2.2)

/-- Modelled from the spec: the multi-registry `Package::hash_sans_id` is
absent from the source tree (only its single-registry predecessor in
`package/common.rs` is present, while `package/index.rs` already uses a
registry set).  Per spec section 4.1 the hash of a set-valued field is taken
over a canonical sorted encoding of the set, ignoring registry ids. -/
def package_sans_id (p : Package) :
    String × String × List (String × String × String) × String :=
  (p.name, p.version, sort_by triple_le (p.registries.map registry_sans_id),
    p.artifact_hash)

/-- `peer::index::Fields` (the `child_peer_ids` field exists in the source
struct but is not used by the SQL query in `get`). -/
structure PeerFields where
  id : Option Nat := none
  peer_alias : Option String := none
  git_url : Option String := none
  parent_id : Option Nat := none
  child_peer_ids : Option (List Nat) := none

/-- Row predicate of `peer::index::get`: each given field must match
exactly; `parent_id` is compared through `ifnull(parent_id, '')`, so a
`NULL` parent matches only the all-pattern. -/
def peer_matches (f : PeerFields) (p : Peer) : Bool :=
  opt_match f.id p.id && opt_match f.peer_alias p.peer_alias &&
    opt_match f.git_url p.git_url &&
    (match f.parent_id with
     | none => true
     | some pid => decide (p.parent_id = some pid))

/-- `peer::index::get`. -/
def peer_get (f : PeerFields) (db : Db) : List Peer :=
  db.peer.filter (peer_matches f)

/-- `peer::index::get_root`: the peer with the reserved alias, if any. -/
def get_root (db : Db) : Option Peer :=
  (peer_get { peer_alias := some "root" } db).head?

/-- `peer::common::ROOT_DEFAULT_GIT_URL`. -/
def ROOT_DEFAULT_GIT_URL : String := "https://localhost"

/-- `peer::index::add_child_peer_id`: extend the in-memory parent's child
set and persist the same set to the parent's row. -/
def add_child_peer_id (peer child : Peer) (db : Db) : Peer × Db :=
  let ids := btree_insert child.id (peer.child_peer_ids.getD [])
  let peer' := { peer with child_peer_ids := some ids }
  (peer',
    { db with
      peer := db.peer.map (fun p =>
        if p.id = peer.id then { p with child_peer_ids := some ids } else p) })

/-- `peer::index::remove_child_peer_id`: delete the child's id from the
in-memory parent's set; if it was present, persist the new set (stored as
`NULL` when it became empty). -/
def remove_child_peer_id (peer child : Peer) (db : Db) : Peer × Db :=
  match peer.child_peer_ids with
  | none => (peer, db)
  | some ids =>
    if child.id ∈ ids then
      let ids' := ids.erase child.id
      let stored := if ids'.isEmpty then none else some ids'
      ({ peer with child_peer_ids := some ids' },
        { db with
          peer := db.peer.map (fun p =>
            if p.id = peer.id then { p with child_peer_ids := stored } else p) })
    else (peer, db)

/-- `peer::index::insert`: INSERT the new row (UNIQUE on alias and on
git_url), then, when a parent is given, run `add_child_peer_id` on it.  The
Rust `&mut` parent comes back as the middle component. -/
def peer_insert (peer_alias git_url : String) (parent : Option Peer) (db : Db) :
    Except DbError (Peer × Option Peer × Db) :=
  if db.peer.any (fun p => p.peer_alias == peer_alias || p.git_url == git_url) then
    .error (.constraintViolation "UNIQUE constraint failed: peer.alias / peer.git_url")
  else
    let new_peer : Peer :=
      { id := next_rowid (db.peer.map Peer.id), peer_alias := peer_alias,
        git_url := git_url, parent_id := parent.map Peer.id,
        child_peer_ids := none }
    let db1 : Db := { db with peer := db.peer ++ [new_peer] }
    match parent with
    | none => .ok (new_peer, none, db1)
    | some pp =>
      let (pp', db2) := add_child_peer_id pp new_peer db1
      .ok (new_peer, some pp', db2)

/-- `peer::index::remove`: take the first matching peer (no-op when none
matches), assert that its child set is empty, error on the root peer,
delete the peer's id from its parent's child set, then delete the row. -/
def peer_remove (f : PeerFields) (db : Db) : Except DbError Db :=
  match (peer_get f db).head? with
  | none => .ok db
  | some peer =>
    if (match peer.child_peer_ids with
        | some ids => !ids.isEmpty
        | none => false) then
      .error (.assertionFailure
        "Error removing peer. Peer has associated child peers which need to be removed first.")
    else
      match peer.parent_id with
      | none => .error (.notFound "Cannot remove root peer.")
      | some parent_peer_id =>
        match (peer_get { id := some parent_peer_id } db).head? with
        | none => .error (.notFound "Parent peer not found in index.")
        | some parent_peer =>
          let (_, db1) := remove_child_peer_id parent_peer peer db
          .ok { db1 with peer := db1.peer.filter (fun p => p.id ≠ peer.id) }

/-- One BFS expansion step: all rows whose `parent_id` is the id of a peer
in the given layer (the union over the layer of the per-peer child
queries). -/
def bfs_children (db : Db) (layer : List Peer) : List Peer :=
  db.peer.filter (fun p =>
    match p.parent_id with
    | some pid => layer.any (fun q => q.id == pid)
    | none => false)

/-- Loop of `peer::index::get_breadth_first_child_peers`, with explicit
fuel standing in for the unbounded source loop (the fuel used below always
suffices when the source loop terminates). -/
def bfs_layers (db : Db) : Nat → List Peer → List (List Peer)
  | 0, _ => []
  | _ + 1, [] => []
  | fuel + 1, unprocessed => unprocessed :: bfs_layers db fuel (bfs_children db unprocessed)

/-- `peer::index::get_breadth_first_child_peers`: the starting peer is the
first layer; each following layer is the set of children of the previous
layer; the loop stops at the first empty layer. -/
def get_breadth_first_child_peers (starting_peer : Peer) (db : Db) :
    List (List Peer) :=
  bfs_layers db (db.peer.length + 1) [starting_peer]

/-- Characters following the first `://` scheme separator, if any. -/
def after_scheme : List Char → Option (List Char)
  | [] => none
  | ':' :: '/' :: '/' :: rest => some rest
  | _ :: xs => after_scheme xs

/-- Host part of a parsed URL string (`url::Url::host_str`): the component
between the scheme separator and the next slash. -/
def url_host (s : String) : String :=
  match after_scheme s.toList with
  | some rest => String.mk (rest.takeWhile (fun c => c ≠ '/'))
  | none => ""

/-- First path segment of a parsed URL string
(`url::Url::path_segments().first()`): the component between the first and
second slash after the host. -/
def url_first_path_segment (s : String) : String :=
  match after_scheme s.toList with
  | some rest =>
    match rest.dropWhile (fun c => c ≠ '/') with
    | _ :: seg => String.mk (seg.takeWhile (fun c => c ≠ '/'))
    | [] => ""
  | none => ""

/-- `peer::index::get_new_alias`: derive a short alias from well-known
hosts, falling back to the full git URL when the alias is reserved or
already taken. -/
def get_new_alias (git_url : String) (db : Db) : String :=
  let a :=
    if url_host git_url == "github.com" || url_host git_url == "gitlab.com" then
      url_first_path_segment git_url
    else git_url
  if a == "root" then git_url
  else if !(peer_get { peer_alias := some a } db).isEmpty then git_url
  else a

/-- Loop of `peer::index::get_peer_subtrees`: repeatedly pop a partial
root-to-node path, append one extended path per child, and record the path
once its leaf has no children.  Explicit fuel stands in for the unbounded
source loop; the fuel used below suffices whenever the peer graph reachable
from the start is a tree. -/
def peer_subtrees_go (db : Db) :
    Nat → List (List Peer) → List (List Peer) → Except DbError (List (List Peer))
  | 0, complete, _ => .ok complete
  | _ + 1, complete, [] => .ok complete
  | fuel + 1, complete, subtree :: queue =>
    match subtree.getLast? with
    | none => .error (.notFound "Found an empty subtree.")
    | some leaf_peer =>
      let children := peer_get { parent_id := some leaf_peer.id } db
      if children.isEmpty then peer_subtrees_go db fuel (complete ++ [subtree]) queue
      else
        peer_subtrees_go db fuel complete
          (queue ++ children.map (fun child => subtree ++ [child]))

/-- `peer::index::get_peer_subtrees` starting, as in `merge`, from no given
subtree: begin at the index's root peer. -/
def get_peer_subtrees (db : Db) : Except DbError (List (List Peer)) :=
  match get_root db with
  | none => .error (.notFound "Cannot find root peer.")
  | some root_peer =>
    peer_subtrees_go db (db.peer.length + 1) [] [[root_peer]]

/-- State threaded through `peer::index::merge`: the two `HashMap`s of the
source keyed by git URL, plus the destination index. -/
structure MergeSt where
  existing : List (String × Peer)
  inserted : List (String × Peer)
  db : Db

/-- The `insert_peer` closure of `peer::index::merge`: skip peers whose git
URL is already known (locally or inserted during this merge); otherwise
resolve the parent's local counterpart in the two maps, insert, and record
the new peer.  A parent found in a map is mutated in place by
`add_child_peer_id`, so its map binding is refreshed with the updated
value. -/
def merge_parent_slot (parent_peer : Option Peer) (st : MergeSt) :
    Option (Bool × Peer) :=
  match parent_peer with
  | none => none
  | some pp =>
    match lookup_kv pp.git_url st.inserted with
    | some q => some (true, q)
    | none =>
      match lookup_kv pp.git_url st.existing with
      | some q => some (false, q)
      | none => none

def merge_map_update (parent_slot : Option (Bool × Peer)) (parent' : Option Peer)
    (st : MergeSt) : MergeSt :=
  match parent_slot, parent' with
  | some (true, q), some pq => { st with inserted := insert_kv q.git_url pq st.inserted }
  | some (false, q), some pq => { st with existing := insert_kv q.git_url pq st.existing }
  | _, _ => st

def merge_insert_peer (peer : Peer) (parent_peer : Option Peer) (st : MergeSt) :
    Except DbError MergeSt :=
  if (lookup_kv peer.git_url st.existing).isSome ||
      (lookup_kv peer.git_url st.inserted).isSome then
    .ok st
  else
    match peer_insert (get_new_alias peer.git_url st.db) peer.git_url
        ((merge_parent_slot parent_peer st).map Prod.snd) st.db with
    | .error e => .error e
    | .ok (inserted_peer, parent', db') =>
      let st1 : MergeSt := merge_map_update (merge_parent_slot parent_peer st) parent' st
      .ok { st1 with
        db := db',
        inserted := insert_kv peer.git_url inserted_peer st1.inserted }

/-- Body of the subtree-pair loop of `peer::index::merge`: substitute the
designated git URL for the incoming tree's own root, insert that root under
the local root when it appears as a parent, then insert the child under
it. -/
def merge_process_pair (incoming_root_git_url : String) (root_peer : Peer)
    (st : MergeSt) (pair : Peer × Peer) : Except DbError MergeSt :=
  let parent0 := pair.1
  let peer := pair.2
  let parent_peer :=
    if parent0.is_root then { parent0 with git_url := incoming_root_git_url }
    else parent0
  match (if parent_peer.is_root then merge_insert_peer parent_peer (some root_peer) st
         else .ok st) with
  | .error e => .error e
  | .ok st1 => merge_insert_peer peer (some parent_peer) st1

/-- `windows(2)` over a list, as consecutive pairs. -/
def windows2 {α : Type} (l : List α) : List (α × α) := l.zip l.tail

/-- `peer::index::merge`: build the existing-peers map, enumerate the
incoming index's root-to-leaf paths, process every consecutive pair of each
path, and return the newly inserted peers. -/
def peer_merge (incoming_root_git_url : String) (incoming db : Db) :
    Except DbError (List Peer × Db) :=
  match get_root db with
  | none => .error (.notFound "Root peer must exist before merging in other peers.")
  | some root_peer =>
    match get_peer_subtrees incoming with
    | .error e => .error e
    | .ok subtrees =>
      let st0 : MergeSt := ⟨collect_by_key Peer.git_url db.peer, [], db⟩
      match subtrees.foldlM
          (fun st subtree =>
            (windows2 subtree).foldlM
              (merge_process_pair incoming_root_git_url root_peer) st) st0 with
      | .error e => .error e
      | .ok stF => .ok (stF.inserted.map Prod.snd, stF.db)

/-- `registry::index::Fields`. -/
structure RegistryFields where
  id : Option Nat := none
  host_name : Option String := none
  registry_human_url : Option String := none
  archive_url : Option String := none
  ids : Option (List Nat) := none

/-- `registry::index::get` (the `ids` variant models the `id IN (...)`
query used when reconstructing a package's registry set). -/
def registry_get (f : RegistryFields) (db : Db) : List Registry :=
  db.registry.filter (fun r =>
    opt_match f.id r.id && opt_match f.host_name r.host_name &&
      opt_match f.registry_human_url r.registry_human_url &&
      opt_match f.archive_url r.archive_url &&
      (match f.ids with
       | none => true
       | some ids => ids.contains r.id))

/-- `registry::index::insert` (UNIQUE on `archive_url`). -/
def registry_insert (host_name registry_human_url archive_url : String) (db : Db) :
    Except DbError (Registry × Db) :=
  if db.registry.any (fun r => r.archive_url == archive_url) then
    .error (.constraintViolation "UNIQUE constraint failed: registry.archive_url")
  else
    let r : Registry :=
      { id := next_rowid (db.registry.map Registry.id), host_name := host_name,
        registry_human_url := registry_human_url, archive_url := archive_url }
    .ok (r, { db with registry := db.registry ++ [r] })

/-- `registry::index::ensure`: get-or-insert by exact content. -/
def registry_ensure (host_name registry_human_url archive_url : String) (db : Db) :
    Except DbError (Registry × Db) :=
  match (registry_get
      { host_name := some host_name, registry_human_url := some registry_human_url,
        archive_url := some archive_url } db).head? with
  | some r => .ok (r, db)
  | none => registry_insert host_name registry_human_url archive_url db

/-- `registry::index::merge`: insert every incoming registry whose sans-ID
content is unknown locally; return the newly inserted rows. -/
def registry_merge (incoming db : Db) : Except DbError (List Registry × Db) :=
  (get_difference_sans_id registry_sans_id incoming.registry db.registry).foldlM
    (fun (acc : List Registry × Db) r =>
      match registry_insert r.host_name r.registry_human_url r.archive_url acc.2 with
      | .error e => .error e
      | .ok (r', db') => .ok (acc.1 ++ [r'], db'))
    ([], db)

/-- `package::index::Fields`. -/
structure PackageFields where
  id : Option Nat := none
  package_name : Option String := none
  package_version : Option String := none
  registry_host_names : Option (List String) := none

/-- Reconstruct a package row's registry set: the `id IN (...)` lookup
collected into a `BTreeSet<Registry>`, whose derived order begins with the
id field, so iteration is by ascending id. -/
def package_row_registries (row : PackageRow) (db : Db) : List Registry :=
  sort_by (fun a b => a.id ≤ b.id) (registry_get { ids := some row.registry_ids } db)

/-- `package::index::get`: filter rows by id/name/version, reconstruct each
row's registries, and post-filter on "any of these registry host names". -/
def package_get (f : PackageFields) (db : Db) : List Package :=
  (db.package.filter (fun row =>
    opt_match f.id row.id && opt_match f.package_name row.name &&
      opt_match f.package_version row.version)).filterMap (fun row =>
    let registries := package_row_registries row db
    match f.registry_host_names with
    | some host_names =>
      if registries.any (fun r => host_names.contains r.host_name) then
        some { id := row.id, name := row.name, version := row.version,
               registries := registries, artifact_hash := row.artifact_hash }
      else none
    | none =>
      some { id := row.id, name := row.name, version := row.version,
             registries := registries, artifact_hash := row.artifact_hash })

/-- `package::index::insert`: assert the registry set is nonempty (a panic,
not an error result), then INSERT (UNIQUE on name, version,
artifact_hash). -/
def package_insert (package_name package_version : String)
    (registries : List Registry) (artifact_hash : String) (db : Db) :
    Except DbError (Package × Db) :=
  if registries.isEmpty then
    .error (.assertionFailure
      "At least one registry must be assigned to a package before index insert.")
  else if db.package.any (fun row =>
      row.name == package_name && row.version == package_version &&
        row.artifact_hash == artifact_hash) then
    .error (.constraintViolation
      "UNIQUE constraint failed: package.name, package.version, package.artifact_hash")
  else
    let row : PackageRow :=
      { id := next_rowid (db.package.map PackageRow.id), name := package_name,
        version := package_version, registry_ids := registries.map Registry.id,
        artifact_hash := artifact_hash }
    .ok ({ id := row.id, name := package_name, version := package_version,
           registries := registries, artifact_hash := artifact_hash },
      { db with package := db.package ++ [row] })

/-- `package::index::remove` (filter by id; a defaulted filter deletes every
row, matching the SQL LIKE pattern). -/
def package_remove (f : PackageFields) (db : Db) : Db :=
  { db with package := db.package.filter (fun row => !opt_match f.id row.id) }

/-- `package::index::merge`: for each incoming package whose sans-ID
content is unknown locally, ensure each of its registries locally, then
insert the package against the ensured registry set (a `BTreeSet`, kept
here as an id-sorted deduplicated list). -/
def package_merge (incoming db : Db) : Except DbError (List Package × Db) :=
  (get_difference_sans_id package_sans_id
      (package_get {} incoming) (package_get {} db)).foldlM
    (fun (acc : List Package × Db) pkg =>
      match pkg.registries.foldlM
          (fun (racc : List Registry × Db) r =>
            (match registry_ensure r.host_name r.registry_human_url r.archive_url racc.2 with
             | .error e => .error e
             | .ok (r', db') =>
               .ok (if racc.1.contains r' then racc.1
                    else sort_insert (fun a b => a.id ≤ b.id) r' racc.1, db') :
              Except DbError (List Registry × Db)))
          ([], acc.2) with
      | .error e => .error e
      | .ok (new_registries, db1) =>
        match package_insert pkg.name pkg.version new_registries pkg.artifact_hash db1 with
        | .error e => .error e
        | .ok (pkg', db2) => .ok (acc.1 ++ [pkg'], db2))
    ([], db)

/-- `comment::index::Fields`. -/
structure CommentFields where
  id : Option Nat := none
  ids : Option (List Nat) := none

/-- `comment::index::get` (`id IN (...)` when `ids` is given, otherwise
everything). -/
def comment_get (f : CommentFields) (db : Db) : List Comment :=
  db.comment.filter (fun c =>
    match f.ids with
    | none => true
    | some ids => ids.contains c.id)

/-- `comment::index::insert` (no uniqueness constraints). -/
def comment_insert (path : String) (summary : Summary) (message : String)
    (selection : Option Selection) (db : Db) : Comment × Db :=
  let c : Comment :=
    { id := next_rowid (db.comment.map Comment.id), path := path,
      summary := summary, message := message, selection := selection }
  (c, { db with comment := db.comment ++ [c] })

/-- `comment::index::remove` (filter by id; a defaulted filter deletes every
row, matching the SQL LIKE pattern). -/
def comment_remove (f : CommentFields) (db : Db) : Db :=
  { db with comment := db.comment.filter (fun c => !opt_match f.id c.id) }

/-- `review::index::Fields` (only the fields used by the SQL query and the
host-name post-filter). -/
structure ReviewFields where
  id : Option Nat := none
  peer : Option Peer := none
  package_name : Option String := none
  package_version : Option String := none
  registry_host_names : Option (List String) := none

/-- `review::index::get`: inner-join each review row with its peer and
package (rows whose peer or package is missing are silently dropped by the
join), filter by id/name/version/peer, post-filter on registry host names,
and reconstruct the comments from the stored id vector. -/
def review_get (f : ReviewFields) (db : Db) : List Review :=
  db.review.filterMap (fun row =>
    match db.peer.find? (fun p => p.id == row.peer_id),
        db.package.find? (fun q => q.id == row.package_id) with
    | some peer, some pkgrow =>
      if opt_match f.id row.id && opt_match (f.peer.map Peer.id) peer.id &&
          opt_match f.package_name pkgrow.name &&
          opt_match f.package_version pkgrow.version then
        let registries := package_row_registries pkgrow db
        if (match f.registry_host_names with
            | some host_names => registries.any (fun r => host_names.contains r.host_name)
            | none => true) then
          some { id := row.id, peer := peer,
                 package := { id := pkgrow.id, name := pkgrow.name,
                              version := pkgrow.version, registries := registries,
                              artifact_hash := pkgrow.artifact_hash },
                 comments :=
                   match row.comment_ids with
                   | some ids => comment_get { ids := some ids } db
                   | none => [] }
        else none
      else none
    | _, _ => none)

/-- `review::index::insert` (UNIQUE on `(peer_id, package_id)`; an empty
comment set is stored as `NULL`). -/
def review_insert (comments : List Comment) (peer : Peer) (package : Package)
    (db : Db) : Except DbError (Review × Db) :=
  if db.review.any (fun row => row.peer_id == peer.id && row.package_id == package.id) then
    .error (.constraintViolation "UNIQUE constraint failed: review.peer_id, review.package_id")
  else
    let comment_ids := comments.map Comment.id
    let row : ReviewRow :=
      { id := next_rowid (db.review.map ReviewRow.id), peer_id := peer.id,
        package_id := package.id,
        comment_ids := if comment_ids.isEmpty then none else some comment_ids }
    .ok ({ id := row.id, peer := peer, package := package, comments := comments },
      { db with review := db.review ++ [row] })

/-- `review::index::remove_stale_comments`: delete the comment rows of the
currently stored review (same id) whose sans-ID hash does not occur among
the updated review's comments. -/
def remove_stale_comments (review : Review) (db : Db) : Db :=
  match (review_get { id := some review.id } db).head? with
  | none => db
  | some current_review =>
    (get_difference_sans_id comment_sans_id current_review.comments
        review.comments).foldl
      (fun d c => comment_remove { id := some c.id } d) db

/-- `review::index::update`: remove stale comments, then UPDATE the review
row in place (the UNIQUE pair constraint can still fire if the row is moved
onto another row's `(peer_id, package_id)` pair); unlike `insert`, an empty
comment set is stored as an empty vector, not `NULL`. -/
def review_update (review : Review) (db : Db) : Except DbError Db :=
  let db1 := remove_stale_comments review db
  if db1.review.any (fun row => row.id == review.id) &&
      db1.review.any (fun row =>
        row.id != review.id && row.peer_id == review.peer.id &&
          row.package_id == review.package.id) then
    .error (.constraintViolation "UNIQUE constraint failed: review.peer_id, review.package_id")
  else
    .ok { db1 with
      review := db1.review.map (fun row =>
        if row.id = review.id then
          { row with
            peer_id := review.peer.id,
            package_id := review.package.id,
            comment_ids := some (review.comments.map Comment.id) }
        else row) }

/-- Membership test of the DELETE subselect of `review::index::remove`: the
review row joined against the current peer and package tables with the
id/name/version/peer filters (the host-name post-filter of `get` is absent
from the subselect). -/
def review_row_join_matches (f : ReviewFields) (db : Db) (row : ReviewRow) : Bool :=
  opt_match f.id row.id &&
    db.peer.any (fun p => p.id == row.peer_id && opt_match (f.peer.map Peer.id) p.id) &&
    db.package.any (fun q =>
      q.id == row.package_id && opt_match f.package_name q.name &&
        opt_match f.package_version q.version)

/-- `review::index::remove`: for every matching review delete its package
and its comments, then run the single DELETE statement, whose join is
evaluated against the by-then-updated tables. -/
def review_remove (f : ReviewFields) (db : Db) : Db :=
  let victims := review_get f db
  let db1 := victims.foldl
    (fun d rv =>
      (rv.comments.foldl (fun dd c => comment_remove { id := some c.id } dd)
        (package_remove { id := some rv.package.id } d)))
    db
  { db1 with review := db1.review.filter (fun row => !review_row_join_matches f db1 row) }

/-- Peer git URL used by `review::index::merge` for an incoming review: the
incoming tree's own root is looked up under the designated incoming-root
URL. -/
def review_merge_peer_git_url (incoming_root_git_url : String) (r : Review) : String :=
  if r.peer.is_root then incoming_root_git_url else r.peer.git_url

/-- Peer lookup of `review::index::merge`. -/
def resolve_review_peer (incoming_root_git_url : String) (db : Db) (r : Review) :
    Option Peer :=
  (peer_get { git_url := some (review_merge_peer_git_url incoming_root_git_url r) }
    db).head?

/-- Package lookup of `review::index::merge`: by name, version, and any of
the incoming package's registry host names. -/
def resolve_review_package (db : Db) (r : Review) : Option Package :=
  (package_get
    { package_name := some r.package.name, package_version := some r.package.version,
      registry_host_names := some (r.package.registries.map Registry.host_name) }
    db).head?

/-- Loop body of `review::index::merge`: resolve the incoming review's peer
and package locally (both lookups are required to succeed), insert fresh
copies of its comments, and insert the review. -/
def review_merge_step (incoming_root_git_url : String)
    (acc : List Review × Db) (r : Review) : Except DbError (List Review × Db) :=
  match resolve_review_peer incoming_root_git_url acc.2 r with
  | none => .error (.notFound "Failed to find matching peer for review.")
  | some peer =>
    match resolve_review_package acc.2 r with
    | none => .error (.notFound "Failed to find matching package for review.")
    | some package =>
      let z := r.comments.foldl
        (fun (cc : List Comment × Db) c =>
          let cd := comment_insert c.path c.summary c.message c.selection cc.2
          (cc.1 ++ [cd.1], cd.2))
        ([], acc.2)
      match review_insert z.1 peer package z.2 with
      | .error e => .error e
      | .ok (rv, db2) => .ok (acc.1 ++ [rv], db2)

/-- `review::index::merge`: process every incoming review in order; any
failure aborts the whole merge. -/
def review_merge (incoming_root_git_url : String) (incoming db : Db) :
    Except DbError (List Review × Db) :=
  (review_get {} incoming).foldlM (review_merge_step incoming_root_git_url)
    ([], db)

/-- `store::index::merge`: registries, then peers, then packages, then
reviews, in one transaction. -/
def store_merge (incoming_root_git_url : String) (incoming db : Db) :
    Except DbError Db :=
  match registry_merge incoming db with
  | .error e => .error e
  | .ok (_, db1) =>
    match peer_merge incoming_root_git_url incoming db1 with
    | .error e => .error e
    | .ok (_, db2) =>
      match package_merge incoming db2 with
      | .error e => .error e
      | .ok (_, db3) =>
        match review_merge incoming_root_git_url incoming db3 with
        | .error e => .error e
        | .ok (_, db4) => .ok db4

/-- `peer::index::setup`: insert the root peer if absent. -/
def peer_setup (db : Db) : Except DbError Db :=
  if (peer_get { peer_alias := some "root" } db).isEmpty then
    match peer_insert "root" ROOT_DEFAULT_GIT_URL none db with
    | .error e => .error e
    | .ok (_, _, db') => .ok db'
  else .ok db

/-- The empty index. -/
def empty_db : Db := ⟨[], [], [], [], []⟩

/-- The index right after setup: just the root peer. -/
def initial_db : Db :=
  ⟨[{ id := 1, peer_alias := "root", git_url := ROOT_DEFAULT_GIT_URL,
      parent_id := none, child_peer_ids := none }], [], [], [], []⟩

/-- Loop of `peer::index::get_root_to_peer_subtree`: walk `parent_id` links
upward, erroring when a parent is missing (fuel stands in for the unbounded
source loop). -/
def root_to_peer_go (db : Db) : Nat → Peer → List Peer → Except DbError (List Peer)
  | 0, _, _ => .error (.notFound "Failed to find parent for peer.")
  | fuel + 1, current_peer, acc =>
    match current_peer.parent_id with
    | none => .ok (current_peer :: acc)
    | some parent_id =>
      match (peer_get { id := some parent_id } db).head? with
      | none => .error (.notFound "Failed to find parent for peer.")
      | some parent => root_to_peer_go db fuel parent (current_peer :: acc)

/-- `peer::index::get_root_to_peer_subtree` (called `get_peer_branch` at
its use site in `command::peer`): the path from the root to the given peer,
root first. -/
def get_root_to_peer_subtree (peer : Peer) (db : Db) : Except DbError (List Peer) :=
  root_to_peer_go db (db.peer.length + 1) peer []

/-- Index part of `command::peer::remove_peer_subtree` (the `peer::fs` git
calls are external collaborators): compute the peer branch, then walk the
breadth-first layers in reverse, removing each peer's reviews and then the
peer row itself. -/
def remove_peer_subtree (target_peer : Peer) (db : Db) : Except DbError Db :=
  match get_root_to_peer_subtree target_peer db with
  | .error e => .error e
  | .ok _ =>
    (get_breadth_first_child_peers target_peer db).reverse.foldlM
      (fun d layer =>
        layer.foldlM
          (fun dd peer =>
            peer_remove { id := some peer.id } (review_remove { peer := some peer } dd))
          d)
      db

theorem lookup_kv_none_iff {κ α : Type} [DecidableEq κ] {k : κ} {m : List (κ × α)} :
    lookup_kv k m = none ↔ ∀ kv ∈ m, kv.1 ≠ k := by
  induction m with
  | nil => simp [lookup_kv]
  | cons hd tl ih =>
    obtain ⟨k', v⟩ := hd
    by_cases h : k' = k
    · subst h
      simp [lookup_kv]
    · simp only [lookup_kv, if_neg h, ih, List.mem_cons]
      constructor
      · rintro hall kv (rfl | hm)
        · exact h
        · exact hall kv hm
      · intro hall kv hm
        exact hall kv (Or.inr hm)

theorem lookup_kv_some_mem {κ α : Type} [DecidableEq κ] {k : κ} {v : α}
    {m : List (κ × α)} (h : lookup_kv k m = some v) : (k, v) ∈ m := by
  induction m with
  | nil => simp [lookup_kv] at h
  | cons hd tl ih =>
    obtain ⟨k', v'⟩ := hd
    by_cases hk : k' = k
    · subst hk
      simp only [lookup_kv, if_true, eq_self_iff_true, if_pos] at h
      rw [Option.some_inj] at h
      subst h
      exact List.mem_cons_self _ _
    · simp only [lookup_kv, if_neg hk] at h
      exact List.mem_cons_of_mem _ (ih h)

theorem insert_kv_keys {κ α : Type} [DecidableEq κ] (k : κ) (v : α)
    (m : List (κ × α)) :
    (insert_kv k v m).map Prod.fst =
      (match lookup_kv k m with
       | some _ => m.map Prod.fst
       | none => m.map Prod.fst ++ [k]) := by
  unfold insert_kv
  cases h : lookup_kv k m with
  | none => simp
  | some w =>
    simp only [List.map_map]
    apply List.map_congr_left
    intro kv _
    by_cases hk : kv.1 = k
    · simp [Function.comp, hk]
    · simp [Function.comp, hk]

/-- Entries of the kv structures used here: each key is the key of its
value, the value occurs in the underlying list, and keys are distinct. -/
def KvGood {κ α : Type} (key : α → κ) (l : List α) (m : List (κ × α)) : Prop :=
  (m.map Prod.fst).Nodup ∧ ∀ kv ∈ m, kv.1 = key kv.2 ∧ kv.2 ∈ l

theorem insert_kv_good {κ α : Type} [DecidableEq κ] {key : α → κ} {l : List α}
    {m : List (κ × α)} {x : α} (hg : KvGood key l m) (hx : x ∈ l) :
    KvGood key l (insert_kv (key x) x m) := by
  obtain ⟨hnd, hmem⟩ := hg
  constructor
  · rw [insert_kv_keys]
    cases h : lookup_kv (key x) m with
    | none =>
      simp only [List.nodup_append, List.nodup_cons, List.not_mem_nil,
        not_false_iff, List.nodup_nil, and_true, true_and]
      refine ⟨hnd, ?_⟩
      intro a ha
      simp only [List.mem_singleton]
      intro rfl_eq
      subst rfl_eq
      obtain ⟨kv, hkv, hfst⟩ := List.mem_map.mp ha
      exact (lookup_kv_none_iff.mp h kv hkv) hfst
    | some w => exact hnd
  · intro kv hkv
    unfold insert_kv at hkv
    cases h : lookup_kv (key x) m with
    | none =>
      rw [h] at hkv
      rcases List.mem_append.mp hkv with hm | hs
      · exact hmem kv hm
      · rw [List.mem_singleton] at hs
        subst hs
        exact ⟨rfl, hx⟩
    | some w =>
      rw [h] at hkv
      obtain ⟨kv', hkv', heq⟩ := List.mem_map.mp hkv
      by_cases hk : kv'.1 = key x
      · rw [if_pos hk] at heq
        subst heq
        exact ⟨rfl, hx⟩
      · rw [if_neg hk] at heq
        subst heq
        exact hmem kv' hkv'

theorem foldl_insert_kv_good {κ α : Type} [DecidableEq κ] {key : α → κ}
    {l : List α} (sub : List α) (m : List (κ × α)) (hsub : ∀ x ∈ sub, x ∈ l)
    (hg : KvGood key l m) :
    KvGood key l (sub.foldl (fun m x => insert_kv (key x) x m) m) := by
  induction sub generalizing m with
  | nil => exact hg
  | cons hd tl ih =>
    simp only [List.foldl_cons]
    exact ih _ (fun x hx => hsub x (List.mem_cons_of_mem _ hx))
      (insert_kv_good hg (hsub hd (List.mem_cons_self _ _)))

theorem collect_by_key_good {κ α : Type} [DecidableEq κ] (key : α → κ)
    (l : List α) : KvGood key l (collect_by_key key l) :=
  foldl_insert_kv_good l [] (fun _ hx => hx) ⟨List.nodup_nil, by simp⟩

theorem mem_keys_foldl_insert_kv {κ α : Type} [DecidableEq κ] {key : α → κ}
    (sub : List α) (m : List (κ × α)) (k : κ) :
    (k ∈ (sub.foldl (fun m x => insert_kv (key x) x m) m).map Prod.fst) ↔
      (k ∈ m.map Prod.fst ∨ ∃ y ∈ sub, key y = k) := by
  induction sub generalizing m with
  | nil => simp
  | cons hd tl ih =>
    simp only [List.foldl_cons]
    rw [ih]
    rw [insert_kv_keys]
    cases h : lookup_kv (key hd) m with
    | none =>
      simp only [List.mem_append, List.mem_cons, List.not_mem_nil, or_false]
      constructor
      · rintro ((hm | rfl) | ⟨y, hy, hk⟩)
        · exact Or.inl hm
        · exact Or.inr ⟨hd, Or.inl rfl, rfl⟩
        · exact Or.inr ⟨y, Or.inr hy, hk⟩
      · rintro (hm | ⟨y, hy2, hk⟩)
        · exact Or.inl (Or.inl hm)
        · rcases hy2 with rfl | hy
          · exact Or.inl (Or.inr hk.symm)
          · exact Or.inr ⟨y, hy, hk⟩
    | some w =>
      simp only [List.mem_cons]
      constructor
      · rintro (hm | ⟨y, hy, hk⟩)
        · exact Or.inl hm
        · exact Or.inr ⟨y, Or.inr hy, hk⟩
      · rintro (hm | ⟨y, hy2, hk⟩)
        · exact Or.inl hm
        · rcases hy2 with rfl | hy
          · subst hk
            exact Or.inl (List.mem_map.mpr ⟨(key y, w), lookup_kv_some_mem h, rfl⟩)
          · exact Or.inr ⟨y, hy, hk⟩

theorem mem_keys_collect {κ α : Type} [DecidableEq κ] {key : α → κ} {l : List α}
    {k : κ} : (k ∈ (collect_by_key key l).map Prod.fst) ↔ ∃ y ∈ l, key y = k := by
  rw [collect_by_key, mem_keys_foldl_insert_kv]
  simp

theorem lookup_collect_none_iff {κ α : Type} [DecidableEq κ] {key : α → κ}
    {l : List α} {k : κ} :
    lookup_kv k (collect_by_key key l) = none ↔ ∀ y ∈ l, key y ≠ k := by
  constructor
  · intro h y hy hk
    have hkmem : k ∈ (collect_by_key key l).map Prod.fst :=
      mem_keys_collect.mpr ⟨y, hy, hk⟩
    obtain ⟨kv, hkv, hfst⟩ := List.mem_map.mp hkmem
    exact lookup_kv_none_iff.mp h kv hkv hfst
  · intro h
    rw [lookup_kv_none_iff]
    intro kv hkv hfst
    obtain ⟨hkey, hmem⟩ := (collect_by_key_good key l).2 kv hkv
    refine h kv.2 hmem ?_
    rw [← hkey, hfst]

theorem exists_lookup_of_mem_keys {κ α : Type} [DecidableEq κ] {k : κ}
    {m : List (κ × α)} (h : k ∈ m.map Prod.fst) : ∃ v, lookup_kv k m = some v := by
  induction m with
  | nil => simp at h
  | cons hd tl ih =>
    obtain ⟨k', v'⟩ := hd
    by_cases hk : k' = k
    · subst hk
      exact ⟨v', by simp [lookup_kv]⟩
    · simp only [List.map_cons, List.mem_cons] at h
      rcases h with rfl | h
      · exact absurd rfl hk
      · simpa [lookup_kv, if_neg hk] using ih h

theorem foldl_insert_kv_of_nodup {κ α : Type} [DecidableEq κ] {key : α → κ}
    (sub : List α) (m : List (κ × α)) (hdisj : ∀ x ∈ sub, key x ∉ m.map Prod.fst)
    (hnd : (sub.map key).Nodup) :
    sub.foldl (fun m x => insert_kv (key x) x m) m =
      m ++ sub.map (fun x => (key x, x)) := by
  induction sub generalizing m with
  | nil => simp
  | cons hd tl ih =>
    simp only [List.foldl_cons]
    have hlk : lookup_kv (key hd) m = none := by
      rw [lookup_kv_none_iff]
      intro kv hkv hfst
      exact hdisj hd (List.mem_cons_self _ _) (List.mem_map.mpr ⟨kv, hkv, hfst⟩)
    have hins : insert_kv (key hd) hd m = m ++ [(key hd, hd)] := by
      unfold insert_kv
      rw [hlk]
    rw [hins]
    rw [List.map_cons, List.nodup_cons] at hnd
    rw [ih (m ++ [(key hd, hd)]) ?_ hnd.2]
    · simp
    · intro x hx hmem
      rw [List.map_append, List.mem_append] at hmem
      rcases hmem with hmem | hmem
      · exact hdisj x (List.mem_cons_of_mem _ hx) hmem
      · simp only [List.map_cons, List.map_nil, List.mem_singleton] at hmem
        exact hnd.1 (hmem ▸ List.mem_map_of_mem key hx)

theorem collect_by_key_of_nodup {κ α : Type} [DecidableEq κ] {key : α → κ}
    {l : List α} (hnd : (l.map key).Nodup) :
    collect_by_key key l = l.map (fun x => (key x, x)) := by
  unfold collect_by_key
  rw [foldl_insert_kv_of_nodup l [] (by simp) hnd]
  simp

theorem filter_map_pair {α β : Type} (f : α → β) (p : β → Bool) (l : List α) :
    (l.map f).filter p = (l.filter (fun x => p (f x))).map f := by
  induction l with
  | nil => simp
  | cons hd tl ih =>
    by_cases h : p (f hd) <;> simp [List.filter_cons, h, ih]

theorem mem_diff_sans_id {α κ : Type} [DecidableEq κ] {hash_sans_id : α → κ}
    {primary secondary : List α} {x : α}
    (h : x ∈ get_difference_sans_id hash_sans_id primary secondary) :
    x ∈ primary ∧ ∀ y ∈ secondary, hash_sans_id y ≠ hash_sans_id x := by
  unfold get_difference_sans_id at h
  obtain ⟨kv, hkv, rfl⟩ := List.mem_map.mp h
  rw [List.mem_filter] at hkv
  obtain ⟨hpm, hpred⟩ := hkv
  obtain ⟨hkey, hmem⟩ := (collect_by_key_good hash_sans_id primary).2 kv hpm
  refine ⟨hmem, ?_⟩
  rw [Option.isNone_iff_eq_none] at hpred
  have := lookup_collect_none_iff.mp hpred
  intro y hy
  have h2 := this y hy
  rw [hkey] at h2
  exact h2

theorem diff_sans_id_nil_iff {α κ : Type} [DecidableEq κ] {hash_sans_id : α → κ}
    {primary secondary : List α} :
    get_difference_sans_id hash_sans_id primary secondary = [] ↔
      ∀ x ∈ primary, ∃ y ∈ secondary, hash_sans_id y = hash_sans_id x := by
  constructor
  · intro hnil x hx
    by_contra hno
    push_neg at hno
    have hkmem : hash_sans_id x ∈ (collect_by_key hash_sans_id primary).map Prod.fst :=
      mem_keys_collect.mpr ⟨x, hx, rfl⟩
    obtain ⟨v, hv⟩ := exists_lookup_of_mem_keys hkmem
    have hpm : (hash_sans_id x, v) ∈ collect_by_key hash_sans_id primary :=
      lookup_kv_some_mem hv
    have hpred : (lookup_kv (hash_sans_id x)
        (collect_by_key hash_sans_id secondary)).isNone = true := by
      rw [Option.isNone_iff_eq_none, lookup_collect_none_iff]
      exact hno
    have : v ∈ get_difference_sans_id hash_sans_id primary secondary := by
      unfold get_difference_sans_id
      exact List.mem_map.mpr ⟨(hash_sans_id x, v), List.mem_filter.mpr ⟨hpm, hpred⟩, rfl⟩
    rw [hnil] at this
    exact absurd this (List.not_mem_nil _)
  · intro hcov
    rw [List.eq_nil_iff_forall_not_mem]
    intro x hx
    obtain ⟨hmem, hno⟩ := mem_diff_sans_id hx
    obtain ⟨y, hy, hk⟩ := hcov x hmem
    exact hno y hy hk

/-- C10: the list returned by `get_difference_sans_id` never contains two
elements with equal sans-ID hashes: both inputs are collapsed into maps
keyed by the digest before the difference is taken, so at most one primary
element per digest can appear in the result. -/
theorem c10_thm {α κ : Type} [DecidableEq κ] (hash_sans_id : α → κ)
    (primary secondary : List α) :
    (get_difference_sans_id hash_sans_id primary secondary).Pairwise
      (fun a b => hash_sans_id a ≠ hash_sans_id b) := by
  have hg := collect_by_key_good hash_sans_id primary
  unfold get_difference_sans_id
  rw [List.pairwise_map]
  have hsub : ((collect_by_key hash_sans_id primary).filter
      (fun kv => (lookup_kv kv.1 (collect_by_key hash_sans_id secondary)).isNone)).Sublist
      (collect_by_key hash_sans_id primary) := List.filter_sublist _
  have hnd : (((collect_by_key hash_sans_id primary).filter
      (fun kv => (lookup_kv kv.1 (collect_by_key hash_sans_id secondary)).isNone)).map
      Prod.fst).Nodup := ((hsub.map Prod.fst).nodup hg.1)
  rw [List.Nodup, List.pairwise_map] at hnd
  refine hnd.imp_of_mem ?_
  intro a b ha hb hab
  have hka := (hg.2 a (hsub.mem ha)).1
  have hkb := (hg.2 b (hsub.mem hb)).1
  rw [← hka, ← hkb]
  exact hab

/-- Primary element for the C2 counterexample: content-equal to
`c2_other` but with a different id. -/
def c2_elem : Comment :=
  { id := 1, path := "a", summary := .pass, message := "m", selection := none }

/-- Second primary element for the C2 counterexample. -/
def c2_other : Comment :=
  { id := 2, path := "a", summary := .pass, message := "m", selection := none }

/-- C2 counterexample: with two content-equal primary elements of distinct
ids and an empty secondary set, `c2_elem` has no sans-ID counterpart in the
secondary set yet is absent from the result (the digest-keyed collapse
keeps only one representative), so the claimed "returns exactly the
elements of primary for which no element of secondary has an equal sans-ID
hash" fails at this input. -/
theorem c2_counterexample :
    c2_elem ∈ [c2_elem, c2_other] ∧
      (∀ y ∈ ([] : List Comment), comment_sans_id y ≠ comment_sans_id c2_elem) ∧
      c2_elem ∉ get_difference_sans_id comment_sans_id [c2_elem, c2_other] [] := by
  refine ⟨List.mem_cons_self _ _, by simp, ?_⟩
  decide

theorem diff_sans_id_of_nodup {α κ : Type} [DecidableEq κ] [DecidableEq α]
    (hash_sans_id : α → κ) (primary secondary : List α)
    (hnd : (primary.map hash_sans_id).Nodup) :
    get_difference_sans_id hash_sans_id primary secondary =
      primary.filter
        (fun x => decide (∀ y ∈ secondary, hash_sans_id y ≠ hash_sans_id x)) := by
  have hrw : get_difference_sans_id hash_sans_id primary secondary =
      ((collect_by_key hash_sans_id primary).filter
        (fun kv => (lookup_kv kv.1 (collect_by_key hash_sans_id secondary)).isNone)).map
        Prod.snd := rfl
  rw [hrw, collect_by_key_of_nodup hnd]
  rw [filter_map_pair (fun x : α => (hash_sans_id x, x))
    (fun kv => (lookup_kv kv.1 (collect_by_key hash_sans_id secondary)).isNone) primary]
  rw [List.map_map]
  have hmapid : (Prod.snd ∘ fun x : α => (hash_sans_id x, x)) = id := rfl
  rw [hmapid, List.map_id]
  apply List.filter_congr
  intro x _
  by_cases h : ∀ y ∈ secondary, hash_sans_id y ≠ hash_sans_id x
  · have h1 : lookup_kv (hash_sans_id x)
        (collect_by_key hash_sans_id secondary) = none :=
      lookup_collect_none_iff.mpr h
    rw [h1]
    simp only [Option.isNone_none]
    symm
    rw [decide_eq_true_eq]
    exact h
  · have h1 : lookup_kv (hash_sans_id x)
        (collect_by_key hash_sans_id secondary) ≠ none := by
      intro hn
      exact h (lookup_collect_none_iff.mp hn)
    simp only [decide_eq_true_eq]
    cases hlk : lookup_kv (hash_sans_id x) (collect_by_key hash_sans_id secondary) with
    | none => exact absurd hlk h1
    | some w => simp [h]

/-- C2 (amended): when no two elements of `primary` share a sans-ID hash,
`get_difference_sans_id` returns exactly the elements of `primary` for
which no element of `secondary` has an equal sans-ID hash; and, for
arbitrary inputs, the result is empty whenever every element of `primary`
has a hash-equal counterpart in `secondary`. -/
theorem c2_thm {α κ : Type} [DecidableEq κ] [DecidableEq α] (hash_sans_id : α → κ)
    (primary secondary : List α) :
    ((primary.map hash_sans_id).Nodup →
      get_difference_sans_id hash_sans_id primary secondary =
        primary.filter
          (fun x => decide (∀ y ∈ secondary, hash_sans_id y ≠ hash_sans_id x))) ∧
    ((∀ x ∈ primary, ∃ y ∈ secondary, hash_sans_id y = hash_sans_id x) →
      get_difference_sans_id hash_sans_id primary secondary = []) :=
  ⟨diff_sans_id_of_nodup hash_sans_id primary secondary, diff_sans_id_nil_iff.mpr⟩

/-- Witness for the C2 theorem at a concrete input: two distinct-hash
comments against one content-equal counterpart. -/
theorem c2_witness :
    get_difference_sans_id comment_sans_id
        [{ id := 1, path := "a", summary := .pass, message := "m", selection := none },
         { id := 2, path := "b", summary := .warn, message := "n", selection := none }]
        [{ id := 9, path := "a", summary := .pass, message := "m", selection := none }] =
      [{ id := 2, path := "b", summary := .warn, message := "n", selection := none }] := by
  have h := (c2_thm comment_sans_id
    [{ id := 1, path := "a", summary := .pass, message := "m", selection := none },
     { id := 2, path := "b", summary := .warn, message := "n", selection := none }]
    [{ id := 9, path := "a", summary := .pass, message := "m", selection := none }]).1
    (by decide)
  rw [h]
  decide

theorem bfs_layers_nil (db : Db) (fuel : Nat) : bfs_layers db fuel [] = [] := by
  cases fuel <;> rfl

theorem bfs_layers_cons (db : Db) (fuel : Nat) (x : Peer) (xs : List Peer) :
    bfs_layers db (fuel + 1) (x :: xs) =
      (x :: xs) :: bfs_layers db fuel (bfs_children db (x :: xs)) := rfl

theorem bfs_layers_head (db : Db) (u : List Peer) (fuel : Nat) (hu : u ≠ [])
    (hf : fuel ≠ 0) : (bfs_layers db fuel u).head? = some u := by
  cases fuel with
  | zero => exact absurd rfl hf
  | succ f =>
    cases u with
    | nil => exact absurd rfl hu
    | cons x xs => rw [bfs_layers_cons]; rfl

theorem bfs_layers_ne_nil (db : Db) (fuel : Nat) (u : List Peer) :
    ∀ l ∈ bfs_layers db fuel u, l ≠ [] := by
  induction fuel generalizing u with
  | zero => intro l hl; simp [bfs_layers] at hl
  | succ f ih =>
    intro l hl
    cases u with
    | nil => rw [bfs_layers_nil] at hl; exact absurd hl (List.not_mem_nil _)
    | cons x xs =>
      rw [bfs_layers_cons] at hl
      rcases List.mem_cons.mp hl with rfl | hl
      · exact List.cons_ne_nil _ _
      · exact ih _ l hl

theorem bfs_layers_chain (db : Db) (fuel : Nat) (u : List Peer) :
    ∀ i l1 l2, (bfs_layers db fuel u).get? i = some l1 →
      (bfs_layers db fuel u).get? (i + 1) = some l2 → l2 = bfs_children db l1 := by
  induction fuel generalizing u with
  | zero =>
    intro i l1 l2 h1 _
    rw [bfs_layers] at h1
    · simp at h1
  | succ f ih =>
    intro i l1 l2 h1 h2
    cases u with
    | nil =>
      rw [bfs_layers_nil] at h1
      simp at h1
    | cons x xs =>
      rw [bfs_layers_cons] at h1 h2
      cases i with
      | zero =>
        simp only [List.get?_cons_zero, Option.some_inj] at h1
        subst h1
        simp only [List.get?_cons_succ] at h2
        have hne : bfs_layers db f (bfs_children db (x :: xs)) ≠ [] := by
          intro hnil
          rw [hnil] at h2
          simp at h2
        have hcne : bfs_children db (x :: xs) ≠ [] := by
          intro hnil
          rw [hnil, bfs_layers_nil] at hne
          exact hne rfl
        have hfne : f ≠ 0 := by
          intro h0
          subst h0
          rw [bfs_layers] at hne
          · exact hne rfl
        have hhd := bfs_layers_head db (bfs_children db (x :: xs)) f hcne hfne
        cases hq : bfs_layers db f (bfs_children db (x :: xs)) with
        | nil => exact absurd hq hne
        | cons a as =>
          rw [hq] at h2 hhd
          simp only [List.get?_cons_zero, Option.some_inj] at h2
          simp only [List.head?_cons, Option.some_inj] at hhd
          rw [← h2, hhd]
      | succ j =>
        simp only [List.get?_cons_succ] at h1 h2
        exact ih _ j l1 l2 h1 h2

theorem bfs_layers_last_empty (db : Db) (fuel : Nat) (u : List Peer) (hu : u ≠ [])
    (hlen : (bfs_layers db fuel u).length < fuel) :
    ∀ last, (bfs_layers db fuel u).getLast? = some last → bfs_children db last = [] := by
  induction fuel generalizing u with
  | zero => simp [bfs_layers] at hlen
  | succ f ih =>
    intro last hlast
    cases u with
    | nil => exact absurd rfl hu
    | cons x xs =>
      rw [bfs_layers_cons] at hlen hlast
      cases hc : bfs_layers db f (bfs_children db (x :: xs)) with
      | nil =>
        rw [hc] at hlast hlen
        have hlast2 : x :: xs = last := by simpa using hlast
        subst hlast2
        by_contra hb
        cases f with
        | zero => simp at hlen
        | succ f' =>
          cases hq : bfs_children db (x :: xs) with
          | nil => exact hb hq
          | cons b bs =>
            rw [hq, bfs_layers_cons] at hc
            exact List.cons_ne_nil _ _ hc
      | cons a as =>
        rw [hc] at hlast hlen
        rw [List.getLast?_cons_cons] at hlast
        rw [← hc] at hlast
        refine ih (bfs_children db (x :: xs)) ?_ ?_ last hlast
        · intro hnil
          rw [hnil, bfs_layers_nil] at hc
          exact List.cons_ne_nil _ _ hc.symm
        · rw [← hc] at hlen
          simp only [List.length_cons] at hlen
          omega

/-- Root of the C7 example tree (root → A → B, root → C), with both
children recorded. -/
def c7_root : Peer :=
  { id := 1, peer_alias := "root", git_url := "https://localhost",
    parent_id := none, child_peer_ids := some [2, 4] }

/-- Peer A of the C7 example: child of root, parent of B. -/
def c7_A : Peer :=
  { id := 2, peer_alias := "A", git_url := "https://localhost/A",
    parent_id := some 1, child_peer_ids := some [3] }

/-- Peer B of the C7 example: child of A. -/
def c7_B : Peer :=
  { id := 3, peer_alias := "B", git_url := "https://localhost/B",
    parent_id := some 2, child_peer_ids := none }

/-- Peer C of the C7 example: child of root. -/
def c7_C : Peer :=
  { id := 4, peer_alias := "C", git_url := "https://localhost/C",
    parent_id := some 1, child_peer_ids := none }

/-- The C7 example index holding the tree root → A → B, root → C. -/
def c7_db : Db := { empty_db with peer := [c7_root, c7_A, c7_B, c7_C] }

/-- The C7 example index is exactly what the insert API builds: set up the
index, insert A under root, B under A, and C under the updated root. -/
theorem c7_db_built :
    (match peer_setup empty_db with
     | .ok d0 =>
       match peer_insert "A" "https://localhost/A" (get_root d0) d0 with
       | .ok (pA, some root1, d1) =>
         match peer_insert "B" "https://localhost/B" (some pA) d1 with
         | .ok (_, _, d2) =>
           match peer_insert "C" "https://localhost/C" (some root1) d2 with
           | .ok (_, _, d3) => some d3
           | _ => none
         | _ => none
       | _ => none
     | _ => none) = some c7_db := by
  decide

/-- C7: `get_breadth_first_child_peers` returns the breadth-first layering:
the first layer is the singleton starting peer, every following layer is
the set of children of the previous layer, no recorded layer is empty, and
(whenever the loop terminated within its layer budget, as it always does on
a tree) the children of the final layer are empty; on the example tree
root → A → B plus root → C applied to root it returns exactly
[{root}, {A, C}, {B}]. -/
theorem c7_thm (db : Db) (p : Peer) :
    (get_breadth_first_child_peers p db).head? = some [p] ∧
    (∀ i l1 l2, (get_breadth_first_child_peers p db).get? i = some l1 →
      (get_breadth_first_child_peers p db).get? (i + 1) = some l2 →
        l2 = bfs_children db l1) ∧
    (∀ l ∈ get_breadth_first_child_peers p db, l ≠ []) ∧
    ((get_breadth_first_child_peers p db).length ≤ db.peer.length →
      ∀ last, (get_breadth_first_child_peers p db).getLast? = some last →
        bfs_children db last = []) ∧
    get_breadth_first_child_peers c7_root c7_db = [[c7_root], [c7_A, c7_C], [c7_B]] := by
  refine ⟨?_, ?_, ?_, ?_, ?_⟩
  · exact bfs_layers_head db [p] (db.peer.length + 1) (List.cons_ne_nil _ _)
      (Nat.succ_ne_zero _)
  · exact bfs_layers_chain db (db.peer.length + 1) [p]
  · exact bfs_layers_ne_nil db (db.peer.length + 1) [p]
  · intro hlen
    exact bfs_layers_last_empty db (db.peer.length + 1) [p] (List.cons_ne_nil _ _)
      (by
        rw [show bfs_layers db (db.peer.length + 1) [p] =
          get_breadth_first_child_peers p db from rfl]
        omega)
  · decide

/-- Witness for C7 at the example tree: the theorem's final-layer clause
applied concretely shows layer [{B}] has no children. -/
theorem c7_witness : bfs_children c7_db [c7_B] = [] :=
  (c7_thm c7_db c7_root).2.2.2.1 (by decide) [c7_B] (by decide)

/-- Registry used by the C9 counterexample. -/
def c9_registry : Registry :=
  { id := 1, host_name := "h", registry_human_url := "u", archive_url := "a" }

/-- Index for the C9 counterexample: one package row already present. -/
def c9_db : Db :=
  { empty_db with
    registry := [c9_registry],
    package := [{ id := 1, name := "p", version := "1", registry_ids := [1],
                  artifact_hash := "x" }] }

/-- C9 counterexample: with a nonempty registry set but a duplicate
`(name, version, artifact_hash)` key, `package_insert` returns a
recoverable constraint error rather than the newly inserted package, so
"under the precondition that the registries argument is nonempty ... insert
returns the newly inserted package" fails at this input. -/
theorem c9_counterexample :
    ([c9_registry] ≠ ([] : List Registry)) ∧
      ∀ pkg db', package_insert "p" "1" [c9_registry] "x" c9_db ≠ .ok (pkg, db') := by
  refine ⟨by decide, ?_⟩
  intro pkg db' h
  have hok : (package_insert "p" "1" [c9_registry] "x" c9_db).toOption = none := by
    decide
  rw [h] at hok
  exact Option.noConfusion hok

/-- C9 (amended): inserting a package with an empty registry set is
rejected by the assertion (a panic, not an error result); with a nonempty
registry set the assertion branch is unreachable, and insert returns the
newly inserted package whenever `(name, version, artifact_hash)` is not
already in the table, and a recoverable constraint error otherwise. -/
theorem c9_thm (package_name package_version artifact_hash : String)
    (registries : List Registry) (db : Db) :
    (registries = [] →
      package_insert package_name package_version registries artifact_hash db =
        .error (.assertionFailure
          "At least one registry must be assigned to a package before index insert.")) ∧
    (registries ≠ [] →
      (∀ msg, package_insert package_name package_version registries artifact_hash db ≠
        .error (.assertionFailure msg)) ∧
      ((∀ row ∈ db.package, ¬(row.name = package_name ∧ row.version = package_version ∧
          row.artifact_hash = artifact_hash)) →
        package_insert package_name package_version registries artifact_hash db =
          .ok ({ id := next_rowid (db.package.map PackageRow.id), name := package_name,
                 version := package_version, registries := registries,
                 artifact_hash := artifact_hash },
            { db with package := db.package ++
              [{ id := next_rowid (db.package.map PackageRow.id), name := package_name,
                 version := package_version, registry_ids := registries.map Registry.id,
                 artifact_hash := artifact_hash }] }))) := by
  constructor
  · intro hnil
    subst hnil
    rfl
  · intro hne
    have hemp : registries.isEmpty = false := by
      cases registries with
      | nil => exact absurd rfl hne
      | cons a as => rfl
    constructor
    · intro msg h
      unfold package_insert at h
      rw [hemp] at h
      simp only [Bool.false_eq_true, if_false] at h
      by_cases hdup : db.package.any (fun row =>
          row.name == package_name && row.version == package_version &&
            row.artifact_hash == artifact_hash)
      · rw [if_pos hdup] at h
        exact DbError.noConfusion (Except.error.inj h)
      · rw [if_neg hdup] at h
        exact Except.noConfusion h
    · intro hfresh
      have hdup : db.package.any (fun row =>
          row.name == package_name && row.version == package_version &&
            row.artifact_hash == artifact_hash) = false := by
        rw [List.any_eq_false]
        intro row hrow hcontra
        simp only [Bool.and_eq_true, beq_iff_eq] at hcontra
        exact hfresh row hrow ⟨hcontra.1.1, hcontra.1.2, hcontra.2⟩
      unfold package_insert
      rw [hemp]
      simp only [Bool.false_eq_true, if_false]
      rw [hdup]
      simp

/-- Witness for C9 at a concrete input: a fresh key with one registry is
inserted, and the empty-set branch panics. -/
theorem c9_witness :
    package_insert "q" "2" [c9_registry] "y" c9_db =
      .ok ({ id := 2, name := "q", version := "2", registries := [c9_registry],
             artifact_hash := "y" },
        { c9_db with package := c9_db.package ++
          [{ id := 2, name := "q", version := "2", registry_ids := [1],
             artifact_hash := "y" }] }) ∧
    package_insert "q" "2" [] "y" c9_db =
      .error (.assertionFailure
        "At least one registry must be assigned to a package before index insert.") := by
  constructor
  · have h := ((c9_thm "q" "2" "y" [c9_registry] c9_db).2 (by decide)).2 (by decide)
    rw [h]
    rfl
  · exact (c9_thm "q" "2" "y" [] c9_db).1 rfl

theorem head?_mem {α : Type} {l : List α} {x : α} (h : l.head? = some x) : x ∈ l := by
  cases l with
  | nil => simp at h
  | cons a as =>
    simp only [List.head?_cons, Option.some_inj] at h
    subst h
    exact List.mem_cons_self _ _

theorem comment_remove_foldl (S : List Comment) (db : Db) :
    S.foldl (fun d c => comment_remove { id := some c.id } d) db =
      { db with
        comment := db.comment.filter (fun c => !((S.map Comment.id).contains c.id)) } := by
  induction S generalizing db with
  | nil =>
    simp only [List.foldl_nil, List.map_nil]
    cases db
    simp [List.contains, List.filter_true]
  | cons hd tl ih =>
    simp only [List.foldl_cons]
    rw [ih]
    cases db
    simp only [comment_remove, Db.mk.injEq, and_true, true_and]
    rw [List.filter_filter]
    apply List.filter_congr
    intro c _
    simp only [opt_match, List.map_cons, List.contains_cons]
    by_cases h : hd.id = c.id
    · simp [h, BEq.comm]
    · have h2 : ¬(c.id = hd.id) := fun hh => h hh.symm
      simp only [decide_eq_true_eq, h, decide_False, Bool.not_false, Bool.true_and]
      rw [show (c.id == hd.id) = false from by simpa using h2]
      simp

theorem review_get_spec (f : ReviewFields) (db : Db) (r : Review)
    (hr : r ∈ review_get f db) :
    ∃ row ∈ db.review, r.id = row.id ∧ opt_match f.id row.id = true ∧
      ∀ c ∈ r.comments, c ∈ db.comment := by
  rw [review_get, List.mem_filterMap] at hr
  obtain ⟨row, hrow, hmk⟩ := hr
  refine ⟨row, hrow, ?_⟩
  cases hp : db.peer.find? (fun p => p.id == row.peer_id) with
  | none => rw [hp] at hmk; simp at hmk
  | some peer =>
    cases hq : db.package.find? (fun q => q.id == row.package_id) with
    | none => rw [hp, hq] at hmk; simp at hmk
    | some pkgrow =>
      rw [hp, hq] at hmk
      dsimp only at hmk
      by_cases hcond : (opt_match f.id row.id && opt_match (f.peer.map Peer.id) peer.id &&
          opt_match f.package_name pkgrow.name &&
          opt_match f.package_version pkgrow.version) = true
      · rw [if_pos hcond] at hmk
        by_cases hhost : (match f.registry_host_names with
            | some host_names =>
              (package_row_registries pkgrow db).any
                (fun r => host_names.contains r.host_name)
            | none => true) = true
        · rw [if_pos hhost] at hmk
          rw [Option.some_inj] at hmk
          subst hmk
          simp only [Bool.and_eq_true] at hcond
          refine ⟨rfl, hcond.1.1.1, ?_⟩
          intro c hc
          simp only at hc
          cases hcid : row.comment_ids with
          | none => rw [hcid] at hc; exact absurd hc (List.not_mem_nil _)
          | some ids =>
            rw [hcid] at hc
            exact (List.mem_filter.mp hc).1
        · rw [if_neg hhost] at hmk
          simp at hmk
      · rw [if_neg hcond] at hmk
        simp at hmk

/-- C8 (amended): when the currently stored review's comments have pairwise
distinct sans-ID hashes (and comment row ids are unique), `update` first
deletes exactly the stale comment rows — those comments of the current
review whose sans-ID hash does not occur among the updated review's
comments — and only then writes the new comment-ID set to the review row;
comment rows of the current review whose hash does occur among the updated
comments survive even when referenced under a different id, so a comment
row can be left orphaned. -/
theorem c8_thm (review : Review) (db : Db) (current : Review)
    (hcur : (review_get { id := some review.id } db).head? = some current)
    (hnodup_hash : (current.comments.map comment_sans_id).Nodup)
    (hnodup_ids : (db.comment.map Comment.id).Nodup)
    (hnoconflict : ∀ row ∈ db.review, row.id = review.id ∨
      ¬(row.peer_id = review.peer.id ∧ row.package_id = review.package.id)) :
    ∃ db', review_update review db = .ok db' ∧
      (∀ c, c ∈ db'.comment ↔ c ∈ db.comment ∧
        ¬(c ∈ current.comments ∧
          ∀ y ∈ review.comments, comment_sans_id y ≠ comment_sans_id c)) ∧
      (∀ row ∈ db'.review, row.id = review.id →
        row.peer_id = review.peer.id ∧ row.package_id = review.package.id ∧
          row.comment_ids = some (review.comments.map Comment.id)) ∧
      (∀ row ∈ db'.review, row.id ≠ review.id → row ∈ db.review) ∧
      db'.peer = db.peer ∧ db'.registry = db.registry ∧ db'.package = db.package := by
  have hmemc : current ∈ review_get { id := some review.id } db := head?_mem hcur
  obtain ⟨row0, hrow0, hid0, hopt0, hsub⟩ := review_get_spec _ _ _ hmemc
  have hstale : get_difference_sans_id comment_sans_id current.comments review.comments =
      current.comments.filter
        (fun c => decide (∀ y ∈ review.comments, comment_sans_id y ≠ comment_sans_id c)) :=
    diff_sans_id_of_nodup _ _ _ hnodup_hash
  have hdb1 : remove_stale_comments review db =
      { db with comment := db.comment.filter (fun c =>
        !(((get_difference_sans_id comment_sans_id current.comments review.comments).map
            Comment.id).contains c.id)) } := by
    unfold remove_stale_comments
    rw [hcur]
    exact comment_remove_foldl _ db
  have hcondB : db.review.any (fun row =>
      row.id != review.id && row.peer_id == review.peer.id &&
        row.package_id == review.package.id) = false := by
    rw [List.any_eq_false]
    intro row hrow hc
    simp only [Bool.and_eq_true, bne_iff_ne, beq_iff_eq] at hc
    rcases hnoconflict row hrow with h | h
    · exact hc.1.1 h
    · exact h ⟨hc.1.2, hc.2⟩
  have hupdate : review_update review db = .ok
      { db with
        comment := db.comment.filter (fun c =>
          !(((get_difference_sans_id comment_sans_id current.comments
              review.comments).map Comment.id).contains c.id)),
        review := db.review.map (fun row =>
          if row.id = review.id then
            { row with
              peer_id := review.peer.id,
              package_id := review.package.id,
              comment_ids := some (review.comments.map Comment.id) }
          else row) } := by
    unfold review_update
    rw [hdb1]
    dsimp only
    rw [hcondB, Bool.and_false]
    simp
  refine ⟨_, hupdate, ?_, ?_, ?_, rfl, rfl, rfl⟩
  · intro c
    dsimp only
    constructor
    · intro hc
      rw [List.mem_filter] at hc
      obtain ⟨hcdb, hpred⟩ := hc
      refine ⟨hcdb, ?_⟩
      rintro ⟨hccur, hno⟩
      have hcstale : c ∈ get_difference_sans_id comment_sans_id
          current.comments review.comments := by
        rw [hstale, List.mem_filter]
        refine ⟨hccur, ?_⟩
        rw [decide_eq_true_eq]
        exact hno
      have hcont : ((get_difference_sans_id comment_sans_id current.comments
          review.comments).map Comment.id).contains c.id = true := by
        rw [List.contains_eq_any_beq]
        rw [List.any_eq_true]
        exact ⟨c.id, List.mem_map_of_mem _ hcstale, by simp⟩
      rw [hcont] at hpred
      simp at hpred
    · rintro ⟨hcdb, hnprop⟩
      rw [List.mem_filter]
      refine ⟨hcdb, ?_⟩
      cases hcont : ((get_difference_sans_id comment_sans_id current.comments
          review.comments).map Comment.id).contains c.id with
      | false => rfl
      | true =>
        exfalso
        rw [List.contains_eq_any_beq, List.any_eq_true] at hcont
        obtain ⟨i, hi, hbeq⟩ := hcont
        obtain ⟨s, hs, rfl⟩ := List.mem_map.mp hi
        rw [beq_iff_eq] at hbeq
        rw [hstale, List.mem_filter] at hs
        obtain ⟨hscur, hspred⟩ := hs
        rw [decide_eq_true_eq] at hspred
        have hsdb : s ∈ db.comment := hsub s hscur
        have hcs : c = s :=
          List.inj_on_of_nodup_map hnodup_ids hcdb hsdb (by rw [hbeq])
        subst hcs
        exact hnprop ⟨hscur, hspred⟩
  · intro row' hrow' hid
    dsimp only at hrow'
    obtain ⟨row, hrow, rfl⟩ := List.mem_map.mp hrow'
    by_cases h : row.id = review.id
    · rw [if_pos h]
      exact ⟨rfl, rfl, rfl⟩
    · rw [if_neg h] at hid ⊢
      exact absurd hid h
  · intro row' hrow' hid
    dsimp only at hrow'
    obtain ⟨row, hrow, rfl⟩ := List.mem_map.mp hrow'
    by_cases h : row.id = review.id
    · rw [if_pos h] at hid
      exact absurd h hid
    · rw [if_neg h]
      exact hrow

/-- Root peer of the C8 counterexample index. -/
def c8_root : Peer :=
  { id := 1, peer_alias := "root", git_url := "https://localhost",
    parent_id := none, child_peer_ids := none }

/-- Registry of the C8 counterexample index. -/
def c8_registry : Registry :=
  { id := 1, host_name := "h", registry_human_url := "u", archive_url := "a8" }

/-- The stored comment row (id 7) of the C8 counterexample. -/
def c8_comment7 : Comment :=
  { id := 7, path := "f", summary := .pass, message := "X", selection := none }

/-- A content-equal comment row under a different id (id 9). -/
def c8_comment9 : Comment :=
  { id := 9, path := "f", summary := .pass, message := "X", selection := none }

/-- The C8 counterexample index: one review (id 1) referencing comment 7,
with a content-equal comment row 9 also in the comment table. -/
def c8_db : Db :=
  { peer := [c8_root],
    registry := [c8_registry],
    package := [{ id := 1, name := "p", version := "1", registry_ids := [1],
                  artifact_hash := "x" }],
    review := [{ id := 1, peer_id := 1, package_id := 1, comment_ids := some [7] }],
    comment := [c8_comment7, c8_comment9] }

/-- The updated review handed to `update`: same review id, but its comment
set now holds the content-equal comment under id 9. -/
def c8_review : Review :=
  { id := 1, peer := c8_root,
    package := { id := 1, name := "p", version := "1", registries := [c8_registry],
                 artifact_hash := "x" },
    comments := [c8_comment9] }

/-- Expected index after the C8 update: the review row now references
comment 9, while comment row 7 survives unreferenced. -/
def c8_db' : Db :=
  { c8_db with
    review := [{ id := 1, peer_id := 1, package_id := 1, comment_ids := some [9] }] }

/-- C8 counterexample: updating review 1 from comment row 7 to the
content-equal comment row 9 deletes nothing (the sans-ID hash of 7 occurs
among the updated comments), and afterwards comment row 7 is referenced by
no review — it is orphaned, contradicting "after every update no comment
row is left orphaned". -/
theorem c8_counterexample :
    (review_update c8_review c8_db).toOption = some c8_db' ∧
      c8_comment7 ∈ c8_db'.comment ∧
      c8_db'.review.all
        (fun row => !(row.comment_ids.getD []).contains c8_comment7.id) = true := by
  refine ⟨by decide, by decide, by decide⟩

/-- Witness for the C8 theorem at a concrete input: replacing the stored
comment 7 by a comment with a different hash deletes exactly row 7. -/
theorem c8_witness :
    ∃ db', review_update
        { id := 1, peer := c8_root,
          package := { id := 1, name := "p", version := "1",
                       registries := [c8_registry], artifact_hash := "x" },
          comments := [{ id := 9, path := "f", summary := .warn, message := "Y",
                         selection := none }] } c8_db = .ok db' ∧
      (∀ c, c ∈ db'.comment ↔ c ∈ c8_db.comment ∧
        ¬(c ∈ [c8_comment7] ∧
          ∀ y ∈ [({ id := 9, path := "f", summary := .warn, message := "Y",
                    selection := none } : Comment)],
            comment_sans_id y ≠ comment_sans_id c)) ∧
      (∀ row ∈ db'.review, row.id = 1 →
        row.peer_id = 1 ∧ row.package_id = 1 ∧ row.comment_ids = some [9]) ∧
      (∀ row ∈ db'.review, row.id ≠ 1 → row ∈ c8_db.review) ∧
      db'.peer = c8_db.peer ∧ db'.registry = c8_db.registry ∧
        db'.package = c8_db.package := by
  have h := c8_thm
    { id := 1, peer := c8_root,
      package := { id := 1, name := "p", version := "1",
                   registries := [c8_registry], artifact_hash := "x" },
      comments := [{ id := 9, path := "f", summary := .warn, message := "Y",
                     selection := none }] }
    c8_db
    { id := 1, peer := c8_root,
      package := { id := 1, name := "p", version := "1",
                   registries := [c8_registry], artifact_hash := "x" },
      comments := [c8_comment7] }
    (by decide) (by decide) (by decide) (by decide)
  exact h

/-- The child id set of a peer row (empty when stored as `NULL`). -/
def child_ids (p : Peer) : List Nat := p.child_peer_ids.getD []

theorem mem_btree_insert {x a : Nat} {l : List Nat} :
    a ∈ btree_insert x l ↔ a = x ∨ a ∈ l := by
  induction l with
  | nil => simp [btree_insert]
  | cons y ys ih =>
    simp only [btree_insert]
    split_ifs with h1 h2
    · simp
    · subst h2
      simp only [List.mem_cons]
      tauto
    · simp only [List.mem_cons, ih]
      tauto

theorem btree_insert_sorted {x : Nat} {l : List Nat}
    (h : List.Pairwise (· < ·) l) : List.Pairwise (· < ·) (btree_insert x l) := by
  induction l with
  | nil => simp [btree_insert]
  | cons y ys ih =>
    rw [List.pairwise_cons] at h
    simp only [btree_insert]
    split_ifs with h1 h2
    · rw [List.pairwise_cons]
      refine ⟨?_, List.pairwise_cons.mpr h⟩
      intro b hb
      rcases List.mem_cons.mp hb with rfl | hb
      · exact h1
      · exact Nat.lt_trans h1 (h.1 b hb)
    · subst h2
      rw [List.pairwise_cons]
      exact h
    · rw [List.pairwise_cons]
      refine ⟨?_, ih h.2⟩
      intro b hb
      rcases mem_btree_insert.mp hb with rfl | hb
      · omega
      · exact h.1 b hb

theorem mem_le_foldr_max (i : Nat) (l : List Nat) (h : i ∈ l) :
    i ≤ l.foldr max 0 := by
  induction l with
  | nil => simp at h
  | cons x xs ih =>
    rcases List.mem_cons.mp h with rfl | h
    · simp [List.foldr_cons, Nat.le_max_left]
    · simp only [List.foldr_cons]
      exact Nat.le_trans (ih h) (Nat.le_max_right _ _)

theorem next_rowid_fresh {i : Nat} {l : List Nat} (h : i ∈ l) : i < next_rowid l := by
  unfold next_rowid
  exact Nat.lt_succ_of_le (mem_le_foldr_max i l h)

/-- The structural invariant of the peer table: unique ids, git URLs, and
aliases; every non-root parent pointer names an existing row whose child
set records the child; every recorded child id names an existing row whose
parent pointer names the recording row; child sets are strictly sorted. -/
structure PeerInv (db : Db) : Prop where
  nodup_ids : (db.peer.map Peer.id).Nodup
  nodup_urls : (db.peer.map Peer.git_url).Nodup
  nodup_aliases : (db.peer.map Peer.peer_alias).Nodup
  parent_mem : ∀ p ∈ db.peer, ∀ pid, p.parent_id = some pid →
    ∃ q ∈ db.peer, q.id = pid ∧ p.id ∈ child_ids q
  child_back : ∀ q ∈ db.peer, ∀ cid ∈ child_ids q,
    ∃ p ∈ db.peer, p.id = cid ∧ p.parent_id = some q.id
  child_sorted : ∀ q ∈ db.peer, List.Pairwise (· < ·) (child_ids q)

theorem row_eq_of_id_eq {db : Db} (hinv : (db.peer.map Peer.id).Nodup)
    {p q : Peer} (hp : p ∈ db.peer) (hq : q ∈ db.peer) (h : p.id = q.id) :
    p = q :=
  List.inj_on_of_nodup_map hinv hp hq h

/-- The set-up index satisfies the peer-table invariant. -/
theorem initial_db_inv : PeerInv initial_db := by
  constructor
  · decide
  · decide
  · decide
  · intro p hp pid hpid
    rw [show initial_db.peer = [⟨1, "root", ROOT_DEFAULT_GIT_URL, none, none⟩]
      from rfl] at hp
    rcases List.mem_singleton.mp hp with rfl
    simp at hpid
  · intro q hq cid hcid
    rw [show initial_db.peer = [⟨1, "root", ROOT_DEFAULT_GIT_URL, none, none⟩]
      from rfl] at hq
    rcases List.mem_singleton.mp hq with rfl
    simp [child_ids] at hcid
  · intro q hq
    rw [show initial_db.peer = [⟨1, "root", ROOT_DEFAULT_GIT_URL, none, none⟩]
      from rfl] at hq
    rcases List.mem_singleton.mp hq with rfl
    simp [child_ids]

theorem peer_insert_ok_none {a u : String} {db : Db} {q : Peer}
    {pp' : Option Peer} {db' : Db}
    (h : peer_insert a u none db = .ok (q, pp', db')) :
    db.peer.any (fun p => p.peer_alias == a || p.git_url == u) = false ∧
    q = ⟨next_rowid (db.peer.map Peer.id), a, u, none, none⟩ ∧ pp' = none ∧
    db' = { db with peer := db.peer ++ [q] } := by
  unfold peer_insert at h
  cases hc : db.peer.any (fun p => p.peer_alias == a || p.git_url == u) with
  | true =>
    rw [hc] at h
    simp at h
  | false =>
    rw [hc] at h
    simp only [Bool.false_eq_true, if_false, Option.map_none, Except.ok.injEq,
      Prod.mk.injEq] at h
    obtain ⟨h1, h2, h3⟩ := h
    subst h1
    subst h2
    subst h3
    exact ⟨rfl, rfl, rfl, rfl⟩

theorem peer_insert_ok_some {a u : String} {db : Db} {pp q : Peer}
    {pp' : Option Peer} {db' : Db}
    (h : peer_insert a u (some pp) db = .ok (q, pp', db')) :
    db.peer.any (fun p => p.peer_alias == a || p.git_url == u) = false ∧
    q = ⟨next_rowid (db.peer.map Peer.id), a, u, some pp.id, none⟩ ∧
    pp' = some { pp with child_peer_ids := some (btree_insert q.id (child_ids pp)) } ∧
    db' = { db with peer := (db.peer ++ [q]).map (fun p =>
      if p.id = pp.id then
        { p with child_peer_ids := some (btree_insert q.id (child_ids pp)) }
      else p) } := by
  unfold peer_insert at h
  cases hc : db.peer.any (fun p => p.peer_alias == a || p.git_url == u) with
  | true =>
    rw [hc] at h
    simp at h
  | false =>
    rw [hc] at h
    simp only [Bool.false_eq_true, if_false, Option.map_some, add_child_peer_id,
      Except.ok.injEq, Prod.mk.injEq, Option.some_inj] at h
    obtain ⟨h1, h2, h3⟩ := h
    subst h1
    subst h2
    subst h3
    exact ⟨rfl, rfl, rfl, rfl⟩

theorem any_alias_url_false {a u : String} {db : Db}
    (hc : db.peer.any (fun p => p.peer_alias == a || p.git_url == u) = false) :
    ∀ p ∈ db.peer, p.peer_alias ≠ a ∧ p.git_url ≠ u := by
  rw [List.any_eq_false] at hc
  intro p hp
  have := hc p hp
  simp only [Bool.or_eq_true, beq_iff_eq, not_or] at this
  exact this

theorem peer_insert_preserves_none {a u : String} {db : Db} {q : Peer}
    {pp' : Option Peer} {db' : Db} (hinv : PeerInv db)
    (h : peer_insert a u none db = .ok (q, pp', db')) :
    PeerInv db' ∧ q ∈ db'.peer ∧
    q = ⟨next_rowid (db.peer.map Peer.id), a, u, none, none⟩ ∧
    pp' = none ∧ db'.peer = db.peer ++ [q] ∧
    (∀ p ∈ db.peer, p.peer_alias ≠ a ∧ p.git_url ≠ u) ∧
    (∀ r ∈ db.peer, r ∈ db'.peer) ∧
    db'.registry = db.registry ∧ db'.package = db.package ∧
    db'.review = db.review ∧ db'.comment = db.comment := by
  obtain ⟨hc, hq, hppn, hdb⟩ := peer_insert_ok_none h
  have hfresh := any_alias_url_false hc
  have hidfresh : q.id ∉ db.peer.map Peer.id := by
    intro hmem
    have := next_rowid_fresh hmem
    rw [hq] at this
    simp at this
  subst hdb
  refine ⟨?_, ?_, hq, hppn, rfl, hfresh, ?_, rfl, rfl, rfl, rfl⟩
  · constructor
    · simp only [List.map_append, List.map_cons, List.map_nil]
      rw [List.nodup_append]
      refine ⟨hinv.nodup_ids, List.nodup_singleton _, ?_⟩
      intro i hi
      simp only [List.mem_singleton]
      intro hiq
      exact hidfresh (hiq ▸ hi)
    · simp only [List.map_append, List.map_cons, List.map_nil]
      rw [List.nodup_append]
      refine ⟨hinv.nodup_urls, List.nodup_singleton _, ?_⟩
      intro s hs
      simp only [List.mem_singleton]
      intro hsu
      obtain ⟨p, hp, hps⟩ := List.mem_map.mp hs
      have := (hfresh p hp).2
      rw [hps, hsu, hq] at this
      exact this rfl
    · simp only [List.map_append, List.map_cons, List.map_nil]
      rw [List.nodup_append]
      refine ⟨hinv.nodup_aliases, List.nodup_singleton _, ?_⟩
      intro s hs
      simp only [List.mem_singleton]
      intro hsa
      obtain ⟨p, hp, hps⟩ := List.mem_map.mp hs
      have := (hfresh p hp).1
      rw [hps, hsa, hq] at this
      exact this rfl
    · intro p hp pid hpid
      rcases List.mem_append.mp hp with hp | hp
      · obtain ⟨w, hw, hwid, hwc⟩ := hinv.parent_mem p hp pid hpid
        exact ⟨w, List.mem_append_left _ hw, hwid, hwc⟩
      · rw [List.mem_singleton] at hp
        subst hp
        rw [hq] at hpid
        simp at hpid
    · intro w hw cid hcid
      rcases List.mem_append.mp hw with hw | hw
      · obtain ⟨p, hpm, hpid, hpp⟩ := hinv.child_back w hw cid hcid
        exact ⟨p, List.mem_append_left _ hpm, hpid, hpp⟩
      · rw [List.mem_singleton] at hw
        subst hw
        rw [hq] at hcid
        simp [child_ids] at hcid
    · intro w hw
      rcases List.mem_append.mp hw with hw | hw
      · exact hinv.child_sorted w hw
      · rw [List.mem_singleton] at hw
        subst hw
        rw [hq]
        simp [child_ids]
  · exact List.mem_append_right _ (List.mem_singleton.mpr rfl)
  · intro r hr
    exact List.mem_append_left _ hr

theorem peer_insert_preserves_some {a u : String} {db : Db} {pp q : Peer}
    {pp' : Option Peer} {db' : Db} (hinv : PeerInv db) (hppm : pp ∈ db.peer)
    (h : peer_insert a u (some pp) db = .ok (q, pp', db')) :
    PeerInv db' ∧ q ∈ db'.peer ∧
    q = ⟨next_rowid (db.peer.map Peer.id), a, u, some pp.id, none⟩ ∧
    pp' = some { pp with child_peer_ids := some (btree_insert q.id (child_ids pp)) } ∧
    { pp with child_peer_ids := some (btree_insert q.id (child_ids pp)) } ∈ db'.peer ∧
    (∀ p ∈ db.peer, p.peer_alias ≠ a ∧ p.git_url ≠ u) ∧
    (∀ r ∈ db.peer, r ≠ pp → r ∈ db'.peer) ∧
    (∀ r ∈ db.peer, ∃ r' ∈ db'.peer, r'.id = r.id ∧ r'.peer_alias = r.peer_alias ∧
      r'.git_url = r.git_url ∧ r'.parent_id = r.parent_id ∧
      ∀ cid ∈ child_ids r, cid ∈ child_ids r') ∧
    (∀ r' ∈ db'.peer, r' = q ∨ ∃ r ∈ db.peer, r'.id = r.id ∧
      r'.peer_alias = r.peer_alias ∧ r'.git_url = r.git_url ∧
      r'.parent_id = r.parent_id) ∧
    db'.registry = db.registry ∧ db'.package = db.package ∧
    db'.review = db.review ∧ db'.comment = db.comment := by
  obtain ⟨hc, hq, hppeq, hdb⟩ := peer_insert_ok_some h
  have hfresh := any_alias_url_false hc
  have hqid_f : q.id ∉ db.peer.map Peer.id := by
    intro hmem
    have := next_rowid_fresh hmem
    rw [hq] at this
    simp at this
  have hqppid : q.id ≠ pp.id := by
    intro he
    exact hqid_f (he ▸ List.mem_map_of_mem Peer.id hppm)
  have hupd_q : (if q.id = pp.id then
      { q with child_peer_ids := some (btree_insert q.id (child_ids pp)) }
    else q) = q := if_neg hqppid
  have hsplit : db'.peer = db.peer.map (fun p =>
      if p.id = pp.id then
        { p with child_peer_ids := some (btree_insert q.id (child_ids pp)) }
      else p) ++ [q] := by
    rw [hdb]
    simp only [List.map_append, List.map_cons, List.map_nil, hupd_q]
  have hupd_id : ∀ p : Peer, (if p.id = pp.id then
      { p with child_peer_ids := some (btree_insert q.id (child_ids pp)) }
    else p).id = p.id := by
    intro p
    by_cases hcase : p.id = pp.id <;> simp [hcase]
  have hupd_url : ∀ p : Peer, (if p.id = pp.id then
      { p with child_peer_ids := some (btree_insert q.id (child_ids pp)) }
    else p).git_url = p.git_url := by
    intro p
    by_cases hcase : p.id = pp.id <;> simp [hcase]
  have hupd_alias : ∀ p : Peer, (if p.id = pp.id then
      { p with child_peer_ids := some (btree_insert q.id (child_ids pp)) }
    else p).peer_alias = p.peer_alias := by
    intro p
    by_cases hcase : p.id = pp.id <;> simp [hcase]
  have hupd_parent : ∀ p : Peer, (if p.id = pp.id then
      { p with child_peer_ids := some (btree_insert q.id (child_ids pp)) }
    else p).parent_id = p.parent_id := by
    intro p
    by_cases hcase : p.id = pp.id <;> simp [hcase]
  have hupd_mem_mono : ∀ r ∈ db.peer, ∀ cid ∈ child_ids r,
      cid ∈ child_ids (if r.id = pp.id then
        { r with child_peer_ids := some (btree_insert q.id (child_ids pp)) }
      else r) := by
    intro r hr cid hcid
    by_cases hcase : r.id = pp.id
    · have hrpp : r = pp := row_eq_of_id_eq hinv.nodup_ids hr hppm hcase
      subst hrpp
      rw [if_pos hcase]
      simp only [child_ids, Option.getD_some]
      exact mem_btree_insert.mpr (Or.inr hcid)
    · rw [if_neg hcase]
      exact hcid
  have hupd_ne : ∀ r ∈ db.peer, r ≠ pp → (if r.id = pp.id then
      { r with child_peer_ids := some (btree_insert q.id (child_ids pp)) }
    else r) = r := by
    intro r hr hne
    rw [if_neg]
    intro hcase
    exact hne (row_eq_of_id_eq hinv.nodup_ids hr hppm hcase)
  have hids_eq : db'.peer.map Peer.id = db.peer.map Peer.id ++ [q.id] := by
    rw [hsplit, List.map_append, List.map_map]
    congr 1
    apply List.map_congr_left
    intro p _
    exact hupd_id p
  have hurls_eq : db'.peer.map Peer.git_url = db.peer.map Peer.git_url ++ [q.git_url] := by
    rw [hsplit, List.map_append, List.map_map]
    congr 1
    apply List.map_congr_left
    intro p _
    exact hupd_url p
  have haliases_eq : db'.peer.map Peer.peer_alias =
      db.peer.map Peer.peer_alias ++ [q.peer_alias] := by
    rw [hsplit, List.map_append, List.map_map]
    congr 1
    apply List.map_congr_left
    intro p _
    exact hupd_alias p
  have hmem_char : ∀ r', r' ∈ db'.peer ↔ (∃ r ∈ db.peer, r' = (if r.id = pp.id then
      { r with child_peer_ids := some (btree_insert q.id (child_ids pp)) }
    else r)) ∨ r' = q := by
    intro r'
    rw [hsplit, List.mem_append, List.mem_singleton]
    constructor
    · rintro (hm | hm)
      · obtain ⟨r, hr, hrr⟩ := List.mem_map.mp hm
        exact Or.inl ⟨r, hr, hrr.symm⟩
      · exact Or.inr hm
    · rintro (⟨r, hr, hrr⟩ | hm)
      · exact Or.inl (List.mem_map.mpr ⟨r, hr, hrr.symm⟩)
      · exact Or.inr hm
  have hppU_mem :
      { pp with child_peer_ids := some (btree_insert q.id (child_ids pp)) } ∈
        db'.peer := by
    rw [hmem_char]
    exact Or.inl ⟨pp, hppm, by rw [if_pos rfl]⟩
  refine ⟨?_, ?_, hq, hppeq, hppU_mem, hfresh, ?_, ?_, ?_, ?_, ?_, ?_, ?_⟩
  · constructor
    · rw [hids_eq, List.nodup_append]
      refine ⟨hinv.nodup_ids, List.nodup_singleton _, ?_⟩
      intro i hi
      simp only [List.mem_singleton]
      intro hiq
      exact hqid_f (hiq ▸ hi)
    · rw [hurls_eq, List.nodup_append]
      refine ⟨hinv.nodup_urls, List.nodup_singleton _, ?_⟩
      intro s hs
      simp only [List.mem_singleton]
      intro hsu
      obtain ⟨p, hp, hps⟩ := List.mem_map.mp hs
      have := (hfresh p hp).2
      rw [hps, hsu, hq] at this
      exact this rfl
    · rw [haliases_eq, List.nodup_append]
      refine ⟨hinv.nodup_aliases, List.nodup_singleton _, ?_⟩
      intro s hs
      simp only [List.mem_singleton]
      intro hsa
      obtain ⟨p, hp, hps⟩ := List.mem_map.mp hs
      have := (hfresh p hp).1
      rw [hps, hsa, hq] at this
      exact this rfl
    · intro p hp pid hpid
      rcases (hmem_char p).mp hp with ⟨r, hr, rfl⟩ | hpq
      · rw [hupd_parent r] at hpid
        obtain ⟨w, hw, hwid, hwc⟩ := hinv.parent_mem r hr pid hpid
        refine ⟨(if w.id = pp.id then
            { w with child_peer_ids := some (btree_insert q.id (child_ids pp)) }
          else w), (hmem_char _).mpr (Or.inl ⟨w, hw, rfl⟩), ?_, ?_⟩
        · rw [hupd_id w]
          exact hwid
        · rw [hupd_id r]
          exact hupd_mem_mono w hw r.id hwc
      · rw [hpq] at hpid ⊢
        rw [hq] at hpid
        simp only [Option.some_inj] at hpid
        refine ⟨{ pp with child_peer_ids := some (btree_insert q.id (child_ids pp)) },
          hppU_mem, hpid, ?_⟩
        simp only [child_ids, Option.getD_some]
        exact mem_btree_insert.mpr (Or.inl rfl)
    · intro w hw cid hcid
      rcases (hmem_char w).mp hw with ⟨r, hr, rfl⟩ | rfl
      · by_cases hcase : r.id = pp.id
        · rw [if_pos hcase] at hcid ⊢
          simp only [child_ids, Option.getD_some] at hcid
          rcases mem_btree_insert.mp hcid with rfl | hcid2
          · refine ⟨q, (hmem_char q).mpr (Or.inr rfl), rfl, ?_⟩
            rw [hq]
            show some pp.id = some r.id
            rw [hcase]
          · obtain ⟨p0, hp0, hp0id, hp0p⟩ := hinv.child_back pp hppm cid hcid2
            refine ⟨(if p0.id = pp.id then
                { p0 with child_peer_ids := some (btree_insert q.id (child_ids pp)) }
              else p0), (hmem_char _).mpr (Or.inl ⟨p0, hp0, rfl⟩), ?_, ?_⟩
            · rw [hupd_id p0]
              exact hp0id
            · rw [hupd_parent p0]
              show p0.parent_id = some r.id
              rw [hp0p, Option.some_inj]
              exact hcase.symm
        · rw [if_neg hcase] at hcid ⊢
          obtain ⟨p0, hp0, hp0id, hp0p⟩ := hinv.child_back r hr cid hcid
          refine ⟨(if p0.id = pp.id then
              { p0 with child_peer_ids := some (btree_insert q.id (child_ids pp)) }
            else p0), (hmem_char _).mpr (Or.inl ⟨p0, hp0, rfl⟩), ?_, ?_⟩
          · rw [hupd_id p0]
            exact hp0id
          · rw [hupd_parent p0]
            exact hp0p
      · rw [hq] at hcid
        simp [child_ids] at hcid
    · intro w hw
      rcases (hmem_char w).mp hw with ⟨r, hr, rfl⟩ | rfl
      · by_cases hcase : r.id = pp.id
        · rw [if_pos hcase]
          simp only [child_ids, Option.getD_some]
          exact btree_insert_sorted (hinv.child_sorted pp hppm)
        · rw [if_neg hcase]
          exact hinv.child_sorted r hr
      · rw [hq]
        simp [child_ids]
  · exact (hmem_char q).mpr (Or.inr rfl)
  · intro r hr hne
    have := hupd_ne r hr hne
    rw [← this]
    exact (hmem_char _).mpr (Or.inl ⟨r, hr, rfl⟩)
  · intro r hr
    refine ⟨(if r.id = pp.id then
        { r with child_peer_ids := some (btree_insert q.id (child_ids pp)) }
      else r), (hmem_char _).mpr (Or.inl ⟨r, hr, rfl⟩),
      hupd_id r, hupd_alias r, hupd_url r, hupd_parent r, hupd_mem_mono r hr⟩
  · intro r' hr'
    rcases (hmem_char r').mp hr' with ⟨r, hr, rfl⟩ | rfl
    · exact Or.inr ⟨r, hr, hupd_id r, hupd_alias r, hupd_url r, hupd_parent r⟩
    · exact Or.inl rfl
  · rw [hdb]
  · rw [hdb]
  · rw [hdb]
  · rw [hdb]

theorem mem_insert_kv {κ α : Type} [DecidableEq κ] {k : κ} {v : α}
    {m : List (κ × α)} {kv : κ × α} (h : kv ∈ insert_kv k v m) :
    kv = (k, v) ∨ (kv ∈ m ∧ kv.1 ≠ k) := by
  unfold insert_kv at h
  cases hlk : lookup_kv k m with
  | some w =>
    rw [hlk] at h
    obtain ⟨kv0, hkv0, heq⟩ := List.mem_map.mp h
    by_cases hc : kv0.1 = k
    · rw [if_pos hc] at heq
      exact Or.inl heq.symm
    · rw [if_neg hc] at heq
      subst heq
      exact Or.inr ⟨hkv0, hc⟩
  | none =>
    rw [hlk] at h
    rcases List.mem_append.mp h with hm | hm
    · refine Or.inr ⟨hm, ?_⟩
      intro hc
      exact (lookup_kv_none_iff.mp hlk kv hm) hc
    · exact Or.inl (List.mem_singleton.mp hm)

theorem insert_kv_keys_of_some {κ α : Type} [DecidableEq κ] {k : κ} (v : α)
    {m : List (κ × α)} {w : α} (h : lookup_kv k m = some w) :
    (insert_kv k v m).map Prod.fst = m.map Prod.fst := by
  rw [insert_kv_keys]
  rw [h]

theorem insert_kv_append_of_none {κ α : Type} [DecidableEq κ] {k : κ} (v : α)
    {m : List (κ × α)} (h : lookup_kv k m = none) :
    insert_kv k v m = m ++ [(k, v)] := by
  unfold insert_kv
  rw [h]

theorem foldlM_preserve {σ α : Type} (P : σ → Prop) (f : σ → α → Except DbError σ)
    (hf : ∀ s a s', P s → f s a = .ok s' → P s') :
    ∀ (l : List α) (s s' : σ), P s → l.foldlM f s = .ok s' → P s' := by
  intro l
  induction l with
  | nil =>
    intro s s' hP h
    simp only [List.foldlM_nil] at h
    cases h
    exact hP
  | cons a as ih =>
    intro s s' hP h
    rw [List.foldlM_cons] at h
    cases hfa : f s a with
    | error e =>
      rw [hfa] at h
      exact Except.noConfusion h
    | ok s1 =>
      rw [hfa] at h
      exact ih s1 s' (hf s a s1 hP hfa) h

/-- The in-memory `HashMap` entries of `peer::index::merge` name rows of the
current destination table by their git URL. -/
def MapsOk (db : Db) (m : List (String × Peer)) : Prop :=
  ∀ kv ∈ m, kv.2 ∈ db.peer ∧ kv.2.git_url = kv.1

/-- Invariant carried through the `peer::index::merge` loop: the table
invariant holds, both maps mirror current rows with distinct keys, rows of
the original table survive with all fields intact except a grown child set,
and the other tables are untouched. -/
structure MInv (orig : Db) (st : MergeSt) : Prop where
  inv : PeerInv st.db
  maps_ok : MapsOk st.db (st.existing ++ st.inserted)
  keys_nodup : ((st.existing ++ st.inserted).map Prod.fst).Nodup
  frame : ∀ r0 ∈ orig.peer, ∃ r ∈ st.db.peer, r.id = r0.id ∧
    r.peer_alias = r0.peer_alias ∧ r.git_url = r0.git_url ∧
    r.parent_id = r0.parent_id ∧ ∀ cid ∈ child_ids r0, cid ∈ child_ids r
  same_tables : st.db.registry = orig.registry ∧ st.db.package = orig.package ∧
    st.db.review = orig.review ∧ st.db.comment = orig.comment

theorem merge_parent_slot_mem {orig : Db} {parent_peer : Option Peer} {st : MergeSt}
    (hm : MInv orig st) {b : Bool} {q0 : Peer}
    (h : merge_parent_slot parent_peer st = some (b, q0)) :
    q0 ∈ st.db.peer ∧ ∃ pp, parent_peer = some pp ∧ q0.git_url = pp.git_url ∧
      ((b = true ∧ lookup_kv pp.git_url st.inserted = some q0) ∨
       (b = false ∧ lookup_kv pp.git_url st.inserted = none ∧
         lookup_kv pp.git_url st.existing = some q0)) := by
  unfold merge_parent_slot at h
  cases parent_peer with
  | none => simp at h
  | some pp =>
    dsimp only at h
    cases hi : lookup_kv pp.git_url st.inserted with
    | some q =>
      rw [hi] at h
      simp only [Option.some_inj, Prod.mk.injEq] at h
      obtain ⟨hb, hq⟩ := h
      subst hb
      subst hq
      have hmem : (pp.git_url, q) ∈ st.existing ++ st.inserted :=
        List.mem_append_right _ (lookup_kv_some_mem hi)
      have hkv := hm.maps_ok _ hmem
      exact ⟨hkv.1, pp, rfl, hkv.2, Or.inl ⟨rfl, hi⟩⟩
    | none =>
      rw [hi] at h
      cases he : lookup_kv pp.git_url st.existing with
      | some q =>
        rw [he] at h
        simp only [Option.some_inj, Prod.mk.injEq] at h
        obtain ⟨hb, hq⟩ := h
        subst hb
        subst hq
        have hmem : (pp.git_url, q) ∈ st.existing ++ st.inserted :=
          List.mem_append_left _ (lookup_kv_some_mem he)
        have hkv := hm.maps_ok _ hmem
        exact ⟨hkv.1, pp, rfl, hkv.2, Or.inr ⟨rfl, hi, he⟩⟩
      | none =>
        rw [he] at h
        simp at h

theorem keys_append_nodup_aux {m1 m2 : List (String × Peer)} {k : String} {v : Peer}
    (hnd : ((m1 ++ m2).map Prod.fst).Nodup)
    (h1 : lookup_kv k m1 = none) (h2 : lookup_kv k m2 = none) :
    ((m1 ++ (m2 ++ [(k, v)])).map Prod.fst).Nodup := by
  rw [← List.append_assoc, List.map_append, List.nodup_append]
  refine ⟨hnd, List.nodup_singleton _, ?_⟩
  intro s hs
  simp only [List.map_cons, List.map_nil, List.mem_singleton]
  intro hsk
  subst hsk
  obtain ⟨kv, hkv, hfst⟩ := List.mem_map.mp hs
  rcases List.mem_append.mp hkv with hm | hm
  · exact lookup_kv_none_iff.mp h1 kv hm hfst
  · exact lookup_kv_none_iff.mp h2 kv hm hfst

theorem merge_insert_peer_minv {orig : Db} {peer : Peer} {parent_peer : Option Peer}
    {st st' : MergeSt} (hm : MInv orig st)
    (h : merge_insert_peer peer parent_peer st = .ok st') : MInv orig st' := by
  unfold merge_insert_peer at h
  by_cases hskip : ((lookup_kv peer.git_url st.existing).isSome ||
      (lookup_kv peer.git_url st.inserted).isSome) = true
  · rw [if_pos hskip] at h
    cases h
    exact hm
  · rw [if_neg hskip] at h
    have hnoneE : lookup_kv peer.git_url st.existing = none := by
      rw [← Option.not_isSome_iff_eq_none]
      intro hs
      exact hskip (by simp [hs])
    have hnoneI : lookup_kv peer.git_url st.inserted = none := by
      rw [← Option.not_isSome_iff_eq_none]
      intro hs
      exact hskip (by simp [hs])
    cases hslot : merge_parent_slot parent_peer st with
    | none =>
      rw [hslot] at h
      simp only [Option.map_none'] at h
      cases hins : peer_insert (get_new_alias peer.git_url st.db) peer.git_url
          none st.db with
      | error e =>
        rw [hins] at h
        exact Except.noConfusion h
      | ok t =>
        obtain ⟨ip, pprime, db2⟩ := t
        rw [hins] at h
        obtain ⟨hinv2, hipmem, hipshape, hpprimeN, hpeersEq, hfresh, hold,
          hreg, hpkg, hrev, hcom⟩ := peer_insert_preserves_none hm.inv hins
        subst hpprimeN
        cases h
        constructor
        · exact hinv2
        · intro kv hkv
          dsimp only [merge_map_update] at hkv ⊢
          rw [insert_kv_append_of_none ip hnoneI, ← List.append_assoc] at hkv
          rcases List.mem_append.mp hkv with hm2 | hm2
          · obtain ⟨hv, hu⟩ := hm.maps_ok kv hm2
            exact ⟨hold kv.2 hv, hu⟩
          · rw [List.mem_singleton] at hm2
            subst hm2
            refine ⟨hipmem, ?_⟩
            rw [hipshape]
        · dsimp only [merge_map_update]
          rw [insert_kv_append_of_none ip hnoneI]
          exact keys_append_nodup_aux hm.keys_nodup hnoneE hnoneI
        · intro r0 hr0
          obtain ⟨r, hr, hprops⟩ := hm.frame r0 hr0
          exact ⟨r, hold r hr, hprops⟩
        · refine ⟨?_, ?_, ?_, ?_⟩ <;> dsimp only [merge_map_update]
          · rw [hreg]
            exact hm.same_tables.1
          · rw [hpkg]
            exact hm.same_tables.2.1
          · rw [hrev]
            exact hm.same_tables.2.2.1
          · rw [hcom]
            exact hm.same_tables.2.2.2
    | some bq =>
      obtain ⟨b, q0⟩ := bq
      obtain ⟨hq0mem, pp, hppv, hq0url, hbchar⟩ := merge_parent_slot_mem hm hslot
      rw [hslot] at h
      simp only [Option.map_some'] at h
      cases hins : peer_insert (get_new_alias peer.git_url st.db) peer.git_url
          (some q0) st.db with
      | error e =>
        rw [hins] at h
        exact Except.noConfusion h
      | ok t =>
        obtain ⟨ip, pprime, db2⟩ := t
        rw [hins] at h
        obtain ⟨hinv2, hipmem, hipshape, hpprimeEq, hppUmem, hfresh, holdne,
          hframe1, hchar, hreg, hpkg, hrev, hcom⟩ :=
          peer_insert_preserves_some hm.inv hq0mem hins
        subst hpprimeEq
        have hdisj : ∀ kv ∈ st.existing ++ st.inserted, kv.2 = q0 →
            kv.1 = pp.git_url := by
          intro kv hkv hv
          have := (hm.maps_ok kv hkv).2
          rw [hv, hq0url] at this
          exact this.symm
        cases b with
        | true =>
          obtain ⟨-, hlkI⟩ := hbchar.resolve_right (by simp)
          cases h
          have hq0key : q0.git_url = pp.git_url := hq0url
          have hkeysI : (insert_kv q0.git_url
              { q0 with
                child_peer_ids := some (btree_insert ip.id (child_ids q0)) }
              st.inserted).map Prod.fst = st.inserted.map Prod.fst := by
            apply insert_kv_keys_of_some
            rw [hq0key]
            exact hlkI
          have hnoneI2 : lookup_kv peer.git_url (insert_kv q0.git_url
              { q0 with
                child_peer_ids := some (btree_insert ip.id (child_ids q0)) }
              st.inserted) = none := by
            rw [lookup_kv_none_iff]
            intro kv hkv hfst
            rcases mem_insert_kv hkv with rfl | ⟨hkv2, -⟩
            · dsimp only at hfst
              rw [hq0key] at hfst
              exact lookup_kv_none_iff.mp hnoneI _ (lookup_kv_some_mem hlkI) hfst
            · exact lookup_kv_none_iff.mp hnoneI kv hkv2 hfst
          constructor
          · exact hinv2
          · intro kv hkv
            dsimp only [merge_map_update] at hkv ⊢
            rw [insert_kv_append_of_none ip hnoneI2] at hkv
            rcases List.mem_append.mp hkv with hm2 | hm2
            · -- existing entries untouched
              have hmem0 : kv ∈ st.existing ++ st.inserted := List.mem_append_left _ hm2
              obtain ⟨hv, hu⟩ := hm.maps_ok kv hmem0
              refine ⟨holdne kv.2 hv ?_, hu⟩
              intro hveq
              have hk := hdisj kv hmem0 hveq
              have : pp.git_url ∈ st.inserted.map Prod.fst := by
                exact List.mem_map.mpr ⟨_, lookup_kv_some_mem hlkI, rfl⟩
              have hdisjoint := List.disjoint_of_nodup_append
                (by rw [← List.map_append]; exact hm.keys_nodup)
              exact hdisjoint (hk ▸ List.mem_map_of_mem Prod.fst hm2) this
            · rcases List.mem_append.mp hm2 with hm3 | hm3
              · rcases mem_insert_kv hm3 with rfl | ⟨hkv2, hne⟩
                · exact ⟨hppUmem, by rw [hq0key]⟩
                · have hmem0 : kv ∈ st.existing ++ st.inserted :=
                    List.mem_append_right _ hkv2
                  obtain ⟨hv, hu⟩ := hm.maps_ok kv hmem0
                  refine ⟨holdne kv.2 hv ?_, hu⟩
                  intro hveq
                  have hk := hdisj kv hmem0 hveq
                  rw [← hq0key] at hk
                  exact hne hk
              · rw [List.mem_singleton] at hm3
                subst hm3
                refine ⟨hipmem, ?_⟩
                rw [hipshape]
          · dsimp only [merge_map_update]
            rw [insert_kv_append_of_none ip hnoneI2, ← List.append_assoc,
              List.map_append, List.nodup_append]
            refine ⟨?_, List.nodup_singleton _, ?_⟩
            · rw [List.map_append, hkeysI, ← List.map_append]
              exact hm.keys_nodup
            · intro s hs
              simp only [List.map_cons, List.map_nil, List.mem_singleton]
              intro hsk
              subst hsk
              rw [List.map_append, hkeysI, ← List.map_append] at hs
              obtain ⟨kv, hkv, hfst⟩ := List.mem_map.mp hs
              rcases List.mem_append.mp hkv with hm2 | hm2
              · exact lookup_kv_none_iff.mp hnoneE kv hm2 hfst
              · exact lookup_kv_none_iff.mp hnoneI kv hm2 hfst
          · intro r0 hr0
            obtain ⟨r, hr, hid, hal, hu, hpid, hch⟩ := hm.frame r0 hr0
            obtain ⟨r2, hr2, hid2, hal2, hu2, hpid2, hch2⟩ := hframe1 r hr
            exact ⟨r2, hr2, hid2.trans hid, hal2.trans hal, hu2.trans hu,
              hpid2.trans hpid, fun cid hcid => hch2 cid (hch cid hcid)⟩
          · refine ⟨?_, ?_, ?_, ?_⟩ <;> dsimp only [merge_map_update]
            · rw [hreg]; exact hm.same_tables.1
            · rw [hpkg]; exact hm.same_tables.2.1
            · rw [hrev]; exact hm.same_tables.2.2.1
            · rw [hcom]; exact hm.same_tables.2.2.2
        | false =>
          obtain ⟨-, hlkI, hlkE⟩ := hbchar.resolve_left (by simp)
          cases h
          have hq0key : q0.git_url = pp.git_url := hq0url
          have hnoneI2 : lookup_kv peer.git_url st.inserted = none := hnoneI
          constructor
          · exact hinv2
          · intro kv hkv
            dsimp only [merge_map_update] at hkv ⊢
            rw [insert_kv_append_of_none ip hnoneI2] at hkv
            rcases List.mem_append.mp hkv with hm2 | hm2
            · rcases mem_insert_kv hm2 with rfl | ⟨hkv2, hne⟩
              · exact ⟨hppUmem, by rw [hq0key]⟩
              · have hmem0 : kv ∈ st.existing ++ st.inserted :=
                  List.mem_append_left _ hkv2
                obtain ⟨hv, hu⟩ := hm.maps_ok kv hmem0
                refine ⟨holdne kv.2 hv ?_, hu⟩
                intro hveq
                have hk := hdisj kv hmem0 hveq
                rw [← hq0key] at hk
                exact hne hk
            · rcases List.mem_append.mp hm2 with hm3 | hm3
              · have hmem0 : kv ∈ st.existing ++ st.inserted :=
                  List.mem_append_right _ hm3
                obtain ⟨hv, hu⟩ := hm.maps_ok kv hmem0
                refine ⟨holdne kv.2 hv ?_, hu⟩
                intro hveq
                have hk := hdisj kv hmem0 hveq
                have hinE : pp.git_url ∈ st.existing.map Prod.fst :=
                  List.mem_map.mpr ⟨_, lookup_kv_some_mem hlkE, rfl⟩
                have hdisjoint := List.disjoint_of_nodup_append
                  (by rw [← List.map_append]; exact hm.keys_nodup)
                exact hdisjoint hinE (hk ▸ List.mem_map_of_mem Prod.fst hm3)
              · rw [List.mem_singleton] at hm3
                subst hm3
                refine ⟨hipmem, ?_⟩
                rw [hipshape]
          · dsimp only [merge_map_update]
            rw [insert_kv_append_of_none ip hnoneI2, ← List.append_assoc,
              List.map_append, List.nodup_append]
            have hkeysE : (insert_kv q0.git_url
                { q0 with
                  child_peer_ids := some (btree_insert ip.id (child_ids q0)) }
                st.existing).map Prod.fst = st.existing.map Prod.fst := by
              apply insert_kv_keys_of_some
              rw [hq0key]
              exact hlkE
            refine ⟨?_, List.nodup_singleton _, ?_⟩
            · rw [List.map_append, hkeysE, ← List.map_append]
              exact hm.keys_nodup
            · intro s hs
              simp only [List.map_cons, List.map_nil, List.mem_singleton]
              intro hsk
              subst hsk
              rw [List.map_append, hkeysE, ← List.map_append] at hs
              obtain ⟨kv, hkv, hfst⟩ := List.mem_map.mp hs
              rcases List.mem_append.mp hkv with hm2 | hm2
              · exact lookup_kv_none_iff.mp hnoneE kv hm2 hfst
              · exact lookup_kv_none_iff.mp hnoneI kv hm2 hfst
          · intro r0 hr0
            obtain ⟨r, hr, hid, hal, hu, hpid, hch⟩ := hm.frame r0 hr0
            obtain ⟨r2, hr2, hid2, hal2, hu2, hpid2, hch2⟩ := hframe1 r hr
            exact ⟨r2, hr2, hid2.trans hid, hal2.trans hal, hu2.trans hu,
              hpid2.trans hpid, fun cid hcid => hch2 cid (hch cid hcid)⟩
          · refine ⟨?_, ?_, ?_, ?_⟩ <;> dsimp only [merge_map_update]
            · rw [hreg]; exact hm.same_tables.1
            · rw [hpkg]; exact hm.same_tables.2.1
            · rw [hrev]; exact hm.same_tables.2.2.1
            · rw [hcom]; exact hm.same_tables.2.2.2

theorem merge_process_pair_minv {orig : Db} {irgu : String} {root_peer : Peer}
    {st st' : MergeSt} {pair : Peer × Peer} (hm : MInv orig st)
    (h : merge_process_pair irgu root_peer st pair = .ok st') : MInv orig st' := by
  unfold merge_process_pair at h
  dsimp only at h
  cases hstep : (if (if pair.1.is_root then { pair.1 with git_url := irgu }
      else pair.1).is_root then
      merge_insert_peer (if pair.1.is_root then { pair.1 with git_url := irgu }
        else pair.1) (some root_peer) st
    else .ok st) with
  | error e =>
    rw [hstep] at h
    exact Except.noConfusion h
  | ok st1 =>
    rw [hstep] at h
    have hm1 : MInv orig st1 := by
      by_cases hroot : (if pair.1.is_root then { pair.1 with git_url := irgu }
          else pair.1).is_root = true
      · rw [if_pos hroot] at hstep
        exact merge_insert_peer_minv hm hstep
      · rw [if_neg hroot] at hstep
        cases hstep
        exact hm
    exact merge_insert_peer_minv hm1 h

theorem peer_merge_preserves {irgu : String} {incoming db : Db}
    {new_peers : List Peer} {db' : Db} (hinv : PeerInv db)
    (h : peer_merge irgu incoming db = .ok (new_peers, db')) :
    PeerInv db' ∧
    (∀ r0 ∈ db.peer, ∃ r ∈ db'.peer, r.id = r0.id ∧
      r.peer_alias = r0.peer_alias ∧ r.git_url = r0.git_url ∧
      r.parent_id = r0.parent_id ∧ ∀ cid ∈ child_ids r0, cid ∈ child_ids r) ∧
    db'.registry = db.registry ∧ db'.package = db.package ∧
    db'.review = db.review ∧ db'.comment = db.comment := by
  unfold peer_merge at h
  cases hroot : get_root db with
  | none =>
    rw [hroot] at h
    exact Except.noConfusion h
  | some root_peer =>
    rw [hroot] at h
    cases hsub : get_peer_subtrees incoming with
    | error e =>
      rw [hsub] at h
      exact Except.noConfusion h
    | ok subtrees =>
      rw [hsub] at h
      dsimp only at h
      cases hfold : subtrees.foldlM
          (fun st subtree =>
            (windows2 subtree).foldlM
              (merge_process_pair irgu root_peer) st)
          (⟨collect_by_key Peer.git_url db.peer, [], db⟩ : MergeSt) with
      | error e =>
        rw [hfold] at h
        exact Except.noConfusion h
      | ok stF =>
        rw [hfold] at h
        simp only [Except.ok.injEq, Prod.mk.injEq] at h
        obtain ⟨-, hdb⟩ := h
        subst hdb
        have hg := collect_by_key_good Peer.git_url db.peer
        have hm0 : MInv db (⟨collect_by_key Peer.git_url db.peer, [], db⟩ : MergeSt) := by
          constructor
          · exact hinv
          · intro kv hkv
            rw [List.append_nil] at hkv
            obtain ⟨hk, hmem⟩ := hg.2 kv hkv
            exact ⟨hmem, hk.symm⟩
          · rw [List.append_nil]
            exact hg.1
          · intro r0 hr0
            exact ⟨r0, hr0, rfl, rfl, rfl, rfl, fun cid hcid => hcid⟩
          · exact ⟨rfl, rfl, rfl, rfl⟩
        have hmF : MInv db stF := by
          refine foldlM_preserve (MInv db) _ ?_ subtrees _ stF hm0 hfold
          intro s subtree s' hP hstep
          exact foldlM_preserve (MInv db) _
            (fun s2 pr s2' hP2 hstep2 => merge_process_pair_minv hP2 hstep2)
            (windows2 subtree) s s' hP hstep
        exact ⟨hmF.inv, hmF.frame, hmF.same_tables.1, hmF.same_tables.2.1,
          hmF.same_tables.2.2.1, hmF.same_tables.2.2.2⟩

/-- States reachable from the set-up index by `peer::index::insert` calls
whose parent argument (when given) is a current row, and by
`peer::index::merge` calls with arbitrary incoming indexes; failed calls
roll the transaction back and so do not change the state. -/
inductive Reachable : Db → Prop where
  | setup : Reachable initial_db
  | insert (db : Db) (a u : String) (parent : Option Peer) (q : Peer)
      (pp' : Option Peer) (db' : Db) :
      Reachable db → (∀ pp, parent = some pp → pp ∈ db.peer) →
      peer_insert a u parent db = .ok (q, pp', db') → Reachable db'
  | merge (db : Db) (irgu : String) (incoming : Db) (new_peers : List Peer)
      (db' : Db) :
      Reachable db → peer_merge irgu incoming db = .ok (new_peers, db') →
      Reachable db'

theorem reachable_inv {db : Db} (h : Reachable db) : PeerInv db := by
  induction h with
  | setup => exact initial_db_inv
  | insert db a u parent q pp' db' _ hp hins ih =>
    cases parent with
    | none => exact (peer_insert_preserves_none ih hins).1
    | some pp => exact (peer_insert_preserves_some ih (hp pp rfl) hins).1
  | merge db irgu incoming new_peers db' _ hmerge ih =>
    exact (peer_merge_preserves ih hmerge).1

/-- C3: starting from the set-up index and applying any sequence of
`peer::index::insert` (with a current row as parent) and
`peer::index::merge` operations, every peer with a parent pointer refers to
an existing row, and that parent's child set contains the child's id. -/
theorem c3_thm {db : Db} (h : Reachable db) :
    ∀ p ∈ db.peer, ∀ pid, p.parent_id = some pid →
      ∃ q ∈ db.peer, q.id = pid ∧ p.id ∈ child_ids q :=
  (reachable_inv h).parent_mem

theorem except_ok_of_toOption {α : Type} {e : Except DbError α} {a : α}
    (h : e.toOption = some a) : e = .ok a := by
  cases e <;> simpa [Except.toOption] using h

/-- Index after inserting peer A under the root, starting from set-up. -/
def c3w_d1 : Db := { empty_db with peer :=
  [⟨1, "root", "https://localhost", none, some [2]⟩,
   ⟨2, "A", "https://localhost/A", some 1, none⟩] }

/-- Index after further inserting peer B under A. -/
def c3w_d2 : Db := { empty_db with peer :=
  [⟨1, "root", "https://localhost", none, some [2]⟩,
   ⟨2, "A", "https://localhost/A", some 1, some [3]⟩,
   ⟨3, "B", "https://localhost/B", some 2, none⟩] }

theorem c3_reach_c7 : Reachable c7_db := by
  refine Reachable.insert c3w_d2 "C" "https://localhost/C"
    (some ⟨1, "root", "https://localhost", none, some [2]⟩) c7_C
    (some ⟨1, "root", "https://localhost", none, some [2, 4]⟩) c7_db
    ?_ ?_ (except_ok_of_toOption (by decide))
  · refine Reachable.insert c3w_d1 "B" "https://localhost/B"
      (some ⟨2, "A", "https://localhost/A", some 1, none⟩)
      ⟨3, "B", "https://localhost/B", some 2, none⟩
      (some ⟨2, "A", "https://localhost/A", some 1, some [3]⟩) c3w_d2
      ?_ ?_ (except_ok_of_toOption (by decide))
    · refine Reachable.insert initial_db "A" "https://localhost/A"
        (some ⟨1, "root", "https://localhost", none, none⟩)
        ⟨2, "A", "https://localhost/A", some 1, none⟩
        (some ⟨1, "root", "https://localhost", none, some [2]⟩) c3w_d1
        Reachable.setup ?_ (except_ok_of_toOption (by decide))
      intro pp h
      simp only [Option.some.injEq] at h
      subst h
      decide
    intro pp h
    simp only [Option.some.injEq] at h
    subst h
    decide
  intro pp h
  simp only [Option.some.injEq] at h
  subst h
  decide

theorem c3_witness :
    ∃ q ∈ c7_db.peer, q.id = 1 ∧ c7_A.id ∈ child_ids q :=
  c3_thm c3_reach_c7 c7_A (by decide) 1 (by decide)

/-- Incoming index for the C5 counterexample: an incoming root plus one
child peer, whose git_urls are all new to the local index. -/
def c5_inc : Db := { empty_db with peer :=
  [⟨1, "root", "https://localhost", none, some [2]⟩,
   ⟨2, "peer_1", "https://localhost/peer_1", some 1, none⟩] }

/-- Resulting local index of the C5 counterexample merge. -/
def c5_db' : Db := { empty_db with peer :=
  [⟨1, "root", "https://localhost", none, some [2]⟩,
   ⟨2, "https://localhost/rootinc", "https://localhost/rootinc", some 1,
     some [3]⟩,
   ⟨3, "https://localhost/peer_1", "https://localhost/peer_1", some 2,
     none⟩] }

/-- C5 counterexample: merging an incoming tree whose peers are all new
grafts it under the local root, growing the root's `child_peer_ids`; the
pre-merge root row (with empty child set) is no longer present, so not
every field of an existing peer is unchanged. -/
theorem c5_counterexample :
    (peer_merge "https://localhost/rootinc" c5_inc initial_db).toOption =
      some ([⟨2, "https://localhost/rootinc", "https://localhost/rootinc",
               some 1, some [3]⟩,
             ⟨3, "https://localhost/peer_1", "https://localhost/peer_1",
               some 2, none⟩], c5_db') ∧
    (⟨1, "root", "https://localhost", none, none⟩ : Peer) ∈ initial_db.peer ∧
    (⟨1, "root", "https://localhost", none, none⟩ : Peer) ∉ c5_db'.peer := by
  decide

/-- C5 (amended): when `peer::index::merge` succeeds on a local index
satisfying the tree invariant, every pre-merge peer row survives as exactly
one row with its git_url: that row keeps its id, alias, git_url and
parent_id (so the merge never moves, duplicates or deletes an existing
peer), and its child set can only grow — but `child_peer_ids` is not
always unchanged, since merging can graft new children onto an existing
peer. -/
theorem c5_thm {irgu : String} {incoming db : Db} {new_peers : List Peer}
    {db' : Db} (hinv : PeerInv db)
    (h : peer_merge irgu incoming db = .ok (new_peers, db')) :
    ∀ r0 ∈ db.peer, ∃ r ∈ db'.peer,
      r.id = r0.id ∧ r.peer_alias = r0.peer_alias ∧ r.git_url = r0.git_url ∧
      r.parent_id = r0.parent_id ∧
      (∀ cid ∈ child_ids r0, cid ∈ child_ids r) ∧
      (∀ r2 ∈ db'.peer, r2.git_url = r0.git_url → r2 = r) := by
  obtain ⟨hinv', hframe, -⟩ := peer_merge_preserves hinv h
  intro r0 hr0
  obtain ⟨r, hr, hid, hal, hurl, hpar, hsub⟩ := hframe r0 hr0
  refine ⟨r, hr, hid, hal, hurl, hpar, hsub, ?_⟩
  intro r2 hr2 hurl2
  exact List.inj_on_of_nodup_map hinv'.nodup_urls hr2 hr (by rw [hurl2, hurl])

theorem c5_witness :
    ∃ r ∈ c5_db'.peer,
      r.id = (1 : Nat) ∧ r.peer_alias = "root" ∧
      r.git_url = "https://localhost" ∧ r.parent_id = none ∧
      (∀ cid ∈ child_ids (⟨1, "root", "https://localhost", none, none⟩ : Peer),
        cid ∈ child_ids r) ∧
      (∀ r2 ∈ c5_db'.peer, r2.git_url = "https://localhost" → r2 = r) :=
  c5_thm initial_db_inv
    (except_ok_of_toOption
      (show (peer_merge "https://localhost/rootinc" c5_inc initial_db).toOption =
          some ([⟨2, "https://localhost/rootinc", "https://localhost/rootinc",
                   some 1, some [3]⟩,
                 ⟨3, "https://localhost/peer_1", "https://localhost/peer_1",
                   some 2, none⟩], c5_db')
        by decide))
    ⟨1, "root", "https://localhost", none, none⟩ (by decide)

/-- Git URLs currently bound in the two merge maps. -/
def urlKeys (st : MergeSt) : List String :=
  (st.existing ++ st.inserted).map Prod.fst

theorem mem_keys_of_lookup_some {κ α : Type} [DecidableEq κ] {k : κ} {v : α}
    {m : List (κ × α)} (h : lookup_kv k m = some v) : k ∈ m.map Prod.fst :=
  List.mem_map.mpr ⟨(k, v), lookup_kv_some_mem h, rfl⟩

theorem lookup_isSome_of_mem_keys {κ α : Type} [DecidableEq κ] {k : κ}
    {m : List (κ × α)} (h : k ∈ m.map Prod.fst) :
    (lookup_kv k m).isSome = true := by
  obtain ⟨v, hv⟩ := exists_lookup_of_mem_keys h
  rw [hv]
  rfl

theorem mem_keys_insert_kv_self {κ α : Type} [DecidableEq κ] (k : κ) (v : α)
    (m : List (κ × α)) : k ∈ (insert_kv k v m).map Prod.fst := by
  rw [insert_kv_keys]
  cases h : lookup_kv k m with
  | some w => exact mem_keys_of_lookup_some h
  | none => exact List.mem_append.mpr (Or.inr (List.mem_singleton.mpr rfl))

theorem mem_keys_insert_kv_of_mem {κ α : Type} [DecidableEq κ] {k' : κ} (k : κ)
    (v : α) {m : List (κ × α)} (h : k' ∈ m.map Prod.fst) :
    k' ∈ (insert_kv k v m).map Prod.fst := by
  rw [insert_kv_keys]
  cases hl : lookup_kv k m with
  | some w => exact h
  | none => exact List.mem_append.mpr (Or.inl h)

theorem merge_insert_peer_skip {peer : Peer} {pp : Option Peer} {st : MergeSt}
    (h : peer.git_url ∈ urlKeys st) : merge_insert_peer peer pp st = .ok st := by
  unfold merge_insert_peer
  have hc : ((lookup_kv peer.git_url st.existing).isSome ||
      (lookup_kv peer.git_url st.inserted).isSome) = true := by
    rw [urlKeys, List.map_append, List.mem_append] at h
    rcases h with h | h
    · rw [lookup_isSome_of_mem_keys h, Bool.true_or]
    · rw [lookup_isSome_of_mem_keys h, Bool.or_true]
  rw [if_pos hc]

theorem merge_map_update_keys_mono {slot : Option (Bool × Peer)}
    {par' : Option Peer} {st : MergeSt} {u : String} (h : u ∈ urlKeys st) :
    u ∈ urlKeys (merge_map_update slot par' st) := by
  rcases slot with - | ⟨b, q⟩
  · exact h
  · cases par' with
    | none => cases b <;> exact h
    | some pq =>
      cases b
      · rw [urlKeys, List.map_append, List.mem_append] at h ⊢
        dsimp only [merge_map_update]
        rcases h with h | h
        · exact Or.inl (mem_keys_insert_kv_of_mem q.git_url pq h)
        · exact Or.inr h
      · rw [urlKeys, List.map_append, List.mem_append] at h ⊢
        dsimp only [merge_map_update]
        rcases h with h | h
        · exact Or.inl h
        · exact Or.inr (mem_keys_insert_kv_of_mem q.git_url pq h)

theorem merge_insert_peer_keys {peer : Peer} {pp : Option Peer}
    {st st' : MergeSt} (h : merge_insert_peer peer pp st = .ok st') :
    (∀ u ∈ urlKeys st, u ∈ urlKeys st') ∧ peer.git_url ∈ urlKeys st' := by
  unfold merge_insert_peer at h
  by_cases hc : ((lookup_kv peer.git_url st.existing).isSome ||
      (lookup_kv peer.git_url st.inserted).isSome) = true
  · rw [if_pos hc] at h
    obtain rfl : st = st' := by injection h
    refine ⟨fun u hu => hu, ?_⟩
    rw [urlKeys, List.map_append, List.mem_append]
    rcases Bool.or_eq_true_iff.mp hc with hs | hs
    · obtain ⟨v, hv⟩ := Option.isSome_iff_exists.mp hs
      exact Or.inl (mem_keys_of_lookup_some hv)
    · obtain ⟨v, hv⟩ := Option.isSome_iff_exists.mp hs
      exact Or.inr (mem_keys_of_lookup_some hv)
  · rw [if_neg hc] at h
    cases hins : peer_insert (get_new_alias peer.git_url st.db) peer.git_url
        ((merge_parent_slot pp st).map Prod.snd) st.db with
    | error e =>
      rw [hins] at h
      exact Except.noConfusion h
    | ok trip =>
      obtain ⟨ip, par', db'⟩ := trip
      rw [hins] at h
      obtain rfl : ({ merge_map_update (merge_parent_slot pp st) par' st with
          db := db',
          inserted := insert_kv peer.git_url ip
            (merge_map_update (merge_parent_slot pp st) par' st).inserted } :
          MergeSt) = st' := by injection h
      constructor
      · intro u hu
        have hu2 : u ∈ urlKeys (merge_map_update (merge_parent_slot pp st) par' st) :=
          merge_map_update_keys_mono hu
        rw [urlKeys, List.map_append, List.mem_append] at hu2 ⊢
        rcases hu2 with h2 | h2
        · exact Or.inl h2
        · exact Or.inr (mem_keys_insert_kv_of_mem peer.git_url ip h2)
      · rw [urlKeys, List.map_append, List.mem_append]
        exact Or.inr (mem_keys_insert_kv_self peer.git_url ip _)

theorem merge_process_pair_keys {irgu : String} {root_peer : Peer}
    {st st' : MergeSt} {pair : Peer × Peer}
    (h : merge_process_pair irgu root_peer st pair = .ok st') :
    (∀ u ∈ urlKeys st, u ∈ urlKeys st') ∧
    (pair.1.is_root = true → irgu ∈ urlKeys st') ∧
    pair.2.git_url ∈ urlKeys st' := by
  unfold merge_process_pair at h
  dsimp only at h
  by_cases h1r : pair.1.is_root = true
  · rw [if_pos h1r] at h
    have hrr : ({ pair.1 with git_url := irgu } : Peer).is_root = pair.1.is_root := rfl
    rw [hrr, if_pos h1r] at h
    cases hstep : merge_insert_peer { pair.1 with git_url := irgu }
        (some root_peer) st with
    | error e =>
      rw [hstep] at h
      exact Except.noConfusion h
    | ok st1 =>
      rw [hstep] at h
      obtain ⟨hmono1, hadd1⟩ := merge_insert_peer_keys hstep
      obtain ⟨hmono2, hadd2⟩ := merge_insert_peer_keys h
      exact ⟨fun u hu => hmono2 u (hmono1 u hu),
        fun _ => hmono2 irgu hadd1, hadd2⟩
  · rw [if_neg h1r] at h
    rw [if_neg h1r] at h
    obtain ⟨hmono2, hadd2⟩ := merge_insert_peer_keys h
    exact ⟨hmono2, fun hc => absurd hc h1r, hadd2⟩

theorem foldlM_establish {σ α : Type} (Q : α → σ → Prop)
    (f : σ → α → Except DbError σ)
    (hmono : ∀ s x s' a, Q a s → f s x = .ok s' → Q a s')
    (hest : ∀ s x s', f s x = .ok s' → Q x s') :
    ∀ (l : List α) (s s' : σ), l.foldlM f s = .ok s' → ∀ x ∈ l, Q x s' := by
  intro l
  induction l with
  | nil =>
    intro s s' h x hx
    exact absurd hx (List.not_mem_nil x)
  | cons a as ih =>
    intro s s' h x hx
    rw [List.foldlM_cons] at h
    cases hfa : f s a with
    | error e =>
      rw [hfa] at h
      exact Except.noConfusion h
    | ok s1 =>
      rw [hfa] at h
      rcases List.mem_cons.mp hx with rfl | hx2
      · exact foldlM_preserve (Q x) f (fun s2 b s2' => hmono s2 b s2' x) as s1 s'
          (hest s x s1 hfa) h
      · exact ih s1 s' h x hx2

theorem foldlM_id {σ α : Type} (f : σ → α → Except DbError σ) (s : σ)
    (l : List α) (h : ∀ x ∈ l, f s x = .ok s) : l.foldlM f s = .ok s := by
  induction l with
  | nil => rfl
  | cons a as ih =>
    rw [List.foldlM_cons, h a (List.mem_cons_self a as)]
    exact ih (fun x hx => h x (List.mem_cons_of_mem a hx))

theorem urlKeys_subset_urls {orig : Db} {st : MergeSt} (hm : MInv orig st) :
    ∀ k ∈ urlKeys st, k ∈ st.db.peer.map Peer.git_url := by
  intro k hk
  obtain ⟨kv, hkv, hfst⟩ := List.mem_map.mp hk
  obtain ⟨hmem, hurl⟩ := hm.maps_ok kv hkv
  exact List.mem_map.mpr ⟨kv.2, hmem, by rw [hurl, hfst]⟩

theorem peer_merge_covered {irgu : String} {incoming db : Db}
    {new : List Peer} {db' : Db} (hinv : PeerInv db)
    (h : peer_merge irgu incoming db = .ok (new, db')) :
    ∀ subtrees, get_peer_subtrees incoming = .ok subtrees →
      ∀ sub ∈ subtrees, ∀ pr ∈ windows2 sub,
        (pr.1.is_root = true → irgu ∈ db'.peer.map Peer.git_url) ∧
        pr.2.git_url ∈ db'.peer.map Peer.git_url := by
  unfold peer_merge at h
  cases hroot : get_root db with
  | none =>
    rw [hroot] at h
    exact Except.noConfusion h
  | some root_peer =>
    rw [hroot] at h
    cases hsub0 : get_peer_subtrees incoming with
    | error e =>
      rw [hsub0] at h
      exact Except.noConfusion h
    | ok subtrees0 =>
      rw [hsub0] at h
      dsimp only at h
      intro subtrees hsubeq
      obtain rfl : subtrees0 = subtrees := by injection hsubeq
      cases hfold : subtrees0.foldlM
          (fun st subtree =>
            (windows2 subtree).foldlM
              (merge_process_pair irgu root_peer) st)
          (⟨collect_by_key Peer.git_url db.peer, [], db⟩ : MergeSt) with
      | error e =>
        rw [hfold] at h
        exact Except.noConfusion h
      | ok stF =>
        rw [hfold] at h
        simp only [Except.ok.injEq, Prod.mk.injEq] at h
        obtain ⟨-, hdb⟩ := h
        have hg := collect_by_key_good Peer.git_url db.peer
        have hm0 : MInv db (⟨collect_by_key Peer.git_url db.peer, [], db⟩ : MergeSt) := by
          constructor
          · exact hinv
          · intro kv hkv
            rw [List.append_nil] at hkv
            obtain ⟨hk, hmem⟩ := hg.2 kv hkv
            exact ⟨hmem, hk.symm⟩
          · rw [List.append_nil]
            exact hg.1
          · intro r0 hr0
            exact ⟨r0, hr0, rfl, rfl, rfl, rfl, fun cid hcid => hcid⟩
          · exact ⟨rfl, rfl, rfl, rfl⟩
        have hmF : MInv db stF := by
          refine foldlM_preserve (MInv db) _ ?_ subtrees0 _ stF hm0 hfold
          intro s subtree s' hP hstep
          exact foldlM_preserve (MInv db) _
            (fun s2 pr s2' hP2 hstep2 => merge_process_pair_minv hP2 hstep2)
            (windows2 subtree) s s' hP hstep
        have hcovF : ∀ sub ∈ subtrees0, ∀ pr ∈ windows2 sub,
            (pr.1.is_root = true → irgu ∈ urlKeys stF) ∧
            pr.2.git_url ∈ urlKeys stF := by
          refine foldlM_establish
            (fun sub st => ∀ pr ∈ windows2 sub,
              (pr.1.is_root = true → irgu ∈ urlKeys st) ∧
              pr.2.git_url ∈ urlKeys st) _ ?_ ?_ subtrees0 _ stF hfold
          · intro s x s' a hQ hstep
            refine foldlM_preserve
              (fun st => ∀ pr ∈ windows2 a,
                (pr.1.is_root = true → irgu ∈ urlKeys st) ∧
                pr.2.git_url ∈ urlKeys st) _ ?_ (windows2 x) s s' hQ hstep
            intro s2 pr2 s2' hP2 hstep2
            obtain ⟨hmono, -, -⟩ := merge_process_pair_keys hstep2
            intro pr hpr
            obtain ⟨ha, hb⟩ := hP2 pr hpr
            exact ⟨fun hir => hmono irgu (ha hir), hmono pr.2.git_url hb⟩
          · intro s x s' hstep
            refine foldlM_establish
              (fun pr st => (pr.1.is_root = true → irgu ∈ urlKeys st) ∧
                pr.2.git_url ∈ urlKeys st) _ ?_ ?_ (windows2 x) s s' hstep
            · intro s2 pr2 s2' pr hQ2 hstep2
              obtain ⟨hmono, -, -⟩ := merge_process_pair_keys hstep2
              obtain ⟨ha, hb⟩ := hQ2
              exact ⟨fun hir => hmono irgu (ha hir), hmono pr.2.git_url hb⟩
            · intro s2 pr2 s2' hstep2
              obtain ⟨-, hr, hc⟩ := merge_process_pair_keys hstep2
              exact ⟨hr, hc⟩
        intro sub hsubm pr hpr
        obtain ⟨ha, hb⟩ := hcovF sub hsubm pr hpr
        rw [← hdb]
        exact ⟨fun hir => urlKeys_subset_urls hmF irgu (ha hir),
          urlKeys_subset_urls hmF pr.2.git_url hb⟩

theorem mem_urlKeys_collect {db1 : Db} {u : String}
    (h : u ∈ db1.peer.map Peer.git_url) :
    u ∈ urlKeys (⟨collect_by_key Peer.git_url db1.peer, [], db1⟩ : MergeSt) := by
  obtain ⟨y, hy, hyu⟩ := List.mem_map.mp h
  rw [urlKeys]
  dsimp only
  rw [List.append_nil]
  exact mem_keys_collect.mpr ⟨y, hy, hyu⟩

theorem peer_merge_second {irgu : String} {incoming db1 : Db}
    {subtrees : List (List Peer)}
    (hroot : (get_root db1).isSome = true)
    (hsub : get_peer_subtrees incoming = .ok subtrees)
    (hcov : ∀ sub ∈ subtrees, ∀ pr ∈ windows2 sub,
      (pr.1.is_root = true → irgu ∈ db1.peer.map Peer.git_url) ∧
      pr.2.git_url ∈ db1.peer.map Peer.git_url) :
    peer_merge irgu incoming db1 = .ok ([], db1) := by
  obtain ⟨root1, hroot1⟩ := Option.isSome_iff_exists.mp hroot
  unfold peer_merge
  rw [hroot1, hsub]
  dsimp only
  have hfold : subtrees.foldlM
      (fun st subtree =>
        (windows2 subtree).foldlM (merge_process_pair irgu root1) st)
      (⟨collect_by_key Peer.git_url db1.peer, [], db1⟩ : MergeSt) =
      .ok (⟨collect_by_key Peer.git_url db1.peer, [], db1⟩ : MergeSt) := by
    refine foldlM_id _ _ _ ?_
    intro sub hsubm
    refine foldlM_id _ _ _ ?_
    intro pr hpr
    obtain ⟨hir, hcu⟩ := hcov sub hsubm pr hpr
    unfold merge_process_pair
    dsimp only
    by_cases h1r : pr.1.is_root = true
    · rw [if_pos h1r]
      have hrr : ({ pr.1 with git_url := irgu } : Peer).is_root = pr.1.is_root := rfl
      rw [hrr, if_pos h1r]
      rw [merge_insert_peer_skip (mem_urlKeys_collect (hir h1r))]
      exact merge_insert_peer_skip (mem_urlKeys_collect hcu)
    · rw [if_neg h1r, if_neg h1r]
      exact merge_insert_peer_skip (mem_urlKeys_collect hcu)
  rw [hfold]
  rfl

theorem peerinv_of_peer_eq {db db' : Db} (h : db'.peer = db.peer)
    (hinv : PeerInv db) : PeerInv db' := by
  constructor
  · rw [h]
    exact hinv.nodup_ids
  · rw [h]
    exact hinv.nodup_urls
  · rw [h]
    exact hinv.nodup_aliases
  · rw [h]
    exact hinv.parent_mem
  · rw [h]
    exact hinv.child_back
  · rw [h]
    exact hinv.child_sorted

theorem registry_insert_tables {hn hu au : String} {db : Db} {r : Registry}
    {db2 : Db} (h : registry_insert hn hu au db = .ok (r, db2)) :
    db2.peer = db.peer ∧ db2.package = db.package ∧ db2.review = db.review ∧
      db2.comment = db.comment := by
  unfold registry_insert at h
  split_ifs at h
  simp only [Except.ok.injEq, Prod.mk.injEq] at h
  obtain ⟨-, rfl⟩ := h
  exact ⟨rfl, rfl, rfl, rfl⟩

theorem registry_ensure_tables {hn hu au : String} {db : Db} {r : Registry}
    {db2 : Db} (h : registry_ensure hn hu au db = .ok (r, db2)) :
    db2.peer = db.peer ∧ db2.package = db.package ∧ db2.review = db.review ∧
      db2.comment = db.comment := by
  unfold registry_ensure at h
  cases hg : (registry_get
      { host_name := some hn, registry_human_url := some hu,
        archive_url := some au } db).head? with
  | some r0 =>
    rw [hg] at h
    simp only [Except.ok.injEq, Prod.mk.injEq] at h
    obtain ⟨-, rfl⟩ := h
    exact ⟨rfl, rfl, rfl, rfl⟩
  | none =>
    rw [hg] at h
    exact registry_insert_tables h

theorem registry_merge_tables {incoming db : Db} {lr : List Registry} {db' : Db}
    (h : registry_merge incoming db = .ok (lr, db')) :
    db'.peer = db.peer ∧ db'.package = db.package ∧ db'.review = db.review ∧
      db'.comment = db.comment := by
  unfold registry_merge at h
  have := foldlM_preserve
    (fun (acc : List Registry × Db) => acc.2.peer = db.peer ∧
      acc.2.package = db.package ∧ acc.2.review = db.review ∧
      acc.2.comment = db.comment) _ ?_ _ _ _ ⟨rfl, rfl, rfl, rfl⟩ h
  · exact this
  · intro s a s' hP hstep
    cases hri : registry_insert a.host_name a.registry_human_url a.archive_url s.2 with
    | error e =>
      rw [hri] at hstep
      exact Except.noConfusion hstep
    | ok pr =>
      obtain ⟨r', db2⟩ := pr
      rw [hri] at hstep
      obtain rfl : (s.1 ++ [r'], db2) = s' := by injection hstep
      obtain ⟨h1, h2, h3, h4⟩ := registry_insert_tables hri
      exact ⟨h1.trans hP.1, h2.trans hP.2.1, h3.trans hP.2.2.1, h4.trans hP.2.2.2⟩

theorem package_insert_tables {pn pv : String} {regs : List Registry}
    {ah : String} {db : Db} {p : Package} {db2 : Db}
    (h : package_insert pn pv regs ah db = .ok (p, db2)) :
    db2.peer = db.peer ∧ db2.registry = db.registry ∧ db2.review = db.review ∧
      db2.comment = db.comment := by
  unfold package_insert at h
  split_ifs at h
  simp only [Except.ok.injEq, Prod.mk.injEq] at h
  obtain ⟨-, rfl⟩ := h
  exact ⟨rfl, rfl, rfl, rfl⟩

theorem package_merge_tables {incoming db : Db} {lp : List Package} {db' : Db}
    (h : package_merge incoming db = .ok (lp, db')) :
    db'.peer = db.peer ∧ db'.review = db.review ∧ db'.comment = db.comment := by
  unfold package_merge at h
  have := foldlM_preserve
    (fun (acc : List Package × Db) => acc.2.peer = db.peer ∧
      acc.2.review = db.review ∧ acc.2.comment = db.comment) _ ?_ _ _ _
    ⟨rfl, rfl, rfl⟩ h
  · exact this
  · intro s a s' hP hstep
    cases hrf : a.registries.foldlM
        (fun (racc : List Registry × Db) r =>
          (match registry_ensure r.host_name r.registry_human_url r.archive_url racc.2 with
           | .error e => .error e
           | .ok (r', db') =>
             .ok (if racc.1.contains r' then racc.1
                  else sort_insert (fun a b => a.id ≤ b.id) r' racc.1, db') :
            Except DbError (List Registry × Db)))
        ([], s.2) with
    | error e =>
      rw [hrf] at hstep
      exact Except.noConfusion hstep
    | ok rp =>
      obtain ⟨new_registries, db1⟩ := rp
      rw [hrf] at hstep
      dsimp only at hstep
      have hP1 : db1.peer = db.peer ∧ db1.review = db.review ∧
          db1.comment = db.comment := by
        have := foldlM_preserve
          (fun (racc : List Registry × Db) => racc.2.peer = db.peer ∧
            racc.2.review = db.review ∧ racc.2.comment = db.comment) _ ?_
          a.registries _ _ hP hrf
        · exact this
        · intro t r t' hPt hst
          cases hre : registry_ensure r.host_name r.registry_human_url
              r.archive_url t.2 with
          | error e =>
            rw [hre] at hst
            exact Except.noConfusion hst
          | ok pr2 =>
            obtain ⟨r', db3⟩ := pr2
            rw [hre] at hst
            obtain rfl : ((if t.1.contains r' then t.1
                else sort_insert (fun a b => a.id ≤ b.id) r' t.1, db3) :
                List Registry × Db) = t' := by injection hst
            obtain ⟨e1, -, e3, e4⟩ := registry_ensure_tables hre
            exact ⟨e1.trans hPt.1, e3.trans hPt.2.1, e4.trans hPt.2.2⟩
      cases hpi : package_insert a.name a.version new_registries a.artifact_hash db1 with
      | error e =>
        rw [hpi] at hstep
        exact Except.noConfusion hstep
      | ok pp2 =>
        obtain ⟨pkg', db2⟩ := pp2
        rw [hpi] at hstep
        obtain rfl : (s.1 ++ [pkg'], db2) = s' := by injection hstep
        obtain ⟨q1, -, q3, q4⟩ := package_insert_tables hpi
        exact ⟨q1.trans hP1.1, q3.trans hP1.2.1, q4.trans hP1.2.2⟩

theorem comment_fold_tables (cs : List Comment) :
    ∀ acc : List Comment × Db,
      (cs.foldl (fun (cc : List Comment × Db) c =>
          (cc.1 ++ [(comment_insert c.path c.summary c.message c.selection cc.2).1],
           (comment_insert c.path c.summary c.message c.selection cc.2).2)) acc).2.peer
          = acc.2.peer ∧
      (cs.foldl (fun (cc : List Comment × Db) c =>
          (cc.1 ++ [(comment_insert c.path c.summary c.message c.selection cc.2).1],
           (comment_insert c.path c.summary c.message c.selection cc.2).2)) acc).2.package
          = acc.2.package ∧
      (cs.foldl (fun (cc : List Comment × Db) c =>
          (cc.1 ++ [(comment_insert c.path c.summary c.message c.selection cc.2).1],
           (comment_insert c.path c.summary c.message c.selection cc.2).2)) acc).2.registry
          = acc.2.registry ∧
      (cs.foldl (fun (cc : List Comment × Db) c =>
          (cc.1 ++ [(comment_insert c.path c.summary c.message c.selection cc.2).1],
           (comment_insert c.path c.summary c.message c.selection cc.2).2)) acc).2.review
          = acc.2.review := by
  induction cs with
  | nil => intro acc; exact ⟨rfl, rfl, rfl, rfl⟩
  | cons c cs ih =>
    intro acc
    rw [List.foldl_cons]
    exact ih _

theorem review_insert_ok {cs : List Comment} {peer : Peer} {pkg : Package}
    {db : Db} {rv : Review} {db2 : Db}
    (h : review_insert cs peer pkg db = .ok (rv, db2)) :
    db2.peer = db.peer ∧ db2.package = db.package ∧ db2.registry = db.registry ∧
    db2.comment = db.comment ∧
    ∃ row : ReviewRow, db2.review = db.review ++ [row] ∧
      row.peer_id = peer.id ∧ row.package_id = pkg.id := by
  unfold review_insert at h
  split_ifs at h
  dsimp only at h
  simp only [Except.ok.injEq, Prod.mk.injEq] at h
  obtain ⟨-, rfl⟩ := h
  exact ⟨rfl, rfl, rfl, rfl, _, rfl, rfl, rfl⟩

theorem review_merge_step_ok {irgu : String} {acc acc' : List Review × Db}
    {r : Review} (h : review_merge_step irgu acc r = .ok acc') :
    acc'.2.peer = acc.2.peer ∧ acc'.2.package = acc.2.package ∧
    acc'.2.registry = acc.2.registry ∧
    ∀ row ∈ acc.2.review, row ∈ acc'.2.review := by
  unfold review_merge_step at h
  cases hpr : resolve_review_peer irgu acc.2 r with
  | none =>
    rw [hpr] at h
    exact Except.noConfusion h
  | some peer =>
    rw [hpr] at h
    cases hpk : resolve_review_package acc.2 r with
    | none =>
      rw [hpk] at h
      exact Except.noConfusion h
    | some pkg =>
      rw [hpk] at h
      dsimp only at h
      cases hri : review_insert
          (r.comments.foldl (fun (cc : List Comment × Db) c =>
            (cc.1 ++ [(comment_insert c.path c.summary c.message c.selection cc.2).1],
             (comment_insert c.path c.summary c.message c.selection cc.2).2))
            ([], acc.2)).1 peer pkg
          (r.comments.foldl (fun (cc : List Comment × Db) c =>
            (cc.1 ++ [(comment_insert c.path c.summary c.message c.selection cc.2).1],
             (comment_insert c.path c.summary c.message c.selection cc.2).2))
            ([], acc.2)).2 with
      | error e =>
        rw [hri] at h
        exact Except.noConfusion h
      | ok pr =>
        obtain ⟨rv, db2⟩ := pr
        rw [hri] at h
        obtain rfl : (acc.1 ++ [rv], db2) = acc' := by injection h
        obtain ⟨z1, z2, z3, z4⟩ := comment_fold_tables r.comments ([], acc.2)
        obtain ⟨i1, i2, i3, -, row, hrow, -, -⟩ := review_insert_ok hri
        refine ⟨i1.trans z1, i2.trans z2, i3.trans z3, ?_⟩
        intro row0 hrow0
        rw [hrow, z4]
        exact List.mem_append.mpr (Or.inl hrow0)

theorem review_merge_tables {irgu : String} {incoming db : Db}
    {lv : List Review} {db' : Db}
    (h : review_merge irgu incoming db = .ok (lv, db')) :
    db'.peer = db.peer ∧ db'.package = db.package ∧ db'.registry = db.registry ∧
    ∀ row ∈ db.review, row ∈ db'.review := by
  unfold review_merge at h
  have := foldlM_preserve
    (fun (acc : List Review × Db) => acc.2.peer = db.peer ∧
      acc.2.package = db.package ∧ acc.2.registry = db.registry ∧
      ∀ row ∈ db.review, row ∈ acc.2.review) _ ?_ _ _ _
    ⟨rfl, rfl, rfl, fun row hr => hr⟩ h
  · exact this
  · intro s a s' hP hstep
    obtain ⟨p1, p2, p3, p4⟩ := review_merge_step_ok hstep
    exact ⟨p1.trans hP.1, p2.trans hP.2.1, p3.trans hP.2.2.1,
      fun row hr => p4 row (hP.2.2.2 row hr)⟩

theorem review_merge_head {irgu : String} {incoming db : Db} {lv : List Review}
    {db' : Db} {r0 : Review} {rs : List Review}
    (hget : review_get {} incoming = r0 :: rs)
    (h : review_merge irgu incoming db = .ok (lv, db')) :
    ∃ peer0 pkg0, resolve_review_peer irgu db r0 = some peer0 ∧
      resolve_review_package db r0 = some pkg0 ∧
      ∃ row ∈ db'.review, row.peer_id = peer0.id ∧ row.package_id = pkg0.id := by
  unfold review_merge at h
  rw [hget, List.foldlM_cons] at h
  cases hstep : review_merge_step irgu ([], db) r0 with
  | error e =>
    rw [hstep] at h
    exact Except.noConfusion h
  | ok acc1 =>
    rw [hstep] at h
    have hrow : ∃ peer0 pkg0, resolve_review_peer irgu db r0 = some peer0 ∧
        resolve_review_package db r0 = some pkg0 ∧
        ∃ row ∈ acc1.2.review, row.peer_id = peer0.id ∧
          row.package_id = pkg0.id := by
      unfold review_merge_step at hstep
      dsimp only at hstep
      cases hpr : resolve_review_peer irgu db r0 with
      | none =>
        rw [hpr] at hstep
        exact Except.noConfusion hstep
      | some peer0 =>
        rw [hpr] at hstep
        cases hpk : resolve_review_package db r0 with
        | none =>
          rw [hpk] at hstep
          exact Except.noConfusion hstep
        | some pkg0 =>
          rw [hpk] at hstep
          dsimp only at hstep
          cases hri : review_insert
              (r0.comments.foldl (fun (cc : List Comment × Db) c =>
                (cc.1 ++ [(comment_insert c.path c.summary c.message c.selection cc.2).1],
                 (comment_insert c.path c.summary c.message c.selection cc.2).2))
                ([], db)).1 peer0 pkg0
              (r0.comments.foldl (fun (cc : List Comment × Db) c =>
                (cc.1 ++ [(comment_insert c.path c.summary c.message c.selection cc.2).1],
                 (comment_insert c.path c.summary c.message c.selection cc.2).2))
                ([], db)).2 with
          | error e =>
            rw [hri] at hstep
            exact Except.noConfusion hstep
          | ok pr =>
            obtain ⟨rv, db2⟩ := pr
            rw [hri] at hstep
            obtain rfl : (([] : List Review) ++ [rv], db2) = acc1 := by injection hstep
            obtain ⟨-, -, -, -, row, hrw, hrp, hrk⟩ := review_insert_ok hri
            refine ⟨peer0, pkg0, rfl, rfl, row, ?_, hrp, hrk⟩
            rw [hrw]
            exact List.mem_append.mpr (Or.inr (List.mem_singleton.mpr rfl))
    obtain ⟨peer0, pkg0, hpr, hpk, row, hmem, hrp, hrk⟩ := hrow
    have hpres : ∀ r1 ∈ acc1.2.review, r1 ∈ db'.review := by
      have := foldlM_preserve
        (fun (acc : List Review × Db) => ∀ r1 ∈ acc1.2.review, r1 ∈ acc.2.review)
        _ ?_ rs acc1 (lv, db') (fun r1 hr1 => hr1) h
      · exact this
      · intro s a s' hP hstep2
        obtain ⟨-, -, -, p4⟩ := review_merge_step_ok hstep2
        exact fun r1 hr1 => p4 r1 (hP r1 hr1)
    exact ⟨peer0, pkg0, hpr, hpk, row, hpres row hmem, hrp, hrk⟩

theorem resolve_review_peer_congr {irgu : String} {db1 db2 : Db}
    (h : db1.peer = db2.peer) (r : Review) :
    resolve_review_peer irgu db1 r = resolve_review_peer irgu db2 r := by
  unfold resolve_review_peer peer_get
  rw [h]

theorem resolve_review_package_congr {db1 db2 : Db}
    (hp : db1.package = db2.package) (hr : db1.registry = db2.registry)
    (r : Review) :
    resolve_review_package db1 r = resolve_review_package db2 r := by
  unfold resolve_review_package package_get package_row_registries registry_get
  rw [hp, hr]

theorem review_merge_second_err {irgu : String} {incoming db : Db} {r0 : Review}
    {rs : List Review} (hget : review_get {} incoming = r0 :: rs)
    {peer0 : Peer} {pkg0 : Package}
    (hpr : resolve_review_peer irgu db r0 = some peer0)
    (hpk : resolve_review_package db r0 = some pkg0)
    (hdup : ∃ row ∈ db.review, row.peer_id = peer0.id ∧ row.package_id = pkg0.id) :
    review_merge irgu incoming db =
      .error (.constraintViolation
        "UNIQUE constraint failed: review.peer_id, review.package_id") := by
  unfold review_merge
  rw [hget, List.foldlM_cons]
  have hstep : review_merge_step irgu ([], db) r0 =
      .error (.constraintViolation
        "UNIQUE constraint failed: review.peer_id, review.package_id") := by
    unfold review_merge_step
    dsimp only
    rw [hpr, hpk]
    dsimp only
    have hrev : (r0.comments.foldl (fun (cc : List Comment × Db) c =>
        (cc.1 ++ [(comment_insert c.path c.summary c.message c.selection cc.2).1],
         (comment_insert c.path c.summary c.message c.selection cc.2).2))
        ([], db)).2.review = db.review :=
      (comment_fold_tables r0.comments ([], db)).2.2.2
    have hany : ((r0.comments.foldl (fun (cc : List Comment × Db) c =>
        (cc.1 ++ [(comment_insert c.path c.summary c.message c.selection cc.2).1],
         (comment_insert c.path c.summary c.message c.selection cc.2).2))
        ([], db)).2.review.any (fun row =>
          row.peer_id == peer0.id && row.package_id == pkg0.id)) = true := by
      rw [hrev]
      obtain ⟨row, hmem, h1, h2⟩ := hdup
      refine List.any_eq_true.mpr ⟨row, hmem, ?_⟩
      rw [h1, h2]
      simp
    unfold review_insert
    rw [if_pos hany]
  rw [hstep]
  rfl

theorem get_root_isSome_of_frame {db db' : Db}
    (hroot : (get_root db).isSome = true)
    (hframe : ∀ r0 ∈ db.peer, ∃ r ∈ db'.peer, r.id = r0.id ∧
      r.peer_alias = r0.peer_alias ∧ r.git_url = r0.git_url ∧
      r.parent_id = r0.parent_id ∧ ∀ cid ∈ child_ids r0, cid ∈ child_ids r) :
    (get_root db').isSome = true := by
  obtain ⟨p, hp⟩ := Option.isSome_iff_exists.mp hroot
  unfold get_root at hp
  have hpm : p ∈ peer_get { peer_alias := some "root" } db := by
    cases hl : peer_get { peer_alias := some "root" } db with
    | nil =>
      rw [hl] at hp
      exact Option.noConfusion hp
    | cons a t =>
      rw [hl] at hp
      obtain rfl : a = p := by injection hp
      exact List.mem_cons_self a t
  rw [peer_get, List.mem_filter] at hpm
  obtain ⟨hpdb, hpmatch⟩ := hpm
  have halias : p.peer_alias = "root" := by
    simp only [peer_matches, opt_match, Bool.and_eq_true, decide_eq_true_eq] at hpmatch
    exact hpmatch.1.1.2.symm
  obtain ⟨r, hr, -, hra, -⟩ := hframe p hpdb
  have hrm : r ∈ peer_get { peer_alias := some "root" } db' := by
    rw [peer_get, List.mem_filter]
    refine ⟨hr, ?_⟩
    simp only [peer_matches, opt_match, Bool.and_eq_true, decide_eq_true_eq]
    exact ⟨⟨⟨trivial, (hra.trans halias).symm⟩, trivial⟩, trivial⟩
  unfold get_root
  cases hl : peer_get { peer_alias := some "root" } db' with
  | nil =>
    rw [hl] at hrm
    exact absurd hrm (List.not_mem_nil r)
  | cons a t => rfl

theorem peer_merge_subtrees_ok {irgu : String} {incoming db : Db}
    {x : List Peer × Db} (h : peer_merge irgu incoming db = .ok x) :
    (get_root db).isSome = true ∧
    ∃ subs, get_peer_subtrees incoming = .ok subs := by
  unfold peer_merge at h
  cases hroot : get_root db with
  | none =>
    rw [hroot] at h
    exact Except.noConfusion h
  | some root_peer =>
    rw [hroot] at h
    refine ⟨rfl, ?_⟩
    cases hsub : get_peer_subtrees incoming with
    | error e =>
      rw [hsub] at h
      exact Except.noConfusion h
    | ok subs => exact ⟨subs, rfl⟩

/-- C1 (amended): after one successful full merge (`store::index::merge`:
registries, peers, packages, reviews) of an incoming index into a local
index satisfying the tree invariant, a second `peer::index::merge` with the
same arguments is idempotent — it succeeds, inserts zero peers and leaves
the index unchanged — but a second `review::index::merge` is not: it
returns the recoverable `UNIQUE(peer_id, package_id)` constraint error as
soon as the incoming index holds at least one (joinable) review, because
the loop unconditionally re-inserts every incoming review; only when the
incoming index has no joinable reviews does the second review merge succeed
with zero insertions. -/
theorem c1_thm {irgu : String} {incoming db0 db1 : Db}
    (hinv : PeerInv db0) (h1 : store_merge irgu incoming db0 = .ok db1) :
    peer_merge irgu incoming db1 = .ok ([], db1) ∧
    (review_get {} incoming = [] →
      review_merge irgu incoming db1 = .ok ([], db1)) ∧
    (∀ r0 rs, review_get {} incoming = r0 :: rs →
      review_merge irgu incoming db1 =
        .error (.constraintViolation
          "UNIQUE constraint failed: review.peer_id, review.package_id")) := by
  unfold store_merge at h1
  cases hreg : registry_merge incoming db0 with
  | error e =>
    rw [hreg] at h1
    exact Except.noConfusion h1
  | ok p1 =>
    obtain ⟨lr, dbA⟩ := p1
    rw [hreg] at h1
    dsimp only at h1
    cases hpm : peer_merge irgu incoming dbA with
    | error e =>
      rw [hpm] at h1
      exact Except.noConfusion h1
    | ok p2 =>
      obtain ⟨lp, dbB⟩ := p2
      rw [hpm] at h1
      dsimp only at h1
      cases hkm : package_merge incoming dbB with
      | error e =>
        rw [hkm] at h1
        exact Except.noConfusion h1
      | ok p3 =>
        obtain ⟨lk, dbC⟩ := p3
        rw [hkm] at h1
        dsimp only at h1
        cases hrm : review_merge irgu incoming dbC with
        | error e =>
          rw [hrm] at h1
          exact Except.noConfusion h1
        | ok p4 =>
          obtain ⟨lv, db1'⟩ := p4
          rw [hrm] at h1
          dsimp only at h1
          obtain rfl : db1' = db1 := by injection h1
          obtain ⟨ra, -, -, -⟩ := registry_merge_tables hreg
          have hinvA : PeerInv dbA := peerinv_of_peer_eq ra hinv
          obtain ⟨hinvB, hframeAB, -, -, -, -⟩ := peer_merge_preserves hinvA hpm
          obtain ⟨pb1, -, -⟩ := package_merge_tables hkm
          obtain ⟨rv1, rv2, rv3, -⟩ := review_merge_tables hrm
          have hpeer1B : db1'.peer = dbB.peer := rv1.trans pb1
          obtain ⟨hrootA, subs, hsub⟩ := peer_merge_subtrees_ok hpm
          have hcovB := peer_merge_covered hinvA hpm subs hsub
          have hframeA1 : ∀ r0 ∈ dbA.peer, ∃ r ∈ db1'.peer, r.id = r0.id ∧
              r.peer_alias = r0.peer_alias ∧ r.git_url = r0.git_url ∧
              r.parent_id = r0.parent_id ∧
              ∀ cid ∈ child_ids r0, cid ∈ child_ids r := by
            rw [hpeer1B]
            exact hframeAB
          refine ⟨?_, ?_, ?_⟩
          · refine peer_merge_second (get_root_isSome_of_frame hrootA hframeA1)
              hsub ?_
            intro sub hsubm pr hpr
            obtain ⟨ha, hb⟩ := hcovB sub hsubm pr hpr
            rw [hpeer1B]
            exact ⟨ha, hb⟩
          · intro hget
            unfold review_merge
            rw [hget]
            rfl
          · intro r0 rs hget
            obtain ⟨peer0, pkg0, hpr, hpk, row, hmem, hid1, hid2⟩ :=
              review_merge_head hget hrm
            refine review_merge_second_err hget
              ((resolve_review_peer_congr rv1 r0).trans hpr)
              ((resolve_review_package_congr rv2 rv3 r0).trans hpk)
              ⟨row, hmem, hid1, hid2⟩

/-- Incoming index of the C1 counterexample: a root with one child peer
"alice", one registry, one package and alice's review of it. -/
def c1_inc : Db :=
  { peer := [⟨1, "root", "https://localhost", none, some [2]⟩,
             ⟨2, "alice", "https://localhost/alice", some 1, none⟩],
    registry := [⟨1, "pypi", "https://pypi.org", "https://pypi.org/simple"⟩],
    package := [⟨1, "pkg", "1.0", [1], "hash1"⟩],
    review := [⟨1, 2, 1, none⟩],
    comment := [] }

/-- Local index after one successful full merge of `c1_inc` into the set-up
index under the incoming-root URL "https://localhost/friend". -/
def c1_db1 : Db :=
  { peer := [⟨1, "root", "https://localhost", none, some [2]⟩,
             ⟨2, "https://localhost/friend", "https://localhost/friend",
               some 1, some [3]⟩,
             ⟨3, "https://localhost/alice", "https://localhost/alice",
               some 2, none⟩],
    registry := [⟨1, "pypi", "https://pypi.org", "https://pypi.org/simple"⟩],
    package := [⟨1, "pkg", "1.0", [1], "hash1"⟩],
    review := [⟨1, 3, 1, none⟩],
    comment := [] }

/-- C1 counterexample: the full merge of `c1_inc` into the set-up index
succeeds once, but running `review::index::merge` a second time on the
unchanged result does not succeed — the claimed error-free idempotence of
the review half fails. -/
theorem c1_counterexample :
    (store_merge "https://localhost/friend" c1_inc initial_db).toOption =
      some c1_db1 ∧
    (review_merge "https://localhost/friend" c1_inc c1_db1).toOption = none := by
  decide

theorem c1_witness :
    peer_merge "https://localhost/friend" c1_inc c1_db1 = .ok ([], c1_db1) ∧
    review_merge "https://localhost/friend" c1_inc c1_db1 =
      .error (.constraintViolation
        "UNIQUE constraint failed: review.peer_id, review.package_id") :=
  ⟨(c1_thm initial_db_inv (except_ok_of_toOption
      (show (store_merge "https://localhost/friend" c1_inc initial_db).toOption =
          some c1_db1 by decide))).1,
   (c1_thm initial_db_inv (except_ok_of_toOption
      (show (store_merge "https://localhost/friend" c1_inc initial_db).toOption =
          some c1_db1 by decide))).2.2
     ⟨1, ⟨2, "alice", "https://localhost/alice", some 1, none⟩,
      ⟨1, "pkg", "1.0",
        [⟨1, "pypi", "https://pypi.org", "https://pypi.org/simple"⟩], "hash1"⟩,
      []⟩ [] (by decide)⟩

theorem foldlM_steps {σ α : Type} (P : σ → Prop) (f : σ → α → Except DbError σ)
    (hpres : ∀ s x s', P s → f s x = .ok s' → P s') :
    ∀ (l : List α) (s s' : σ), P s → l.foldlM f s = .ok s' →
      ∀ x ∈ l, ∃ t t', P t ∧ f t x = .ok t' := by
  intro l
  induction l with
  | nil =>
    intro s s' hP h x hx
    exact absurd hx (List.not_mem_nil x)
  | cons a as ih =>
    intro s s' hP h x hx
    rw [List.foldlM_cons] at h
    cases hfa : f s a with
    | error e =>
      rw [hfa] at h
      exact Except.noConfusion h
    | ok s1 =>
      rw [hfa] at h
      rcases List.mem_cons.mp hx with rfl | hx2
      · exact ⟨s, s1, hP, hfa⟩
      · exact ih s1 s' (hpres s a s1 hP hfa) h x hx2

theorem review_merge_fold_ok {irgu : String} {db : Db} :
    ∀ (l : List Review) (s : List Review × Db),
      s.2.peer = db.peer → s.2.package = db.package → s.2.registry = db.registry →
      (∀ r ∈ l, ∃ p k, resolve_review_peer irgu db r = some p ∧
        resolve_review_package db r = some k) →
      (∀ r ∈ l, ∀ p k, resolve_review_peer irgu db r = some p →
        resolve_review_package db r = some k →
        ∀ row ∈ s.2.review, ¬(row.peer_id = p.id ∧ row.package_id = k.id)) →
      List.Pairwise (fun r1 r2 => ∀ p1 k1 p2 k2,
        resolve_review_peer irgu db r1 = some p1 →
        resolve_review_package db r1 = some k1 →
        resolve_review_peer irgu db r2 = some p2 →
        resolve_review_package db r2 = some k2 →
        p1.id ≠ p2.id ∨ k1.id ≠ k2.id) l →
      ∃ out, l.foldlM (review_merge_step irgu) s = .ok out := by
  intro l
  induction l with
  | nil =>
    intro s _ _ _ _ _ _
    exact ⟨s, rfl⟩
  | cons r l' ih =>
    intro s hp hk hg hres hnoconf hdist
    obtain ⟨p, k, hrp, hrk⟩ := hres r (List.mem_cons_self r l')
    have hrp2 : resolve_review_peer irgu s.2 r = some p :=
      (resolve_review_peer_congr hp r).trans hrp
    have hrk2 : resolve_review_package s.2 r = some k :=
      (resolve_review_package_congr hk hg r).trans hrk
    have hzp := comment_fold_tables r.comments ([], s.2)
    have hany : ((r.comments.foldl (fun (cc : List Comment × Db) c =>
        (cc.1 ++ [(comment_insert c.path c.summary c.message c.selection cc.2).1],
         (comment_insert c.path c.summary c.message c.selection cc.2).2))
        ([], s.2)).2.review.any (fun row =>
          row.peer_id == p.id && row.package_id == k.id)) = false := by
      rw [hzp.2.2.2]
      rw [List.any_eq_false]
      intro row hrow
      have hnc := hnoconf r (List.mem_cons_self r l') p k hrp hrk row hrow
      cases hcc : (row.peer_id == p.id && row.package_id == k.id) with
      | false => simp
      | true =>
        exfalso
        simp only [Bool.and_eq_true, beq_iff_eq] at hcc
        exact hnc hcc
    cases hri : review_insert
        (r.comments.foldl (fun (cc : List Comment × Db) c =>
          (cc.1 ++ [(comment_insert c.path c.summary c.message c.selection cc.2).1],
           (comment_insert c.path c.summary c.message c.selection cc.2).2))
          ([], s.2)).1 p k
        (r.comments.foldl (fun (cc : List Comment × Db) c =>
          (cc.1 ++ [(comment_insert c.path c.summary c.message c.selection cc.2).1],
           (comment_insert c.path c.summary c.message c.selection cc.2).2))
          ([], s.2)).2 with
    | error e =>
      exfalso
      unfold review_insert at hri
      rw [hany] at hri
      simp only [Bool.false_eq_true, if_false] at hri
      exact Except.noConfusion hri
    | ok pr =>
      obtain ⟨rv, db2⟩ := pr
      obtain ⟨i1, i2, i3, -, row, hrw, hrpid, hrkid⟩ := review_insert_ok hri
      have hstepEq : review_merge_step irgu s r = .ok (s.1 ++ [rv], db2) := by
        unfold review_merge_step
        dsimp only
        rw [hrp2, hrk2]
        dsimp only
        rw [hri]
      have hih := ih (s.1 ++ [rv], db2)
        (i1.trans (hzp.1.trans hp)) (i2.trans (hzp.2.1.trans hk))
        (i3.trans (hzp.2.2.1.trans hg))
        (fun r2 hr2 => hres r2 (List.mem_cons_of_mem r hr2))
        ?_ (List.pairwise_cons.mp hdist).2
      · obtain ⟨out, hout⟩ := hih
        refine ⟨out, ?_⟩
        rw [List.foldlM_cons, hstepEq]
        exact hout
      · intro r2 hr2 p2 k2 hp2 hk2 row2 hrow2
        rw [show ((s.1 ++ [rv], db2) : List Review × Db).2 = db2 from rfl,
          hrw, hzp.2.2.2] at hrow2
        rcases List.mem_append.mp hrow2 with hold | hnew
        · exact hnoconf r2 (List.mem_cons_of_mem r hr2) p2 k2 hp2 hk2 row2 hold
        · obtain rfl : row2 = row := List.mem_singleton.mp hnew
          have hdisj := (List.pairwise_cons.mp hdist).1 r2 hr2 p k p2 k2
            hrp hrk hp2 hk2
          rintro ⟨e1, e2⟩
          rcases hdisj with hd | hd
          · exact hd ((hrpid.symm.trans e1))
          · exact hd ((hrkid.symm.trans e2))

/-- C6 (amended): `review::index::merge` aborts with an error — rather than
skipping the bad review — whenever some incoming review's peer cannot be
found locally by git URL (after substituting the designated URL for the
incoming root) or its package cannot be found locally by name, version and
registry host names; but success of every lookup is not sufficient for the
merge to succeed: the merge succeeds when additionally every resolved
`(peer, package)` id pair is absent from the local review table and the
pairs of distinct incoming reviews are distinct, since the unconditional
re-insert can otherwise still fail on the UNIQUE constraint. -/
theorem c6_thm {irgu : String} {incoming db : Db} :
    ((∃ r ∈ review_get {} incoming,
        resolve_review_peer irgu db r = none ∨
          resolve_review_package db r = none) →
      ∀ lv db', review_merge irgu incoming db ≠ .ok (lv, db')) ∧
    ((∀ r ∈ review_get {} incoming, ∃ p k,
        resolve_review_peer irgu db r = some p ∧
          resolve_review_package db r = some k) →
      (∀ r ∈ review_get {} incoming, ∀ p k,
        resolve_review_peer irgu db r = some p →
        resolve_review_package db r = some k →
        ∀ row ∈ db.review, ¬(row.peer_id = p.id ∧ row.package_id = k.id)) →
      List.Pairwise (fun r1 r2 => ∀ p1 k1 p2 k2,
        resolve_review_peer irgu db r1 = some p1 →
        resolve_review_package db r1 = some k1 →
        resolve_review_peer irgu db r2 = some p2 →
        resolve_review_package db r2 = some k2 →
        p1.id ≠ p2.id ∨ k1.id ≠ k2.id) (review_get {} incoming) →
      ∃ out, review_merge irgu incoming db = .ok out) := by
  constructor
  · rintro ⟨r, hr, hbad⟩ lv db' hok
    unfold review_merge at hok
    obtain ⟨t, t', hPt, hstep⟩ := foldlM_steps
      (fun (acc : List Review × Db) => acc.2.peer = db.peer ∧
        acc.2.package = db.package ∧ acc.2.registry = db.registry) _
      (fun s x s' hP hs => by
        obtain ⟨q1, q2, q3, -⟩ := review_merge_step_ok hs
        exact ⟨q1.trans hP.1, q2.trans hP.2.1, q3.trans hP.2.2⟩)
      _ _ _ ⟨rfl, rfl, rfl⟩ hok r hr
    unfold review_merge_step at hstep
    cases hpx : resolve_review_peer irgu t.2 r with
    | none =>
      rw [hpx] at hstep
      exact Except.noConfusion hstep
    | some p =>
      rw [hpx] at hstep
      dsimp only at hstep
      rcases hbad with hb | hb
      · have hnone : resolve_review_peer irgu t.2 r = none :=
          (resolve_review_peer_congr hPt.1 r).trans hb
        rw [hpx] at hnone
        exact Option.noConfusion hnone
      · have hknone : resolve_review_package t.2 r = none :=
          (resolve_review_package_congr hPt.2.1 hPt.2.2 r).trans hb
        rw [hknone] at hstep
        exact Except.noConfusion hstep
  · intro hres hfresh hdist
    unfold review_merge
    exact review_merge_fold_ok (review_get {} incoming) ([], db)
      rfl rfl rfl hres hfresh hdist

/-- Local index for the C6 counterexample and witness: the post-merge index
`c1_db1` with its review table emptied (peers, registry and package kept). -/
def c6_db : Db := { c1_db1 with review := [] }

/-- C6 counterexample: against the full post-merge index `c1_db1`, both
lookups succeed for the single incoming review, yet the merge fails (on the
UNIQUE review constraint), refuting the claimed success condition. -/
theorem c6_counterexample :
    (∀ r ∈ review_get {} c1_inc,
      (resolve_review_peer "https://localhost/friend" c1_db1 r).isSome = true ∧
      (resolve_review_package c1_db1 r).isSome = true) ∧
    (review_merge "https://localhost/friend" c1_inc c1_db1).toOption = none := by
  decide

theorem c6_witness :
    review_merge "https://localhost/friend" c1_inc empty_db ≠
      .ok ([], empty_db) ∧
    ∃ out, review_merge "https://localhost/friend" c1_inc c6_db = .ok out :=
  ⟨(@c6_thm "https://localhost/friend" c1_inc empty_db).1
    ⟨⟨1, ⟨2, "alice", "https://localhost/alice", some 1, none⟩,
      ⟨1, "pkg", "1.0",
        [⟨1, "pypi", "https://pypi.org", "https://pypi.org/simple"⟩], "hash1"⟩,
      []⟩, by decide, Or.inl (by decide)⟩ [] empty_db,
   (@c6_thm "https://localhost/friend" c1_inc c6_db).2
    (by
      intro r hr
      rw [show review_get {} c1_inc =
        [⟨1, ⟨2, "alice", "https://localhost/alice", some 1, none⟩,
          ⟨1, "pkg", "1.0",
            [⟨1, "pypi", "https://pypi.org", "https://pypi.org/simple"⟩],
            "hash1"⟩, []⟩] from by decide] at hr
      obtain rfl := List.mem_singleton.mp hr
      exact ⟨⟨3, "https://localhost/alice", "https://localhost/alice",
          some 2, none⟩,
        ⟨1, "pkg", "1.0",
          [⟨1, "pypi", "https://pypi.org", "https://pypi.org/simple"⟩],
          "hash1"⟩, by decide, by decide⟩)
    (by
      intro r hr p k h1 h2 row hrow
      exact absurd hrow (List.not_mem_nil row))
    (by
      rw [show review_get {} c1_inc =
        [⟨1, ⟨2, "alice", "https://localhost/alice", some 1, none⟩,
          ⟨1, "pkg", "1.0",
            [⟨1, "pypi", "https://pypi.org", "https://pypi.org/simple"⟩],
            "hash1"⟩, []⟩] from by decide]
      exact List.pairwise_singleton _ _)⟩

theorem comment_remove_fold_peer (cs : List Comment) :
    ∀ dd : Db,
      (cs.foldl (fun dd c => comment_remove { id := some c.id } dd) dd).peer =
        dd.peer := by
  induction cs with
  | nil => intro dd; rfl
  | cons c cs ih =>
    intro dd
    rw [List.foldl_cons]
    exact ih _

theorem review_remove_victims_fold_peer (victims : List Review) :
    ∀ d : Db,
      (victims.foldl
        (fun d rv =>
          (rv.comments.foldl (fun dd c => comment_remove { id := some c.id } dd)
            (package_remove { id := some rv.package.id } d)))
        d).peer = d.peer := by
  induction victims with
  | nil => intro d; rfl
  | cons rv victims ih =>
    intro d
    rw [List.foldl_cons]
    rw [ih _]
    exact comment_remove_fold_peer rv.comments _

theorem review_remove_peer (f : ReviewFields) (db : Db) :
    (review_remove f db).peer = db.peer := by
  unfold review_remove
  exact review_remove_victims_fold_peer (review_get f db) db

theorem peer_get_id_head {db : Db} {pid : Nat} {q : Peer} (hq : q ∈ db.peer)
    (hid : q.id = pid) :
    ∃ r, (peer_get { id := some pid } db).head? = some r ∧ r ∈ db.peer ∧
      r.id = pid := by
  have hmatch : peer_matches { id := some pid } q = true := by
    simp [peer_matches, opt_match, hid]
  have hmem : q ∈ peer_get { id := some pid } db :=
    List.mem_filter.mpr ⟨hq, hmatch⟩
  cases hl : peer_get { id := some pid } db with
  | nil =>
    rw [hl] at hmem
    exact absurd hmem (List.not_mem_nil q)
  | cons a t =>
    have ham : a ∈ peer_get { id := some pid } db := by
      rw [hl]
      exact List.mem_cons_self a t
    rw [peer_get, List.mem_filter] at ham
    refine ⟨a, rfl, ham.1, ?_⟩
    have := ham.2
    simp only [peer_matches, opt_match, Bool.and_eq_true, decide_eq_true_eq] at this
    exact this.1.1.1.symm

/-- Iterated parent lookup: follow `parent_id` links `n` times through the
index (the same per-step lookup as `root_to_peer_go`). -/
def upN (db : Db) : Nat → Peer → Option Peer
  | 0, p => some p
  | n + 1, p =>
    match p.parent_id with
    | none => none
    | some pid =>
      match (peer_get { id := some pid } db).head? with
      | none => none
      | some q => upN db n q

theorem upN_add (db : Db) (b : Nat) : ∀ (a : Nat) (p : Peer),
    upN db (a + b) p = (upN db a p).bind (fun q => upN db b q) := by
  intro a
  induction a with
  | zero =>
    intro p
    simp [upN]
  | succ n ih =>
    intro p
    rw [Nat.succ_add]
    cases hpar : p.parent_id with
    | none => simp [upN, hpar]
    | some pid =>
      cases hq : (peer_get { id := some pid } db).head? with
      | none => simp [upN, hpar, hq]
      | some q => simp [upN, hpar, hq, ih q]

theorem peer_get_head_mem {db : Db} {pid : Nat} {r : Peer}
    (h : (peer_get { id := some pid } db).head? = some r) :
    r ∈ db.peer ∧ r.id = pid := by
  have hm := head?_mem h
  rw [peer_get, List.mem_filter] at hm
  obtain ⟨h1, h2⟩ := hm
  simp only [peer_matches, opt_match, Bool.and_eq_true, decide_eq_true_eq] at h2
  exact ⟨h1, h2.1.1.1.symm⟩

theorem up1_rank {db : Db} {rank : Nat → Nat}
    (hrank : ∀ q ∈ db.peer, ∀ pid, q.parent_id = some pid → rank pid < rank q.id)
    {p r : Peer} (hp : p ∈ db.peer) (h : upN db 1 p = some r) :
    rank r.id < rank p.id ∧ r ∈ db.peer := by
  unfold upN at h
  cases hpar : p.parent_id with
  | none =>
    rw [hpar] at h
    exact Option.noConfusion h
  | some pid =>
    rw [hpar] at h
    dsimp only at h
    cases hhd : (peer_get { id := some pid } db).head? with
    | none =>
      rw [hhd] at h
      exact Option.noConfusion h
    | some r0 =>
      rw [hhd] at h
      obtain rfl : r0 = r := by
        unfold upN at h
        exact Option.some_inj.mp h
      obtain ⟨hrm, hrid⟩ := peer_get_head_mem hhd
      refine ⟨?_, hrm⟩
      rw [hrid]
      exact hrank p hp pid hpar

theorem upN_rank {db : Db} {rank : Nat → Nat}
    (hrank : ∀ q ∈ db.peer, ∀ pid, q.parent_id = some pid → rank pid < rank q.id) :
    ∀ (n : Nat) (p q : Peer), p ∈ db.peer → upN db (n + 1) p = some q →
      rank q.id < rank p.id ∧ q ∈ db.peer := by
  intro n
  induction n with
  | zero =>
    intro p q hp h
    exact up1_rank hrank hp h
  | succ m ih =>
    intro p q hp h
    rw [show m + 1 + 1 = 1 + (m + 1) from by omega, upN_add] at h
    cases h1 : upN db 1 p with
    | none =>
      rw [h1] at h
      exact Option.noConfusion h
    | some r =>
      rw [h1] at h
      obtain ⟨hr1, hr2⟩ := up1_rank hrank hp h1
      obtain ⟨hq1, hq2⟩ := ih r q hr2 h
      exact ⟨hq1.trans hr1, hq2⟩

theorem root_to_peer_go_ok {db : Db} {rank : Nat → Nat} (hinv : PeerInv db)
    (hrank : ∀ q ∈ db.peer, ∀ pid, q.parent_id = some pid → rank pid < rank q.id) :
    ∀ (fuel : Nat) (visited : List Nat) (p : Peer) (acc : List Peer),
      p ∈ db.peer → visited.Nodup →
      (∀ v ∈ visited, v ∈ db.peer.map Peer.id) →
      (∀ v ∈ visited, rank p.id < rank v) →
      db.peer.length < fuel + visited.length →
      ∃ out, root_to_peer_go db fuel p acc = .ok out := by
  intro fuel
  induction fuel with
  | zero =>
    intro visited p acc hp hnd hsub hlt hlen
    exfalso
    have hsp : visited.length ≤ (db.peer.map Peer.id).length :=
      List.Subperm.length_le (List.subperm_of_subset hnd (fun v hv => hsub v hv))
    rw [List.length_map] at hsp
    omega
  | succ f ih =>
    intro visited p acc hp hnd hsub hlt hlen
    cases hpar : p.parent_id with
    | none =>
      refine ⟨p :: acc, ?_⟩
      unfold root_to_peer_go
      rw [hpar]
    | some pid =>
      obtain ⟨qq, hqq, hqid, -⟩ := hinv.parent_mem p hp pid hpar
      obtain ⟨r, hrhead, hrmem, hrid⟩ := peer_get_id_head hqq hqid
      have hpidne : ∀ v ∈ visited, p.id ≠ v := by
        intro v hv heq
        exact absurd (heq ▸ hlt v hv) (lt_irrefl _)
      have hranklt : rank r.id < rank p.id := by
        rw [hrid]
        exact hrank p hp pid hpar
      obtain ⟨out, hout⟩ := ih (p.id :: visited) r (p :: acc) hrmem
        (List.nodup_cons.mpr ⟨fun hc => hpidne p.id hc rfl, hnd⟩)
        (fun v hv => by
          rcases List.mem_cons.mp hv with rfl | hv2
          · exact List.mem_map.mpr ⟨p, hp, rfl⟩
          · exact hsub v hv2)
        (fun v hv => by
          rcases List.mem_cons.mp hv with rfl | hv2
          · exact hranklt
          · exact hranklt.trans (hlt v hv2))
        (by
          rw [List.length_cons]
          omega)
      refine ⟨out, ?_⟩
      unfold root_to_peer_go
      rw [hpar]
      dsimp only
      rw [hrhead]
      exact hout

theorem get_root_to_peer_subtree_ok {db : Db} {rank : Nat → Nat}
    (hinv : PeerInv db)
    (hrank : ∀ q ∈ db.peer, ∀ pid, q.parent_id = some pid → rank pid < rank q.id)
    {p : Peer} (hp : p ∈ db.peer) :
    ∃ out, get_root_to_peer_subtree p db = .ok out := by
  unfold get_root_to_peer_subtree
  exact root_to_peer_go_ok hinv hrank (db.peer.length + 1) [] p []
    hp List.nodup_nil (fun v hv => absurd hv (List.not_mem_nil v))
    (fun v hv => absurd hv (List.not_mem_nil v)) (by simp)

/-- Invariant carried through `remove_peer_subtree`'s reverse-layer fold,
relative to the original index `db` and the ids deleted so far: the peer
table holds exactly the not-yet-removed rows (with ids and parent pointers
intact, child sets possibly shrunk), ids stay distinct, and every stored
child id still points at a present row that points back. -/
structure RInv (db : Db) (removed : List Nat) (d : Db) : Prop where
  ids_sub : ∀ row ∈ d.peer, row.id ∉ removed
  descend : ∀ row ∈ d.peer, ∃ row0 ∈ db.peer, row.id = row0.id ∧
    row.parent_id = row0.parent_id
  survive : ∀ row0 ∈ db.peer, row0.id ∉ removed → ∃ row ∈ d.peer,
    row.id = row0.id ∧ row.parent_id = row0.parent_id
  nodup : (d.peer.map Peer.id).Nodup
  cback : ∀ q ∈ d.peer, ∀ cid ∈ child_ids q, ∃ c ∈ d.peer, c.id = cid ∧
    c.parent_id = some q.id
  cnodup : ∀ q ∈ d.peer, (child_ids q).Nodup

theorem rinv_init {db : Db} (hinv : PeerInv db) : RInv db [] db := by
  refine ⟨?_, ?_, ?_, hinv.nodup_ids, hinv.child_back, ?_⟩
  · intro row hrow hc
    exact absurd hc (List.not_mem_nil _)
  · intro row hrow
    exact ⟨row, hrow, rfl, rfl⟩
  · intro row0 hrow0 hnot
    exact ⟨row0, hrow0, rfl, rfl⟩
  · intro q hq
    exact (hinv.child_sorted q hq).imp (fun h => ne_of_lt h)

theorem remove_one_step {db : Db} {removed : List Nat} {d : Db} {p0 : Peer}
    (hR : RInv db removed d)
    (hmem0 : p0 ∈ db.peer)
    (hnotrem : p0.id ∉ removed)
    (hchildren : ∀ c0 ∈ db.peer, c0.parent_id = some p0.id → c0.id ∈ removed) :
    (p0.parent_id = none →
      peer_remove { id := some p0.id } (review_remove { peer := some p0 } d) =
        .error (.notFound "Cannot remove root peer.")) ∧
    (∀ tpid, p0.parent_id = some tpid → tpid ∉ removed → tpid ≠ p0.id →
      (∃ par0 ∈ db.peer, par0.id = tpid) →
      ∃ d', peer_remove { id := some p0.id } (review_remove { peer := some p0 } d) =
          .ok d' ∧ RInv db (p0.id :: removed) d') := by
  set d1 := review_remove { peer := some p0 } d with hd1
  have hd1p : d1.peer = d.peer := review_remove_peer _ _
  have hget1 : peer_get { id := some p0.id } d1 = peer_get { id := some p0.id } d := by
    unfold peer_get
    rw [hd1p]
  obtain ⟨pc, hpcd, hpcid, hpcpar⟩ := hR.survive p0 hmem0 hnotrem
  obtain ⟨r, hrhead, hrd, hrid⟩ := peer_get_id_head hpcd hpcid
  have hreq : r = pc := List.inj_on_of_nodup_map hR.nodup hrd hpcd (hrid.trans hpcid.symm)
  have hrpar : r.parent_id = p0.parent_id := by rw [hreq, hpcpar]
  have hrchild : child_ids r = [] := by
    cases hcc : child_ids r with
    | nil => rfl
    | cons a t =>
      exfalso
      have hamem : a ∈ child_ids r := by
        rw [hcc]
        exact List.mem_cons_self a t
      obtain ⟨c, hcd, hcid, hcpar⟩ := hR.cback r hrd a hamem
      obtain ⟨c0, hc0db, hc0id, hc0par⟩ := hR.descend c hcd
      have : c0.id ∈ removed := by
        refine hchildren c0 hc0db ?_
        rw [← hc0par, hcpar, hrid]
      rw [← hc0id] at this
      exact hR.ids_sub c hcd (hcid ▸ this)
  have hassert : (match r.child_peer_ids with
      | some ids => !ids.isEmpty
      | none => false) = false := by
    cases hcp : r.child_peer_ids with
    | none => rfl
    | some ids =>
      have : ids = [] := by
        have := hrchild
        rw [child_ids, hcp] at this
        exact this
      rw [this]
      rfl
  constructor
  · intro hroot
    unfold peer_remove
    rw [hget1, hrhead]
    dsimp only
    rw [hassert, if_neg Bool.false_ne_true, hrpar, hroot]
  · intro tpid hpar htpnotrem htpne ⟨par0, hpar0db, hpar0id⟩
    obtain ⟨parc, hparcd, hparcid, hparcpar⟩ := hR.survive par0 hpar0db
      (hpar0id ▸ htpnotrem)
    obtain ⟨pr, hprhead, hprd, hprid⟩ := peer_get_id_head hparcd
      (hparcid.trans hpar0id)
    have hget2 : peer_get { id := some tpid } d1 = peer_get { id := some tpid } d := by
      unfold peer_get
      rw [hd1p]
    -- characterize the peer table after remove_child_peer_id
    have hchar :
        ((remove_child_peer_id pr r d1).2.peer.map Peer.id = d.peer.map Peer.id) ∧
        (∀ p ∈ (remove_child_peer_id pr r d1).2.peer, ∃ pp ∈ d.peer,
          p.id = pp.id ∧ p.parent_id = pp.parent_id ∧
          ((p.id ≠ pr.id ∧ p = pp) ∨
           (p.id = pr.id ∧ child_ids p = (child_ids pp).erase r.id))) ∧
        (∀ pp ∈ d.peer, ∃ p ∈ (remove_child_peer_id pr r d1).2.peer,
          p.id = pp.id ∧ p.parent_id = pp.parent_id ∧
          ((p.id ≠ pr.id ∧ p = pp) ∨
           (p.id = pr.id ∧ child_ids p = (child_ids pp).erase r.id))) := by
      unfold remove_child_peer_id
      cases hcp : pr.child_peer_ids with
      | none =>
        dsimp only
        have hprchild : child_ids pr = [] := by rw [child_ids, hcp]; rfl
        refine ⟨by rw [hd1p], ?_, ?_⟩
        · intro p hp
          rw [hd1p] at hp
          by_cases hpid : p.id = pr.id
          · have hppr : p = pr := List.inj_on_of_nodup_map hR.nodup hp hprd hpid
            refine ⟨p, hp, rfl, rfl, Or.inr ⟨hpid, ?_⟩⟩
            rw [hppr, hprchild]
            rfl
          · exact ⟨p, hp, rfl, rfl, Or.inl ⟨hpid, rfl⟩⟩
        · intro pp hpp
          rw [hd1p]
          by_cases hpid : pp.id = pr.id
          · have hppr : pp = pr := List.inj_on_of_nodup_map hR.nodup hpp hprd hpid
            refine ⟨pp, hpp, rfl, rfl, Or.inr ⟨hpid, ?_⟩⟩
            rw [hppr, hprchild]
            rfl
          · exact ⟨pp, hpp, rfl, rfl, Or.inl ⟨hpid, rfl⟩⟩
      | some ids =>
        dsimp only
        by_cases hin : r.id ∈ ids
        · rw [if_pos hin]
          dsimp only
          constructor
          · rw [hd1p, List.map_map]
            apply List.map_congr_left
            intro p hp
            by_cases hpid : p.id = pr.id
            · simp [Function.comp, hpid]
            · simp [Function.comp, hpid]
          constructor
          · intro p hp
            rw [hd1p] at hp
            obtain ⟨pp, hppd, hppe⟩ := List.mem_map.mp hp
            by_cases hpid : pp.id = pr.id
            · rw [if_pos hpid] at hppe
              have hpppr : pp = pr := List.inj_on_of_nodup_map hR.nodup hppd hprd hpid
              refine ⟨pp, hppd, ?_, ?_, Or.inr ⟨?_, ?_⟩⟩
              · rw [← hppe]
              · rw [← hppe]
              · rw [← hppe]
                exact hpid
              · rw [← hppe, hpppr]
                show child_ids { pr with child_peer_ids :=
                  if (ids.erase r.id).isEmpty then none else some (ids.erase r.id) } =
                  (child_ids pr).erase r.id
                rw [child_ids, child_ids, hcp]
                cases hemp : (ids.erase r.id).isEmpty with
                | true =>
                  rw [if_pos rfl]
                  dsimp only [Option.getD]
                  rw [List.isEmpty_iff] at hemp
                  rw [hemp]
                | false =>
                  rw [if_neg Bool.false_ne_true]
                  rfl
            · rw [if_neg hpid] at hppe
              subst hppe
              exact ⟨pp, hppd, rfl, rfl, Or.inl ⟨hpid, rfl⟩⟩
          · intro pp hpp
            rw [hd1p]
            refine ⟨if pp.id = pr.id then { pp with child_peer_ids :=
              if (ids.erase r.id).isEmpty then none else some (ids.erase r.id) }
              else pp, List.mem_map.mpr ⟨pp, hpp, rfl⟩, ?_⟩
            by_cases hpid : pp.id = pr.id
            · rw [if_pos hpid]
              have hpppr : pp = pr := List.inj_on_of_nodup_map hR.nodup hpp hprd hpid
              refine ⟨rfl, rfl, Or.inr ⟨hpid, ?_⟩⟩
              show child_ids { pp with child_peer_ids :=
                if (ids.erase r.id).isEmpty then none else some (ids.erase r.id) } =
                (child_ids pp).erase r.id
              rw [child_ids, child_ids, hpppr, hcp]
              cases hemp : (ids.erase r.id).isEmpty with
              | true =>
                rw [if_pos rfl]
                dsimp only [Option.getD]
                rw [List.isEmpty_iff] at hemp
                rw [hemp]
              | false =>
                rw [if_neg Bool.false_ne_true]
                rfl
            · rw [if_neg hpid]
              exact ⟨rfl, rfl, Or.inl ⟨hpid, rfl⟩⟩
        · rw [if_neg hin]
          dsimp only
          have hprchild : child_ids pr = ids := by rw [child_ids, hcp]; rfl
          refine ⟨by rw [hd1p], ?_, ?_⟩
          · intro p hp
            rw [hd1p] at hp
            by_cases hpid : p.id = pr.id
            · have hppr : p = pr := List.inj_on_of_nodup_map hR.nodup hp hprd hpid
              refine ⟨p, hp, rfl, rfl, Or.inr ⟨hpid, ?_⟩⟩
              rw [hppr, hprchild, List.erase_of_not_mem hin]
            · exact ⟨p, hp, rfl, rfl, Or.inl ⟨hpid, rfl⟩⟩
          · intro pp hpp
            rw [hd1p]
            by_cases hpid : pp.id = pr.id
            · have hppr : pp = pr := List.inj_on_of_nodup_map hR.nodup hpp hprd hpid
              refine ⟨pp, hpp, rfl, rfl, Or.inr ⟨hpid, ?_⟩⟩
              rw [hppr, hprchild, List.erase_of_not_mem hin]
            · exact ⟨pp, hpp, rfl, rfl, Or.inl ⟨hpid, rfl⟩⟩
    obtain ⟨hc3, hc1, hc2⟩ := hchar
    refine ⟨{ (remove_child_peer_id pr r d1).2 with
        peer := (remove_child_peer_id pr r d1).2.peer.filter
          (fun p => p.id ≠ r.id) }, ?_, ?_⟩
    · unfold peer_remove
      rw [hget1, hrhead]
      dsimp only
      rw [hassert, if_neg Bool.false_ne_true, hrpar, hpar]
      dsimp only
      rw [hget2, hprhead]
    · have hfiltmem : ∀ {p : Peer},
          p ∈ (remove_child_peer_id pr r d1).2.peer.filter (fun p => p.id ≠ r.id) ↔
          p ∈ (remove_child_peer_id pr r d1).2.peer ∧ p.id ≠ r.id := by
        intro p
        rw [List.mem_filter]
        simp only [decide_eq_true_eq]
      refine ⟨?_, ?_, ?_, ?_, ?_, ?_⟩
      · intro row hrow
        obtain ⟨hrow2, hrowne⟩ := hfiltmem.mp hrow
        obtain ⟨pp, hppd, hide, -, -⟩ := hc1 row hrow2
        intro hc
        rcases List.mem_cons.mp hc with he | hm
        · exact hrowne (he.trans hrid.symm)
        · exact hR.ids_sub pp hppd (hide ▸ hm)
      · intro row hrow
        obtain ⟨hrow2, -⟩ := hfiltmem.mp hrow
        obtain ⟨pp, hppd, hide, hpare, -⟩ := hc1 row hrow2
        obtain ⟨row0, hrow0d, he1, he2⟩ := hR.descend pp hppd
        exact ⟨row0, hrow0d, hide.trans he1, hpare.trans he2⟩
      · intro row0 hrow0 hnot
        have hnotrem2 : row0.id ∉ removed := fun hc =>
          hnot (List.mem_cons_of_mem _ hc)
        have hne : row0.id ≠ p0.id := fun hc =>
          hnot (hc ▸ List.mem_cons_self _ _)
        obtain ⟨row, hrowd, he1, he2⟩ := hR.survive row0 hrow0 hnotrem2
        obtain ⟨p, hpd, hf1, hf2, -⟩ := hc2 row hrowd
        refine ⟨p, hfiltmem.mpr ⟨hpd, ?_⟩, hf1.trans he1, hf2.trans he2⟩
        rw [hf1, he1, hrid]
        exact hne
      · have hsub : List.Sublist
            (((remove_child_peer_id pr r d1).2.peer.filter
              (fun p => p.id ≠ r.id)).map Peer.id)
            (((remove_child_peer_id pr r d1).2.peer).map Peer.id) :=
          List.Sublist.map Peer.id (List.filter_sublist _)
        refine List.Nodup.sublist hsub ?_
        rw [hc3]
        exact hR.nodup
      · intro q hq cid hcid
        obtain ⟨hq2, hqne⟩ := hfiltmem.mp hq
        obtain ⟨qq, hqqd, hqid, -, hqcase⟩ := hc1 q hq2
        rcases hqcase with ⟨hqne2, rfl⟩ | ⟨hqpr, hqerase⟩
        · obtain ⟨c, hcd, hcid2, hcpar⟩ := hR.cback q hqqd cid hcid
          have hcne : c.id ≠ r.id := by
            intro he
            have hcr : c = r := List.inj_on_of_nodup_map hR.nodup hcd hrd he
            have hqtp : q.id = tpid := by
              have := hcpar
              rw [hcr, hrpar, hpar] at this
              exact (Option.some_inj.mp this).symm
            have hqqpr : q = pr := List.inj_on_of_nodup_map hR.nodup hqqd hprd
              (hqtp.trans hprid.symm)
            exact hqne2 (by rw [hqqpr])
          obtain ⟨c2, hc2d, hg1, hg2, -⟩ := hc2 c hcd
          refine ⟨c2, hfiltmem.mpr ⟨hc2d, hg1 ▸ hcne⟩, hg1.trans hcid2, ?_⟩
          rw [hg2, hcpar]
        · have hcnd := hR.cnodup qq hqqd
          rw [hqerase] at hcid
          obtain ⟨hcidne, hcidmem⟩ := (List.Nodup.mem_erase_iff hcnd).mp hcid
          obtain ⟨c, hcd, hcid2, hcpar⟩ := hR.cback qq hqqd cid hcidmem
          have hcne : c.id ≠ r.id := by
            rw [hcid2]
            exact hcidne
          obtain ⟨c2, hc2d, hg1, hg2, -⟩ := hc2 c hcd
          refine ⟨c2, hfiltmem.mpr ⟨hc2d, hg1 ▸ hcne⟩, hg1.trans hcid2, ?_⟩
          rw [hg2, hcpar, hqid]
      · intro q hq
        obtain ⟨hq2, -⟩ := hfiltmem.mp hq
        obtain ⟨qq, hqqd, -, -, hqcase⟩ := hc1 q hq2
        rcases hqcase with ⟨-, rfl⟩ | ⟨-, hqerase⟩
        · exact hR.cnodup q hqqd
        · rw [hqerase]
          exact List.Nodup.erase _ (hR.cnodup qq hqqd)

theorem bfs_children_mem {db : Db} {l : List Peer} {p : Peer}
    (h : p ∈ bfs_children db l) :
    p ∈ db.peer ∧ ∃ q ∈ l, p.parent_id = some q.id := by
  rw [bfs_children, List.mem_filter] at h
  obtain ⟨h1, h2⟩ := h
  refine ⟨h1, ?_⟩
  cases hpar : p.parent_id with
  | none =>
    rw [hpar] at h2
    exact absurd h2 (by simp)
  | some pid =>
    rw [hpar] at h2
    dsimp only at h2
    obtain ⟨q, hq, hqe⟩ := List.any_eq_true.mp h2
    rw [beq_iff_eq] at hqe
    exact ⟨q, hq, by rw [hqe]⟩

theorem bfs_layers_mem (db : Db) :
    ∀ (fuel : Nat) (u : List Peer), (∀ p ∈ u, p ∈ db.peer) →
      ∀ l ∈ bfs_layers db fuel u, ∀ p ∈ l, p ∈ db.peer := by
  intro fuel
  induction fuel with
  | zero =>
    intro u hu l hl
    rw [show bfs_layers db 0 u = [] from rfl] at hl
    exact absurd hl (List.not_mem_nil l)
  | succ f ih =>
    intro u hu l hl
    cases u with
    | nil =>
      rw [bfs_layers_nil] at hl
      exact absurd hl (List.not_mem_nil l)
    | cons x xs =>
      rw [bfs_layers_cons] at hl
      rcases List.mem_cons.mp hl with rfl | hl2
      · exact hu
      · refine ih (bfs_children db (x :: xs)) ?_ l hl2
        intro p hp
        exact (bfs_children_mem hp).1

theorem get?_some_of_succ {α : Type} {l : List α} {i : Nat} {a : α}
    (h : l.get? (i + 1) = some a) : ∃ b, l.get? i = some b := by
  cases hb : l.get? i with
  | some b => exact ⟨b, rfl⟩
  | none =>
    exfalso
    rw [List.get?_eq_none] at hb
    have : l.get? (i + 1) = none := List.get?_eq_none.mpr (by omega)
    rw [this] at h
    exact Option.noConfusion h

theorem layers_upN {db : Db} (hinv : PeerInv db) {target : Peer}
    (htarget : target ∈ db.peer) (fuel : Nat) :
    ∀ (i : Nat) (l : List Peer) (p : Peer),
      (bfs_layers db fuel [target]).get? i = some l → p ∈ l →
      upN db i p = some target := by
  intro i
  induction i with
  | zero =>
    intro l p hl hp
    have hne : bfs_layers db fuel [target] ≠ [] := by
      intro hc
      rw [hc] at hl
      exact Option.noConfusion hl
    have hf : fuel ≠ 0 := by
      intro hc
      rw [hc] at hne
      exact hne rfl
    have hh := bfs_layers_head db [target] fuel (List.cons_ne_nil _ _) hf
    rw [← List.get?_zero, hl] at hh
    obtain rfl : l = [target] := Option.some_inj.mp hh
    obtain rfl : p = target := List.mem_singleton.mp hp
    rfl
  | succ j ih =>
    intro l p hl hp
    obtain ⟨l', hl'⟩ := get?_some_of_succ hl
    have hchain := bfs_layers_chain db fuel [target] j l' l hl' hl
    rw [hchain] at hp
    obtain ⟨hpdb, q, hql', hqpar⟩ := bfs_children_mem hp
    have hqdb : q ∈ db.peer :=
      bfs_layers_mem db fuel [target]
        (fun p0 hp0 => (List.mem_singleton.mp hp0) ▸ htarget) l'
        (List.get?_mem hl') q hql'
    obtain ⟨r, hrhead, hrdb, hrid⟩ := peer_get_id_head hqdb rfl
    have hrq : r = q := List.inj_on_of_nodup_map hinv.nodup_ids hrdb hqdb hrid
    show upN db (j + 1) p = some target
    unfold upN
    rw [hqpar]
    dsimp only
    rw [hrhead, hrq]
    exact ih l' q hl' hql'

theorem upN_no_revisit {db : Db} {rank : Nat → Nat}
    (hrank : ∀ q ∈ db.peer, ∀ pid, q.parent_id = some pid → rank pid < rank q.id)
    {target : Peer} (htarget : target ∈ db.peer) {p : Peer} {a b : Nat}
    (hab : a < b) (ha : upN db a p = some target) (hb : upN db b p = some target) :
    False := by
  have hsplit : b = a + (b - a) := by omega
  rw [hsplit, upN_add, ha] at hb
  have hba : b - a = (b - a - 1) + 1 := by omega
  rw [hba] at hb
  obtain ⟨hlt, -⟩ := upN_rank hrank (b - a - 1) target target htarget hb
  exact absurd hlt (lt_irrefl _)

theorem layers_disjoint {db : Db} {rank : Nat → Nat} (hinv : PeerInv db)
    (hrank : ∀ q ∈ db.peer, ∀ pid, q.parent_id = some pid → rank pid < rank q.id)
    {target : Peer} (htarget : target ∈ db.peer) (fuel : Nat)
    {i j : Nat} {li lj : List Peer} {p : Peer} (hij : i < j)
    (hi : (bfs_layers db fuel [target]).get? i = some li)
    (hj : (bfs_layers db fuel [target]).get? j = some lj)
    (hpi : p ∈ li) (hpj : p ∈ lj) : False :=
  upN_no_revisit hrank htarget hij
    (layers_upN hinv htarget fuel i li p hi hpi)
    (layers_upN hinv htarget fuel j lj p hj hpj)

theorem layer_ids_nodup {db : Db} (hinv : PeerInv db) {target : Peer}
    (fuel : Nat) {i : Nat} {li : List Peer}
    (hi : (bfs_layers db fuel [target]).get? i = some li) :
    (li.map Peer.id).Nodup := by
  cases i with
  | zero =>
    have hne : bfs_layers db fuel [target] ≠ [] := by
      intro hc
      rw [hc] at hi
      exact Option.noConfusion hi
    have hf : fuel ≠ 0 := by
      intro hc
      rw [hc] at hne
      exact hne rfl
    have hh := bfs_layers_head db [target] fuel (List.cons_ne_nil _ _) hf
    rw [← List.get?_zero, hi] at hh
    obtain rfl : li = [target] := Option.some_inj.mp hh
    simp
  | succ j =>
    obtain ⟨l', hl'⟩ := get?_some_of_succ hi
    have hchain := bfs_layers_chain db fuel [target] j l' li hl' hi
    rw [hchain, bfs_children]
    have hsub : List.Sublist
        ((db.peer.filter (fun p =>
          match p.parent_id with
          | some pid => l'.any (fun q => q.id == pid)
          | none => false)).map Peer.id)
        (db.peer.map Peer.id) :=
      List.Sublist.map Peer.id (List.filter_sublist _)
    exact List.Nodup.sublist hsub hinv.nodup_ids

theorem length_le_flatten_length {α : Type} :
    ∀ (L : List (List α)), (∀ l ∈ L, l ≠ []) → L.length ≤ L.flatten.length := by
  intro L
  induction L with
  | nil => intro h; simp
  | cons l ls ih =>
    intro h
    rw [List.flatten_cons, List.length_append, List.length_cons]
    have h1 : 1 ≤ l.length := by
      have := h l (List.mem_cons_self l ls)
      cases l with
      | nil => exact absurd rfl this
      | cons a t => simp
    have h2 := ih (fun l2 hl2 => h l2 (List.mem_cons_of_mem l hl2))
    omega

theorem layers_length_le {db : Db} {rank : Nat → Nat} (hinv : PeerInv db)
    (hrank : ∀ q ∈ db.peer, ∀ pid, q.parent_id = some pid → rank pid < rank q.id)
    {target : Peer} (htarget : target ∈ db.peer) (fuel : Nat) :
    (bfs_layers db fuel [target]).length ≤ db.peer.length := by
  have hnodupflat : (bfs_layers db fuel [target]).flatten.Nodup := by
    rw [List.nodup_flatten]
    constructor
    · intro l hl
      obtain ⟨⟨i, hilt⟩, hget⟩ := List.get_of_mem hl
      have hq : (bfs_layers db fuel [target]).get? i = some l := by
        rw [List.get?_eq_get hilt, hget]
      exact List.Nodup.of_map Peer.id (layer_ids_nodup hinv fuel hq)
    · rw [List.pairwise_iff_get]
      intro i j hij p hpi hpj
      have hqi : (bfs_layers db fuel [target]).get? i.val =
          some ((bfs_layers db fuel [target]).get i) := List.get?_eq_get i.isLt
      have hqj : (bfs_layers db fuel [target]).get? j.val =
          some ((bfs_layers db fuel [target]).get j) := List.get?_eq_get j.isLt
      exact layers_disjoint hinv hrank htarget fuel hij hqi hqj hpi hpj
  have hsubset : (bfs_layers db fuel [target]).flatten ⊆ db.peer := by
    intro p hp
    obtain ⟨l, hl, hpl⟩ := List.mem_flatten.mp hp
    exact bfs_layers_mem db fuel [target]
      (fun p0 hp0 => (List.mem_singleton.mp hp0) ▸ htarget) l hl p hpl
  have hlen1 : (bfs_layers db fuel [target]).flatten.length ≤ db.peer.length :=
    List.Subperm.length_le (List.subperm_of_subset hnodupflat hsubset)
  have hlen2 := length_le_flatten_length (bfs_layers db fuel [target])
    (bfs_layers_ne_nil db fuel [target])
  omega

theorem layers_children_covered {db : Db} {rank : Nat → Nat} (hinv : PeerInv db)
    (hrank : ∀ q ∈ db.peer, ∀ pid, q.parent_id = some pid → rank pid < rank q.id)
    {target : Peer} (htarget : target ∈ db.peer)
    {i : Nat} {li : List Peer}
    (hi : (bfs_layers db (db.peer.length + 1) [target]).get? i = some li)
    {c0 : Peer} (hc0 : c0 ∈ db.peer) {p0 : Peer} (hp0 : p0 ∈ li)
    (hcpar : c0.parent_id = some p0.id) :
    ∃ lj, (bfs_layers db (db.peer.length + 1) [target]).get? (i + 1) = some lj ∧
      c0 ∈ lj := by
  have hcchild : c0 ∈ bfs_children db li := by
    rw [bfs_children, List.mem_filter]
    refine ⟨hc0, ?_⟩
    rw [hcpar]
    dsimp only
    exact List.any_eq_true.mpr ⟨p0, hp0, beq_iff_eq.mpr rfl⟩
  cases hnext : (bfs_layers db (db.peer.length + 1) [target]).get? (i + 1) with
  | some lj =>
    have hchain := bfs_layers_chain db (db.peer.length + 1) [target] i li lj hi hnext
    exact ⟨lj, rfl, hchain ▸ hcchild⟩
  | none =>
    exfalso
    -- li is the last layer, whose children must be empty
    have hilt : i < (bfs_layers db (db.peer.length + 1) [target]).length := by
      by_contra hge
      have : (bfs_layers db (db.peer.length + 1) [target]).get? i = none :=
        List.get?_eq_none.mpr (by omega)
      rw [this] at hi
      exact Option.noConfusion hi
    have hle : (bfs_layers db (db.peer.length + 1) [target]).length ≤ i + 1 :=
      List.get?_eq_none.mp hnext
    have hieq : i = (bfs_layers db (db.peer.length + 1) [target]).length - 1 := by
      omega
    have hlast : (bfs_layers db (db.peer.length + 1) [target]).getLast? = some li := by
      rw [List.getLast?_eq_get?, ← hieq]
      exact hi
    have hlenlt : (bfs_layers db (db.peer.length + 1) [target]).length <
        db.peer.length + 1 := by
      have := layers_length_le hinv hrank htarget (db.peer.length + 1)
      omega
    have hempty := bfs_layers_last_empty db (db.peer.length + 1) [target]
      (List.cons_ne_nil _ _) hlenlt li hlast
    rw [hempty] at hcchild
    exact absurd hcchild (List.not_mem_nil c0)

theorem rinv_congr {db : Db} {r1 r2 : List Nat} {d : Db}
    (h : ∀ x, x ∈ r1 ↔ x ∈ r2) (hR : RInv db r1 d) : RInv db r2 d := by
  refine ⟨?_, hR.descend, ?_, hR.nodup, hR.cback, hR.cnodup⟩
  · intro row hrow hc
    exact hR.ids_sub row hrow ((h row.id).mpr hc)
  · intro row0 hrow0 hnot
    exact hR.survive row0 hrow0 (fun hc => hnot ((h row0.id).mp hc))

theorem remove_layer_fold {db : Db} :
    ∀ (todo : List Peer) (d : Db) (removed : List Nat),
      RInv db removed d →
      (∀ p0 ∈ todo, p0 ∈ db.peer) →
      (todo.map Peer.id).Nodup →
      (∀ p0 ∈ todo, p0.id ∉ removed) →
      (∀ p0 ∈ todo, ∀ c0 ∈ db.peer, c0.parent_id = some p0.id → c0.id ∈ removed) →
      (∀ p0 ∈ todo, ∀ tpid, p0.parent_id = some tpid →
        tpid ∉ removed ∧ (∀ p1 ∈ todo, p1.id ≠ tpid) ∧
        ∃ par0 ∈ db.peer, par0.id = tpid) →
      (∃ d', todo.foldlM
          (fun dd peer => peer_remove { id := some peer.id }
            (review_remove { peer := some peer } dd)) d = .ok d' ∧
          RInv db (todo.map Peer.id ++ removed) d') ∨
      (todo.foldlM
          (fun dd peer => peer_remove { id := some peer.id }
            (review_remove { peer := some peer } dd)) d =
        .error (.notFound "Cannot remove root peer.") ∧
        ∃ p0 ∈ todo, p0.parent_id = none) := by
  intro todo
  induction todo with
  | nil =>
    intro d removed hR _ _ _ _ _
    exact Or.inl ⟨d, rfl, hR⟩
  | cons p0 rest ih =>
    intro d removed hR hmems hnodup hnotrem hchildren hpars
    have hmem0 : p0 ∈ db.peer := hmems p0 (List.mem_cons_self p0 rest)
    have hnr0 : p0.id ∉ removed := hnotrem p0 (List.mem_cons_self p0 rest)
    have hch0 : ∀ c0 ∈ db.peer, c0.parent_id = some p0.id → c0.id ∈ removed :=
      hchildren p0 (List.mem_cons_self p0 rest)
    cases hpar : p0.parent_id with
    | none =>
      have hstep := (remove_one_step hR hmem0 hnr0 hch0).1 hpar
      refine Or.inr ⟨?_, p0, List.mem_cons_self p0 rest, hpar⟩
      rw [List.foldlM_cons, hstep]
      rfl
    | some tpid =>
      obtain ⟨htpnr, htpall, hpar0ex⟩ :=
        hpars p0 (List.mem_cons_self p0 rest) tpid hpar
      have htpne : tpid ≠ p0.id :=
        Ne.symm (htpall p0 (List.mem_cons_self p0 rest))
      obtain ⟨d', hstepEq, hR'⟩ :=
        (remove_one_step hR hmem0 hnr0 hch0).2 tpid hpar htpnr htpne hpar0ex
      have hheadnotin : p0.id ∉ rest.map Peer.id :=
        (List.nodup_cons.mp (by simpa using hnodup)).1
      have hres := ih d' (p0.id :: removed) hR'
        (fun p1 hp1 => hmems p1 (List.mem_cons_of_mem p0 hp1))
        (List.nodup_cons.mp (by simpa using hnodup)).2
        (fun p1 hp1 hc => by
          rcases List.mem_cons.mp hc with he | hm
          · exact hheadnotin (he ▸ List.mem_map.mpr ⟨p1, hp1, rfl⟩)
          · exact hnotrem p1 (List.mem_cons_of_mem p0 hp1) hm)
        (fun p1 hp1 c0 hc0 hcp =>
          List.mem_cons_of_mem _
            (hchildren p1 (List.mem_cons_of_mem p0 hp1) c0 hc0 hcp))
        (fun p1 hp1 tp1 htp1 => by
          obtain ⟨ha, hb, hc⟩ := hpars p1 (List.mem_cons_of_mem p0 hp1) tp1 htp1
          refine ⟨?_, fun p2 hp2 => hb p2 (List.mem_cons_of_mem p0 hp2), hc⟩
          intro hcmem
          rcases List.mem_cons.mp hcmem with he | hm
          · exact hb p0 (List.mem_cons_self p0 rest) he.symm
          · exact ha hm)
      rcases hres with ⟨d'', hfold, hRfin⟩ | ⟨herr, p1, hp1, hp1par⟩
      · refine Or.inl ⟨d'', ?_, ?_⟩
        · rw [List.foldlM_cons, hstepEq]
          exact hfold
        · refine rinv_congr ?_ hRfin
          intro x
          simp only [List.map_cons, List.mem_append, List.mem_cons]
          tauto
      · refine Or.inr ⟨?_, p1, List.mem_cons_of_mem p0 hp1, hp1par⟩
        rw [List.foldlM_cons, hstepEq]
        exact herr

theorem mem_layer_of_mem_drop_flatten {db : Db} {target : Peer} {k : Nat}
    {row : Peer}
    (h : row ∈ ((bfs_layers db (db.peer.length + 1) [target]).drop k).flatten) :
    ∃ m lj, (bfs_layers db (db.peer.length + 1) [target]).get? (k + m) = some lj ∧
      row ∈ lj := by
  obtain ⟨lj, hlj, hrow⟩ := List.mem_flatten.mp h
  obtain ⟨⟨m, hm⟩, hget⟩ := List.get_of_mem hlj
  refine ⟨m, lj, ?_, hrow⟩
  have := List.get?_drop (bfs_layers db (db.peer.length + 1) [target]) k m
  rw [List.get?_eq_get hm, hget] at this
  exact this.symm

theorem remove_outer_fold {db : Db} {rank : Nat → Nat} (hinv : PeerInv db)
    (hrank : ∀ q ∈ db.peer, ∀ pid, q.parent_id = some pid → rank pid < rank q.id)
    {target : Peer} (htarget : target ∈ db.peer) :
    ∀ (k : Nat), k ≤ (bfs_layers db (db.peer.length + 1) [target]).length →
      ∀ d, RInv db
        (((bfs_layers db (db.peer.length + 1) [target]).drop k).flatten.map
          Peer.id) d →
      (∃ d', ((bfs_layers db (db.peer.length + 1) [target]).take k).reverse.foldlM
          (fun d layer =>
            layer.foldlM
              (fun dd peer => peer_remove { id := some peer.id }
                (review_remove { peer := some peer } dd)) d) d = .ok d' ∧
          RInv db ((bfs_layers db (db.peer.length + 1) [target]).flatten.map
            Peer.id) d') ∨
      (((bfs_layers db (db.peer.length + 1) [target]).take k).reverse.foldlM
          (fun d layer =>
            layer.foldlM
              (fun dd peer => peer_remove { id := some peer.id }
                (review_remove { peer := some peer } dd)) d) d =
        .error (.notFound "Cannot remove root peer.") ∧
        ∃ l ∈ bfs_layers db (db.peer.length + 1) [target], ∃ p0 ∈ l,
          p0.parent_id = none) := by
  intro k
  induction k with
  | zero =>
    intro hk d hR
    exact Or.inl ⟨d, rfl, hR⟩
  | succ k ih =>
    intro hk d hR
    have hklt : k < (bfs_layers db (db.peer.length + 1) [target]).length := by
      omega
    obtain ⟨lk, hlk⟩ : ∃ lk,
        (bfs_layers db (db.peer.length + 1) [target]).get? k = some lk := by
      cases hq : (bfs_layers db (db.peer.length + 1) [target]).get? k with
      | some lk => exact ⟨lk, rfl⟩
      | none =>
        exfalso
        rw [List.get?_eq_none] at hq
        omega
    have hlkmem : ∀ p ∈ lk, p ∈ db.peer :=
      fun p hp => bfs_layers_mem db (db.peer.length + 1) [target]
        (fun p0 hp0 => (List.mem_singleton.mp hp0) ▸ htarget) lk
        (List.get?_mem hlk) p hp
    have hup1 : ∀ {p0 : Peer} {tpid : Nat} {par0 : Peer}, p0 ∈ db.peer →
        p0.parent_id = some tpid → par0 ∈ db.peer → par0.id = tpid →
        upN db 1 p0 = some par0 := by
      intro p0 tpid par0 hp0 hpar hpar0 hpar0id
      obtain ⟨r, hrhead, hrdb, hrid⟩ := peer_get_id_head hpar0 hpar0id
      have : r = par0 := List.inj_on_of_nodup_map hinv.nodup_ids hrdb hpar0
        (hrid.trans hpar0id.symm)
      unfold upN
      rw [hpar]
      dsimp only
      rw [hrhead, this]
      rfl
    have hinner := remove_layer_fold lk d
      (((bfs_layers db (db.peer.length + 1) [target]).drop (k + 1)).flatten.map
        Peer.id) hR hlkmem (layer_ids_nodup hinv _ hlk)
      (by
        intro p0 hp0 hc
        obtain ⟨row, hrowmem, hrowid⟩ := List.mem_map.mp hc
        obtain ⟨m, lj, hlj, hrowlj⟩ := mem_layer_of_mem_drop_flatten hrowmem
        have hrowdb : row ∈ db.peer :=
          bfs_layers_mem db (db.peer.length + 1) [target]
            (fun q hq => (List.mem_singleton.mp hq) ▸ htarget) lj
            (List.get?_mem hlj) row hrowlj
        have : row = p0 := List.inj_on_of_nodup_map hinv.nodup_ids hrowdb
          (hlkmem p0 hp0) hrowid
        subst this
        exact layers_disjoint hinv hrank htarget (db.peer.length + 1)
          (show k < k + 1 + m by omega) hlk hlj hp0 hrowlj)
      (by
        intro p0 hp0 c0 hc0 hcp
        obtain ⟨lj, hlj, hclj⟩ :=
          layers_children_covered hinv hrank htarget hlk hc0 hp0 hcp
        refine List.mem_map.mpr ⟨c0, ?_, rfl⟩
        refine List.mem_flatten.mpr ⟨lj, ?_, hclj⟩
        have := List.get?_drop (bfs_layers db (db.peer.length + 1) [target])
          (k + 1) 0
        rw [Nat.add_zero] at this
        rw [hlj] at this
        exact List.get?_mem this)
      (by
        intro p0 hp0 tpid hpar
        obtain ⟨par0, hpar0db, hpar0id, -⟩ :=
          hinv.parent_mem p0 (hlkmem p0 hp0) tpid hpar
        have hu1 : upN db 1 p0 = some par0 :=
          hup1 (hlkmem p0 hp0) hpar hpar0db hpar0id
        have hupk : upN db k p0 = some target :=
          layers_upN hinv htarget (db.peer.length + 1) k lk p0 hlk hp0
        refine ⟨?_, ?_, par0, hpar0db, hpar0id⟩
        · intro hc
          obtain ⟨row, hrowmem, hrowid⟩ := List.mem_map.mp hc
          obtain ⟨m, lj, hlj, hrowlj⟩ := mem_layer_of_mem_drop_flatten hrowmem
          have hrowdb : row ∈ db.peer :=
            bfs_layers_mem db (db.peer.length + 1) [target]
              (fun q hq => (List.mem_singleton.mp hq) ▸ htarget) lj
              (List.get?_mem hlj) row hrowlj
          have hrowpar : row = par0 := List.inj_on_of_nodup_map hinv.nodup_ids
            hrowdb hpar0db (hrowid.trans hpar0id.symm)
          subst hrowpar
          have hupj : upN db (k + 1 + m) row = some target :=
            layers_upN hinv htarget (db.peer.length + 1) (k + 1 + m) lj row
              hlj hrowlj
          have hupcomp : upN db (1 + (k + 1 + m)) p0 = some target := by
            rw [upN_add, hu1]
            exact hupj
          exact upN_no_revisit hrank htarget
            (show k < 1 + (k + 1 + m) by omega) hupk hupcomp
        · intro p1 hp1 hp1id
          have hp1par : p1 = par0 := List.inj_on_of_nodup_map hinv.nodup_ids
            (hlkmem p1 hp1) hpar0db (hp1id.trans hpar0id.symm)
          subst hp1par
          have hupp1 : upN db k p1 = some target :=
            layers_upN hinv htarget (db.peer.length + 1) k lk p1 hlk hp1
          have hupcomp : upN db (1 + k) p0 = some target := by
            rw [upN_add, hu1]
            exact hupp1
          exact upN_no_revisit hrank htarget (show k < 1 + k by omega)
            hupk hupcomp)
    have hsplit : ((bfs_layers db (db.peer.length + 1) [target]).take
        (k + 1)).reverse =
        lk :: ((bfs_layers db (db.peer.length + 1) [target]).take k).reverse := by
      rw [List.take_succ,
        show (bfs_layers db (db.peer.length + 1) [target])[k]? = some lk from by
          rw [← List.get?_eq_getElem?]
          exact hlk]
      simp
    rcases hinner with ⟨d', hfold1, hR'⟩ | ⟨herr, p0, hp0, hp0par⟩
    · have hRnext : RInv db
          (((bfs_layers db (db.peer.length + 1) [target]).drop k).flatten.map
            Peer.id) d' := by
        refine rinv_congr ?_ hR'
        intro x
        have hdropeq : (bfs_layers db (db.peer.length + 1) [target]).drop k =
            lk :: (bfs_layers db (db.peer.length + 1) [target]).drop (k + 1) := by
          have h1 := List.drop_eq_get_cons hklt
          have h2 := List.get?_eq_get hklt
          rw [hlk] at h2
          rw [h1, ← Option.some_inj.mp h2]
        rw [hdropeq]
        simp only [List.flatten_cons, List.map_append, List.mem_append]
      have hres := ih (by omega) d' hRnext
      rcases hres with ⟨d'', hfold2, hRfin⟩ | ⟨herr2, hroot⟩
      · refine Or.inl ⟨d'', ?_, hRfin⟩
        rw [hsplit, List.foldlM_cons, hfold1]
        exact hfold2
      · refine Or.inr ⟨?_, hroot⟩
        rw [hsplit, List.foldlM_cons, hfold1]
        exact herr2
    · refine Or.inr ⟨?_, lk, List.get?_mem hlk, p0, hp0, hp0par⟩
      rw [hsplit, List.foldlM_cons, herr]
      rfl

/-- C4: on an index satisfying the tree invariant whose parent pointers
admit a rank function (no cycles), `remove_peer_subtree` — which processes
the breadth-first layers in reverse, so each peer's children are deleted
before it and its stored child set is empty at deletion time — never
returns the assertion failure guarding `peer::index::remove`; and for a
non-root target it succeeds outright with every subtree peer's row deleted
(each `remove` having first erased the peer from its parent's child set and
then deleted the row). -/
theorem c4_thm {db : Db} {rank : Nat → Nat} (hinv : PeerInv db)
    (hrank : ∀ q ∈ db.peer, ∀ pid, q.parent_id = some pid → rank pid < rank q.id)
    {target : Peer} (htarget : target ∈ db.peer) :
    (∀ s, remove_peer_subtree target db ≠ .error (.assertionFailure s)) ∧
    (∀ tpid, target.parent_id = some tpid →
      ∃ db', remove_peer_subtree target db = .ok db' ∧
        ∀ l ∈ get_breadth_first_child_peers target db, ∀ p ∈ l,
          ∀ row ∈ db'.peer, row.id ≠ p.id) := by
  obtain ⟨branch, hbranch⟩ := get_root_to_peer_subtree_ok hinv hrank htarget
  have hR0 : RInv db
      (((bfs_layers db (db.peer.length + 1) [target]).drop
        (bfs_layers db (db.peer.length + 1) [target]).length).flatten.map
        Peer.id) db := by
    refine rinv_congr ?_ (rinv_init hinv)
    intro x
    rw [List.drop_length]
    simp
  have houter := remove_outer_fold hinv hrank htarget
    (bfs_layers db (db.peer.length + 1) [target]).length (le_refl _) db hR0
  rw [List.take_length] at houter
  have hrps : remove_peer_subtree target db =
      (bfs_layers db (db.peer.length + 1) [target]).reverse.foldlM
        (fun d layer =>
          layer.foldlM
            (fun dd peer => peer_remove { id := some peer.id }
              (review_remove { peer := some peer } dd)) d) db := by
    unfold remove_peer_subtree
    rw [hbranch]
    rfl
  have hnoroot : ∀ tpid, target.parent_id = some tpid →
      ¬(∃ l ∈ bfs_layers db (db.peer.length + 1) [target], ∃ p0 ∈ l,
        p0.parent_id = none) := by
    rintro tpid htp ⟨l, hl, p0, hp0, hp0par⟩
    obtain ⟨i, hi⟩ := List.mem_iff_get?.mp hl
    cases i with
    | zero =>
      have hne : bfs_layers db (db.peer.length + 1) [target] ≠ [] := by
        intro hc
        rw [hc] at hi
        exact Option.noConfusion hi
      have hh := bfs_layers_head db [target] (db.peer.length + 1)
        (List.cons_ne_nil _ _) (by omega)
      rw [← List.get?_zero, hi] at hh
      obtain rfl : l = [target] := Option.some_inj.mp hh
      obtain rfl : p0 = target := List.mem_singleton.mp hp0
      rw [htp] at hp0par
      exact Option.noConfusion hp0par
    | succ j =>
      obtain ⟨l', hl'⟩ := get?_some_of_succ hi
      have hchain := bfs_layers_chain db (db.peer.length + 1) [target] j l' l
        hl' hi
      rw [hchain] at hp0
      obtain ⟨-, q, -, hqpar⟩ := bfs_children_mem hp0
      rw [hqpar] at hp0par
      exact Option.noConfusion hp0par
  constructor
  · intro s hc
    rcases houter with ⟨d', hfold, -⟩ | ⟨herr, -⟩
    · rw [hrps, hfold] at hc
      exact Except.noConfusion hc
    · rw [hrps, herr] at hc
      have := Except.error.inj hc
      exact DbError.noConfusion this
  · intro tpid htp
    rcases houter with ⟨d', hfold, hRfin⟩ | ⟨-, hroot⟩
    · refine ⟨d', by rw [hrps]; exact hfold, ?_⟩
      intro l hl p hp row hrow hc
      have hpid : p.id ∈ ((bfs_layers db (db.peer.length + 1)
          [target]).flatten.map Peer.id) := by
        refine List.mem_map.mpr ⟨p, List.mem_flatten.mpr ⟨l, ?_, hp⟩, rfl⟩
        exact hl
      exact hRfin.ids_sub row hrow (hc ▸ hpid)
    · exact absurd hroot (hnoroot tpid htp)

theorem c7_db_inv : PeerInv c7_db := by
  refine ⟨by decide, by decide, by decide, ?_, by decide, by decide⟩
  intro p hp pid hpid
  have hp' : p = c7_root ∨ p = c7_A ∨ p = c7_B ∨ p = c7_C := by
    simpa [c7_db, empty_db] using hp
  rcases hp' with rfl | rfl | rfl | rfl
  · exact Option.noConfusion hpid
  · have h2 : some (1 : Nat) = some pid := hpid
    obtain rfl : pid = 1 := (Option.some_inj.mp h2).symm
    exact ⟨c7_root, by decide, by decide, by decide⟩
  · have h2 : some (2 : Nat) = some pid := hpid
    obtain rfl : pid = 2 := (Option.some_inj.mp h2).symm
    exact ⟨c7_A, by decide, by decide, by decide⟩
  · have h2 : some (1 : Nat) = some pid := hpid
    obtain rfl : pid = 1 := (Option.some_inj.mp h2).symm
    exact ⟨c7_root, by decide, by decide, by decide⟩

theorem c7_db_rank : ∀ q ∈ c7_db.peer, ∀ pid,
    q.parent_id = some pid → (fun n => n) pid < (fun n => n) q.id := by
  intro q hq pid hpid
  have hq' : q = c7_root ∨ q = c7_A ∨ q = c7_B ∨ q = c7_C := by
    simpa [c7_db, empty_db] using hq
  rcases hq' with rfl | rfl | rfl | rfl
  · exact Option.noConfusion hpid
  · have h2 : some (1 : Nat) = some pid := hpid
    obtain rfl : pid = 1 := (Option.some_inj.mp h2).symm
    decide
  · have h2 : some (2 : Nat) = some pid := hpid
    obtain rfl : pid = 2 := (Option.some_inj.mp h2).symm
    decide
  · have h2 : some (1 : Nat) = some pid := hpid
    obtain rfl : pid = 1 := (Option.some_inj.mp h2).symm
    decide

theorem c4_witness :
    (∀ s, remove_peer_subtree c7_A c7_db ≠ .error (.assertionFailure s)) ∧
    ∃ db', remove_peer_subtree c7_A c7_db = .ok db' ∧
      ∀ l ∈ get_breadth_first_child_peers c7_A c7_db, ∀ p ∈ l,
        ∀ row ∈ db'.peer, row.id ≠ p.id :=
  ⟨(c4_thm c7_db_inv c7_db_rank (by decide)).1,
   (c4_thm c7_db_inv c7_db_rank (by decide)).2 1 rfl⟩
